import Mathlib

/-!
# Referrer classification of GoatCounter (`ref.go`)

A shallow embedding of `cleanRefURL` and `HitStats.ListRefsByPathID`, together
with the parts of Go's `strings` and `net/url` packages they call.

Go strings are byte sequences. A Go string is represented here by the Lean
string whose characters are its bytes (code points below 256), so the ASCII
literals of the source denote themselves, and `len` and slicing are the
length, `take` and `drop` of the character list.
-/

set_option autoImplicit false

/-- Go's `string`: a sequence of bytes, one `Char` per byte. -/
abbrev GoString := String

/-! ## Go builtins: `len` and slice expressions -/

/-- The builtin `len(s)`, an `int`. -/
def len (s : GoString) : Int := s.data.length

/-- The slice expression `s[:hi]`; out of range (a run-time panic in Go) is `none`. -/
def sliceTo (s : GoString) (hi : Int) : Option GoString :=
  if 0 ≤ hi ∧ hi ≤ len s then some ⟨s.data.take hi.toNat⟩ else none

/-- The slice expression `s[lo:]`; out of range (a run-time panic in Go) is `none`. -/
def sliceFrom (s : GoString) (lo : Int) : Option GoString :=
  if 0 ≤ lo ∧ lo ≤ len s then some ⟨s.data.drop lo.toNat⟩ else none

/-! ## Package `strings` -/

namespace strings

/-- Go `strings.HasPrefix`. -/
def HasPrefix (s pre : GoString) : Bool := pre.data.isPrefixOf s.data

/-- Go `strings.HasSuffix`. -/
def HasSuffix (s suf : GoString) : Bool := suf.data.isSuffixOf s.data

/-- Position of the first occurrence of `sub` in `s`, counted from `i`. -/
def indexFrom (sub : List Char) : List Char → Nat → Option Nat
  | [], i => if sub.isEmpty then some i else none
  | c :: cs, i => if sub.isPrefixOf (c :: cs) then some i else indexFrom sub cs (i + 1)

/-- Go `strings.Index`: the first position of `sub` in `s`, or `-1`. -/
def Index (s sub : GoString) : Int :=
  match indexFrom sub.data s.data 0 with
  | some i => (i : Int)
  | none => -1

/-- Go `strings.Contains`, which is `Index(s, sub) >= 0`. -/
def Contains (s sub : GoString) : Bool := decide (Index s sub ≥ 0)

/-- Go `strings.TrimPrefix`. -/
def TrimPrefix (s pre : GoString) : GoString :=
  if HasPrefix s pre then ⟨s.data.drop pre.data.length⟩ else s

/-- Go `strings.TrimLeft`: drops the leading bytes that occur in `cutset`. -/
def TrimLeft (s cutset : GoString) : GoString :=
  ⟨s.data.dropWhile (fun c => cutset.data.contains c)⟩

end strings

/-! ## Package `net/url` -/

namespace url

/-- The escaping modes of `net/url`. -/
inductive encoding where
  | encodePath
  | encodePathSegment
  | encodeHost
  | encodeZone
  | encodeUserPassword
  | encodeQueryComponent
  | encodeFragment
  deriving DecidableEq, Repr

open encoding

/-- Go `url.shouldEscape`: whether byte `c` must be percent-encoded in `mode`. -/
def shouldEscape (c : Char) (mode : encoding) : Bool :=
  if ('a' ≤ c ∧ c ≤ 'z') ∨ ('A' ≤ c ∧ c ≤ 'Z') ∨ ('0' ≤ c ∧ c ≤ '9') then false
  else if (mode = encodeHost ∨ mode = encodeZone) ∧
      c ∈ ['!', '$', '&', '\'', '(', ')', '*', '+', ',', ';', '=', ':', '[', ']', '<', '>', '"'] then
    false
  else if c ∈ ['-', '_', '.', '~'] then false
  else if c ∈ ['$', '&', '+', ',', '/', ':', ';', '=', '?', '@'] then
    match mode with
    | encodePath => c = '?'
    | encodePathSegment => c = '/' ∨ c = ';' ∨ c = ',' ∨ c = '?'
    | encodeUserPassword => c = '@' ∨ c = '/' ∨ c = '?' ∨ c = ':'
    | encodeQueryComponent => true
    | encodeFragment => false
    | _ => true
  else if mode = encodeFragment ∧ c ∈ ['!', '(', ')', '*'] then false
  else true

/-- The digit `"0123456789ABCDEF"[n]`. -/
def upperhex (n : Nat) : Char :=
  if n < 10 then Char.ofNat (48 + n) else Char.ofNat (55 + n)

/-- The bytes `escape` writes for one input byte. -/
def escapeByte (mode : encoding) (c : Char) : List Char :=
  if c = ' ' ∧ mode = encodeQueryComponent then ['+']
  else if shouldEscape c mode then
    ['%', upperhex (c.toNat / 16 % 16), upperhex (c.toNat % 16)]
  else [c]

/-- Go `url.escape`: percent-encodes every byte that `shouldEscape` selects
(a space becomes `+` in a query component). -/
def escape (s : GoString) (mode : encoding) : GoString :=
  ⟨s.data.flatMap (escapeByte mode)⟩

/-- Go `url.QueryEscape`. -/
def QueryEscape (s : GoString) : GoString := escape s encodeQueryComponent

/-- Go `url.ishex`. -/
def ishex (c : Char) : Bool :=
  ('0' ≤ c ∧ c ≤ '9') ∨ ('a' ≤ c ∧ c ≤ 'f') ∨ ('A' ≤ c ∧ c ≤ 'F')

/-- Go `url.unhex`. -/
def unhex (c : Char) : Nat :=
  if '0' ≤ c ∧ c ≤ '9' then c.toNat - 48
  else if 'a' ≤ c ∧ c ≤ 'f' then c.toNat - 97 + 10
  else if 'A' ≤ c ∧ c ≤ 'F' then c.toNat - 65 + 10
  else 0

/-- The loop of Go `url.unescape` (modes other than `encodeZone`): decodes
`%XX`, turns `+` into a space in a query component, and fails (`none`) on a
malformed escape or on a byte a host may not hold. -/
def unescapeBytes (mode : encoding) : List Char → Option (List Char)
  | [] => some []
  | '%' :: a :: b :: rest =>
    if !ishex a || !ishex b then none
    else if mode = encodeHost ∧ unhex a < 8 ∧ (a, b) ≠ ('2', '5') then none
    else (unescapeBytes mode rest).map (fun t => Char.ofNat (unhex a * 16 + unhex b) :: t)
  | '%' :: _ => none
  | c :: rest =>
    if mode = encodeHost ∧ c.toNat < 128 ∧ shouldEscape c encodeHost then none
    else
      (unescapeBytes mode rest).map
        (fun t => (if c = '+' ∧ mode = encodeQueryComponent then ' ' else c) :: t)

/-- Go `url.unescape`, for the modes other than `encodeZone`. -/
def unescape (s : GoString) (mode : encoding) : Option GoString :=
  (unescapeBytes mode s.data).map (fun t => ⟨t⟩)

/-- Go `url.validEncoding`. -/
def validEncoding (s : GoString) (mode : encoding) : Bool :=
  s.data.all (fun c =>
    if c ∈ ['!', '$', '&', '\'', '(', ')', '*', '+', ',', ';', '=', ':', '@', '[', ']', '%'] then true
    else !shouldEscape c mode)

/-- Go `url.Userinfo`. -/
structure Userinfo where
  username : GoString
  password : GoString
  passwordSet : Bool
  deriving DecidableEq, Repr

/-- Go `(*Userinfo).String`. -/
def Userinfo.render (ui : Userinfo) : GoString :=
  let s := escape ui.username encodeUserPassword
  if ui.passwordSet then s ++ ":" ++ escape ui.password encodeUserPassword else s

/-- Go `url.URL`; `User` is a pointer in Go, `none` is `nil`. -/
structure URL where
  Scheme : GoString := ""
  Opaque : GoString := ""
  User : Option Userinfo := none
  Host : GoString := ""
  Path : GoString := ""
  RawPath : GoString := ""
  OmitHost : Bool := false
  ForceQuery : Bool := false
  RawQuery : GoString := ""
  Fragment : GoString := ""
  RawFragment : GoString := ""
  deriving DecidableEq, Repr

/-- Go `(*URL).EscapedPath`. -/
def URL.EscapedPath (u : URL) : GoString :=
  if u.RawPath ≠ "" ∧ validEncoding u.RawPath encodePath ∧
      unescape u.RawPath encodePath = some u.Path then u.RawPath
  else if u.Path = "*" then "*"
  else escape u.Path encodePath

/-- Go `(*URL).EscapedFragment`. -/
def URL.EscapedFragment (u : URL) : GoString :=
  if u.RawFragment ≠ "" ∧ validEncoding u.RawFragment encodeFragment ∧
      unescape u.RawFragment encodeFragment = some u.Fragment then u.RawFragment
  else escape u.Fragment encodeFragment

/-- The first path segment: `strings.Cut(path, "/")`'s first result. -/
def firstSegment (path : GoString) : List Char := path.data.takeWhile (fun c => c ≠ '/')

/-- Go `(*URL).String`: the URL reassembled as
`scheme:opaque?query#fragment` or `scheme://userinfo@host/path?query#fragment`. -/
def URL.String (u : URL) : GoString :=
  let s₀ : GoString := if u.Scheme ≠ "" then u.Scheme ++ ":" else ""
  let s₁ : GoString :=
    if u.Opaque ≠ "" then s₀ ++ u.Opaque
    else
      let auth : GoString :=
        if u.Scheme ≠ "" ∨ u.Host ≠ "" ∨ u.User.isSome then
          if u.OmitHost ∧ u.Host = "" ∧ u.User.isNone then ""
          else
            (if u.Host ≠ "" ∨ u.Path ≠ "" ∨ u.User.isSome then "//" else "") ++
            (match u.User with
              | some ui => ui.render ++ "@"
              | none => "") ++
            (if u.Host ≠ "" then escape u.Host encodeHost else "")
        else ""
      let b := s₀ ++ auth
      let path := u.EscapedPath
      let b := if path ≠ "" ∧ path.data.head? ≠ some '/' ∧ u.Host ≠ "" then b ++ "/" else b
      let b := if b = "" ∧ ':' ∈ firstSegment path then b ++ "./" else b
      b ++ path
  let s₂ := if u.ForceQuery ∨ u.RawQuery ≠ "" then s₁ ++ "?" ++ u.RawQuery else s₁
  if u.Fragment ≠ "" then s₂ ++ "#" ++ u.EscapedFragment else s₂

/-! ### Parsing -/

/-- Go `strings.Cut(s, sep)` for a one-byte separator: the text before the
first `sep` and the text after it (all of `s` and nothing when there is none). -/
def cut (sep : Char) (s : List Char) : List Char × List Char :=
  (s.takeWhile (fun c => c != sep), (s.dropWhile (fun c => c != sep)).drop 1)

/-- The split of `s` at its last `sep` (what `strings.LastIndex` finds), if
there is one: the text before it and the text after it. -/
def cutLast (sep : Char) (s : List Char) : Option (List Char × List Char) :=
  if sep ∈ s then
    some (((s.reverse.dropWhile (fun c => c != sep)).drop 1).reverse,
      (s.reverse.takeWhile (fun c => c != sep)).reverse)
  else none

/-- Go `url.stringContainsCTLByte`. -/
def stringContainsCTLByte (s : List Char) : Bool :=
  s.any (fun b => decide (b < ' ') || b == '\x7f')

/-- The loop of Go `url.getScheme`; `acc` is `rawURL[:i]`. The result is
`(scheme, rest)`, `none` for the error "missing protocol scheme". -/
def getSchemeLoop (rawURL : List Char) : List Char → List Char → Option (List Char × List Char)
  | _, [] => some ([], rawURL)
  | acc, c :: cs =>
    if ('a' ≤ c ∧ c ≤ 'z') ∨ ('A' ≤ c ∧ c ≤ 'Z') then getSchemeLoop rawURL (acc ++ [c]) cs
    else if ('0' ≤ c ∧ c ≤ '9') ∨ c = '+' ∨ c = '-' ∨ c = '.' then
      if acc = [] then some ([], rawURL) else getSchemeLoop rawURL (acc ++ [c]) cs
    else if c = ':' then
      if acc = [] then none else some (acc, cs)
    else some ([], rawURL)

/-- Go `url.getScheme`. -/
def getScheme (rawURL : List Char) : Option (List Char × List Char) :=
  getSchemeLoop rawURL [] rawURL

/-- Go `strings.ToLower` on the bytes of a scheme (ASCII letters, digits, `+-.`). -/
def toLowerASCII (s : List Char) : List Char :=
  s.map (fun c => if 'A' ≤ c ∧ c ≤ 'Z' then Char.ofNat (c.toNat + 32) else c)

/-- Go `url.validOptionalPort`. -/
def validOptionalPort (port : List Char) : Bool :=
  match port with
  | [] => true
  | c :: ds => c == ':' && ds.all (fun d => decide ('0' ≤ d ∧ d ≤ '9'))

/-- Go `url.parseHost`, for hosts that are not bracketed IP literals; a
host starting with `[` is outside this model and gives `none`, like an error. -/
def parseHost (host : List Char) : Option (List Char) :=
  if host.head? = some '[' then none
  else
    match cutLast ':' host with
    | some (_, port) =>
      if validOptionalPort (':' :: port) then unescapeBytes encodeHost host else none
    | none => unescapeBytes encodeHost host

/-- Go `url.validUserinfo`. -/
def validUserinfo (s : List Char) : Bool :=
  s.all (fun c =>
    decide (('a' ≤ c ∧ c ≤ 'z') ∨ ('A' ≤ c ∧ c ≤ 'Z') ∨ ('0' ≤ c ∧ c ≤ '9')) ||
    decide (c ∈ ['-', '.', '_', ':', '~', '!', '$', '&', '\'', '(', ')', '*', '+', ',', ';', '=', '%',
      '@']))

/-- Go `url.parseAuthority`: `(User, Host)`, `none` for an error. -/
def parseAuthority (authority : List Char) : Option (Option Userinfo × List Char) :=
  match cutLast '@' authority with
  | none => (parseHost authority).map (fun h => (none, h))
  | some (userinfo, hostpart) =>
    (parseHost hostpart).bind fun host =>
      if !validUserinfo userinfo then none
      else if ':' ∈ userinfo then
        (unescapeBytes encodeUserPassword (cut ':' userinfo).1).bind fun username =>
          (unescapeBytes encodeUserPassword (cut ':' userinfo).2).map fun password =>
            (some ⟨⟨username⟩, ⟨password⟩, true⟩, host)
      else
        (unescapeBytes encodeUserPassword userinfo).map fun username =>
          (some ⟨⟨username⟩, "", false⟩, host)

/-- Go `(*URL).setPath`. -/
def URL.setPath (u : URL) (p : List Char) : Option URL :=
  (unescapeBytes encodePath p).map fun path =>
    { u with Path := ⟨path⟩,
             RawPath := if (⟨p⟩ : GoString) = escape ⟨path⟩ encodePath then "" else ⟨p⟩ }

/-- Go `(*URL).setFragment`. -/
def URL.setFragment (u : URL) (f : List Char) : Option URL :=
  (unescapeBytes encodeFragment f).map fun frag =>
    { u with Fragment := ⟨frag⟩,
             RawFragment := if (⟨f⟩ : GoString) = escape ⟨frag⟩ encodeFragment then "" else ⟨f⟩ }

/-- The query split of Go `url.parse`, `(ForceQuery, rest, RawQuery)`: a lone
trailing `?` sets `ForceQuery`, otherwise the text is cut at the first `?`. -/
def splitQuery (rest : List Char) : Bool × List Char × List Char :=
  if ['?'].isSuffixOf rest ∧ rest.count '?' = 1 then (true, rest.take (rest.length - 1), [])
  else (false, (cut '?' rest).1, (cut '?' rest).2)

/-- Go `url.parse(rawURL, false)` after scheme and query are split off and
stored in `u`: the opaque, authority and path parts of `rest`. -/
def parseHier (u : URL) (rest : List Char) : Option URL :=
  if rest.head? ≠ some '/' ∧ u.Scheme ≠ "" then some { u with Opaque := ⟨rest⟩ }
  else if rest.head? ≠ some '/' ∧ ':' ∈ (cut '/' rest).1 then none
  else if (u.Scheme ≠ "" ∨ ['/', '/', '/'].isPrefixOf rest = false) ∧
      ['/', '/'].isPrefixOf rest = true then
    let authority := (rest.drop 2).takeWhile (fun c => c != '/')
    let rest := (rest.drop 2).dropWhile (fun c => c != '/')
    (parseAuthority authority).bind fun (user, host) =>
      URL.setPath { u with User := user, Host := ⟨host⟩ } rest
  else if u.Scheme ≠ "" ∧ rest.head? = some '/' then
    URL.setPath { u with OmitHost := true } rest
  else URL.setPath u rest

/-- Go `url.parse(rawURL, false)`: a URL without fragment. -/
def parseNoFragment (rawURL : List Char) : Option URL :=
  if stringContainsCTLByte rawURL then none
  else if rawURL = ['*'] then some { Path := "*" }
  else
    (getScheme rawURL).bind fun (scheme, rest) =>
      let q := splitQuery rest
      parseHier { Scheme := ⟨toLowerASCII scheme⟩, ForceQuery := q.1, RawQuery := ⟨q.2.2⟩ } q.2.1

/-- Go `url.Parse`: `none` stands for an error (or a bracketed host, which
`parseHost` here does not model). -/
def Parse (rawURL : GoString) : Option URL :=
  (parseNoFragment (cut '#' rawURL.data).1).bind fun u =>
    if (cut '#' rawURL.data).2 = [] then some u else u.setFragment (cut '#' rawURL.data).2

end url

/-! ## `ref.go`: the tables -/

open strings url

/-- The entries of the Go map `groups`, in source order. -/
def groupsTable : List (GoString × GoString) :=
  [ ("news.ycombinator.com", "Hacker News"),
    ("hn.algolia.com", "Hacker News"),
    ("hckrnews.com", "Hacker News"),
    ("hn.premii.com", "Hacker News"),
    ("com.stefandekanski.hackernews.free", "Hacker News"),
    ("io.github.hidroh.materialistic", "Hacker News"),
    ("hackerweb.app", "Hacker News"),
    ("www.daemonology.net/hn-daily", "Hacker News"),
    ("quiethn.com", "Hacker News"),
    ("hnews.xyz", "Hacker News"),
    ("hackernewsmobile.com", "Hacker News"),
    ("mail.google.com", "Email"),
    ("com.google.android.gm", "Email"),
    ("mail.yahoo.com", "Email"),
    ("org.fox.ttrss", "RSS"),
    ("www.inoreader.com", "RSS"),
    ("com.innologica.inoreader", "RSS"),
    ("usepanda.com", "RSS"),
    ("feedly.com", "RSS"),
    ("com.google.android.googlequicksearchbox", "Google"),
    ("com.google.android.googlequicksearchbox/https/www.google.com", "Google"),
    ("com.andrewshu.android.reddit", "www.reddit.com"),
    ("com.laurencedawson.reddit_sync", "www.reddit.com"),
    ("com.laurencedawson.reddit_sync.dev", "www.reddit.com"),
    ("com.laurencedawson.reddit_sync.pro", "www.reddit.com"),
    ("m.facebook.com", "www.facebook.com"),
    ("l.facebook.com", "www.facebook.com"),
    ("lm.facebook.com", "www.facebook.com"),
    ("org.telegram.messenger", "Telegram Messenger"),
    ("com.Slack", "Slack Chat"),
    ("baidu.com", "Baidu"),
    ("c.tieba.baidu.com", "Baidu"),
    ("m.baidu.com", "Baidu"),
    ("tieba.baidu.com", "Baidu"),
    ("www.baidu.com", "Baidu") ]

/-- The entries of the Go map `hostAlias`, in source order. -/
def hostAliasTable : List (GoString × GoString) :=
  [ ("en.m.wikipedia.org", "en.wikipedia.org"),
    ("m.facebook.com", "www.facebook.com"),
    ("m.habr.com", "habr.com"),
    ("old.reddit.com", "www.reddit.com"),
    ("i.reddit.com", "www.reddit.com"),
    ("np.reddit.com", "www.reddit.com"),
    ("fr.reddit.com", "www.reddit.com") ]

/-- A Go map read `m[k]` with the comma-ok form: the value of the entry with
key `k`, if there is one (the keys of a map literal are distinct). -/
def mapLookup (k : GoString) : List (GoString × GoString) → Option GoString
  | [] => none
  | (k', v) :: rest => if k = k' then some v else mapLookup k rest

/-- The map read `groups[k]`. -/
def groups (k : GoString) : Option GoString := mapLookup k groupsTable

/-- The map read `hostAlias[k]`. -/
def hostAlias (k : GoString) : Option GoString := mapLookup k hostAliasTable

/-! ## `ref.go`: `cleanRefURL` -/

/-- The `switch` of `cleanRefURL` on a `www.reddit.com` path: the new value
of `refURL.Path`; `none` when a slice bound is out of range. -/
def redditPath (path : GoString) : Option GoString :=
  if HasSuffix path "/top" || HasSuffix path "/new" then sliceTo path (len path - 4)
  else if HasSuffix path "/search" then sliceTo path (len path - 7)
  else if HasSuffix path ".compact" then sliceTo path (len path - 8)
  else some path

/-- Go `cleanRefURL(ref, refURL)` with the mutation of `*refURL` made
explicit: the result is the returned pair `(display, isKnownGroup)` together
with the value `*refURL` holds when the function returns; `none` stands for
a run-time panic (a slice out of range).

`q := refURL.Query()` and the `q.Del` calls of the source only build and
change the local map `q`, which is never read afterwards, so they leave no
trace here. -/
def cleanRefURLState (ref : GoString) (refURL : URL) : Option ((GoString × Bool) × URL) :=
  if refURL.Host = "link.oreilly.com" then some (("link.oreilly.com", false), refURL)
  else
    -- Always remove protocol.
    let ref := TrimPrefix ref refURL.Scheme
    let refURL := { refURL with Scheme := "" }
    -- Normalize some hosts.
    let refURL :=
      match hostAlias refURL.Host with
      | some a => { refURL with Host := a }
      | none => refURL
    -- Group based on URL.
    if HasPrefix refURL.Host "www.google." || HasPrefix refURL.Host "google." then
      some (("Google", true), refURL)
    else if Contains refURL.Host "search.yahoo.com" then some (("Yahoo", true), refURL)
    else
      match groups refURL.Host with
      | some g => some ((g, true), refURL)
      | none =>
      match groups ref with
      | some g => some ((g, true), refURL)
      | none =>
      if refURL.Host = "lobste.rs" && !HasPrefix refURL.Path "/s/" then
        some (("lobste.rs", false), refURL)
      else if refURL.Host = "gambe.ro" && !HasPrefix refURL.Path "/s/" then
        some (("lobste.rs", false), refURL)
      else if refURL.Host = "getpocket.com" || refURL.Host = "app.getpocket.com" then
        some (("getpocket.com", false), refURL)
      else
        -- Reddit
        (if refURL.Host = "www.reddit.com" then
            (redditPath refURL.Path).map (fun p => { refURL with Path := p })
          else some refURL).bind fun refURL =>
        if refURL.Host = "t.co" && decide (len refURL.Path > 1) then
          some (("twitter.com/search?q=https%3A%2F%2Ft.co" ++ QueryEscape refURL.Path, false),
            refURL)
        else
          -- Clean query parameters.
          let i := Index ref "?"
          if i = -1 then some ((TrimLeft refURL.String "/", false), refURL)
          else
            let refURL := { refURL with RawQuery := "" }
            let s := refURL.String
            if len s > 1 then (sliceFrom s 2).map (fun d => ((d, false), refURL))
            else some (("/", false), refURL)

/-- Go `cleanRefURL`: the returned pair `(display, isKnownGroup)`, or `none`
for a run-time panic. -/
def cleanRefURL (ref : GoString) (refURL : URL) : Option (GoString × Bool) :=
  (cleanRefURLState ref refURL).map Prod.fst

/-! ## `ref.go`: `HitStats.ListRefsByPathID` -/

/-- The part of Go `HitStats` the adapter touches: the `More` flag and the
`Stats` slice, over any row type. -/
structure HitStats (α : Type) where
  More : Bool
  Stats : List α
  deriving DecidableEq, Repr

/-- The storage call `zdb.Select(ctx, &h.Stats, query, params)` as the
adapter sees it: given the rows the destination slice holds and the `limit`
and `offset` parameters, the rows the slice holds afterwards and the error
(`none` is Go's `nil`). The site, the time range and the path are fixed by
the caller and are part of the function. -/
abbrev Select (α ε : Type) := List α → Int → Int → List α × Option ε

/-- Go `errors.Wrap(err, s)`: `nil` stays `nil`, an error carries the
context string. -/
def errorsWrap {ε : Type} (err : Option ε) (s : GoString) : Option (ε × GoString) :=
  err.map (fun e => (e, s))

/-- Go `a + b` on `int`, taken as 64 bits wide (as on every 64-bit platform):
the sum in two's complement, which wraps around at `MaxInt64`. -/
def addInt (a b : Int) : Int :=
  (a + b + 9223372036854775808) % 18446744073709551616 - 9223372036854775808

/-- Go `(h *HitStats) ListRefsByPathID(ctx, pathID, rng, limit, offset)`: the
value of `*h` when the method returns and the returned error; `none` stands
for a run-time panic (the slice `h.Stats[:len(h.Stats)-1]` out of range).
The storage is asked for `limit + 1` rows, a sum of Go `int`s. -/
def ListRefsByPathID {α ε : Type} (select : Select α ε) (h : HitStats α) (limit offset : Int) :
    Option (HitStats α × Option (ε × GoString)) :=
  let (stats, err) := select h.Stats (addInt limit 1) offset
  let h := { h with Stats := stats }
  (if (h.Stats.length : Int) > limit then
      if 0 ≤ (h.Stats.length : Int) - 1 then
        some { h with More := true, Stats := h.Stats.take ((h.Stats.length : Int) - 1).toNat }
      else none
    else some h).map fun h => (h, errorsWrap err "HitStats.ListRefsByPathID")

/-! ## Predicates on inputs -/

/-- A URL that holds nothing but a scheme, a host, a path and a query: the
referrer URLs of the spec's data model (`Scheme`, `Host`, `Path`, `RawQuery`
populated), as `url.Parse` yields them for `scheme://host/path?query`. -/
def url.URL.plain (u : URL) : Prop :=
  u.Opaque = "" ∧ u.User = none ∧ u.RawPath = "" ∧ u.OmitHost = false ∧
    u.ForceQuery = false ∧ u.Fragment = "" ∧ u.RawFragment = ""

instance (u : URL) : Decidable u.plain := by
  unfold url.URL.plain
  infer_instance

/-- No byte of `s` is one that `url.escape` rewrites in `mode`: `s` needs no
escaping. -/
def noEscape (s : GoString) (mode : encoding) : Prop :=
  ∀ c ∈ s.data, shouldEscape c mode = false

instance (s : GoString) (mode : encoding) : Decidable (noEscape s mode) := by
  unfold noEscape
  infer_instance

/-- An unreserved byte of RFC 3986: a letter, a digit, or one of `-_.~`. -/
def unreservedByte (c : Char) : Bool :=
  decide (('a' ≤ c ∧ c ≤ 'z') ∨ ('A' ≤ c ∧ c ≤ 'Z') ∨ ('0' ≤ c ∧ c ≤ '9')) ||
    decide (c ∈ ['-', '_', '.', '~'])

/-- A host name made of unreserved bytes only (no port, no IP literal). -/
def plainHost (h : GoString) : Prop := h ≠ "" ∧ ∀ c ∈ h.data, unreservedByte c = true

instance (h : GoString) : Decidable (plainHost h) := by
  unfold plainHost
  infer_instance

/-- A path as a parsed URL with a host holds it, in no need of escaping:
empty or starting with `/`, and every byte left alone by `url.escape`. -/
def plainPath (p : GoString) : Prop :=
  (p = "" ∨ HasPrefix p "/" = true) ∧ noEscape p encoding.encodePath

instance (p : GoString) : Decidable (plainPath p) := by
  unfold plainPath
  infer_instance

/-- The raw string agrees with the parsed URL about the query: when the URL
has a query, the raw string (scheme trimmed, as `cleanRefURL` searches it)
holds a `?`. -/
def rawAgrees (ref : GoString) (u : URL) : Prop :=
  u.RawQuery ≠ "" → Index (TrimPrefix ref u.Scheme) "?" ≠ -1

instance (ref : GoString) (u : URL) : Decidable (rawAgrees ref u) := by
  unfold rawAgrees
  infer_instance

/-! ## `cleanRefURL` in stages

The body of `cleanRefURL` cut at the points where the proofs need to enter
it; `cleanRefURLState_eq` shows that the stages compose to the function. -/

/-- Source lines 99-102: the host rewritten by `hostAlias`. -/
def normalizeHost (refURL : URL) : URL :=
  match hostAlias refURL.Host with
  | some a => { refURL with Host := a }
  | none => refURL

/-- Source lines 95-102: the scheme cleared and the host rewritten. -/
def normalizeURL (refURL : URL) : URL := normalizeHost { refURL with Scheme := "" }

/-- Source lines 167-190: generic cleanup. -/
def cleanQuery (ref : GoString) (refURL : URL) : Option ((GoString × Bool) × URL) :=
  let i := Index ref "?"
  if i = -1 then some ((TrimLeft refURL.String "/", false), refURL)
  else
    let refURL := { refURL with RawQuery := "" }
    let s := refURL.String
    if len s > 1 then (sliceFrom s 2).map (fun d => ((d, false), refURL))
    else some (("/", false), refURL)

/-- Source lines 143-190: the reddit switch, the `t.co` rule and generic cleanup. -/
def pathRules (ref : GoString) (refURL : URL) : Option ((GoString × Bool) × URL) :=
  (if refURL.Host = "www.reddit.com" then
      (redditPath refURL.Path).map (fun p => { refURL with Path := p })
    else some refURL).bind fun refURL =>
  if refURL.Host = "t.co" && decide (len refURL.Path > 1) then
    some (("twitter.com/search?q=https%3A%2F%2Ft.co" ++ QueryEscape refURL.Path, false), refURL)
  else cleanQuery ref refURL

/-- Source lines 104-190: the rules applied to the scheme-trimmed raw string
and the normalized URL. -/
def hostRules (ref : GoString) (refURL : URL) : Option ((GoString × Bool) × URL) :=
  if HasPrefix refURL.Host "www.google." || HasPrefix refURL.Host "google." then
    some (("Google", true), refURL)
  else if Contains refURL.Host "search.yahoo.com" then some (("Yahoo", true), refURL)
  else
    match groups refURL.Host with
    | some g => some ((g, true), refURL)
    | none =>
    match groups ref with
    | some g => some ((g, true), refURL)
    | none =>
    if refURL.Host = "lobste.rs" && !HasPrefix refURL.Path "/s/" then
      some (("lobste.rs", false), refURL)
    else if refURL.Host = "gambe.ro" && !HasPrefix refURL.Path "/s/" then
      some (("lobste.rs", false), refURL)
    else if refURL.Host = "getpocket.com" || refURL.Host = "app.getpocket.com" then
      some (("getpocket.com", false), refURL)
    else pathRules ref refURL

/-- The host after the alias step of `cleanRefURL`. -/
def aliasHost (h : GoString) : GoString := (hostAlias h).getD h

/-- None of the rules of source lines 104-141 (Google, Yahoo, the two table
reads, lobste.rs, gambe.ro, Pocket) applies to the scheme-trimmed raw string
`ref` and the normalized URL `v`. -/
def noHostRule (ref : GoString) (v : URL) : Prop :=
  HasPrefix v.Host "www.google." = false ∧ HasPrefix v.Host "google." = false ∧
    Contains v.Host "search.yahoo.com" = false ∧ groups v.Host = none ∧ groups ref = none ∧
    ¬ (v.Host = "lobste.rs" ∧ HasPrefix v.Path "/s/" = false) ∧
    ¬ (v.Host = "gambe.ro" ∧ HasPrefix v.Path "/s/" = false) ∧
    v.Host ≠ "getpocket.com" ∧ v.Host ≠ "app.getpocket.com"

instance (ref : GoString) (v : URL) : Decidable (noHostRule ref v) := by
  unfold noHostRule
  infer_instance

/-! ## Storage models for the adapter -/

/-- A storage that holds the matching rows `rows` and never fails: the query
appends to the destination the rows from `offset` on, at most `limit` of them. -/
def tableSelect {α ε : Type} (rows : List α) : Select α ε :=
  fun dest limit offset => (dest ++ (rows.drop offset.toNat).take limit.toNat, none)

/-- A storage whose query fails with `e` after it has scanned the rows
`scanned` into the destination. -/
def failingSelect {α ε : Type} (scanned : List α) (e : ε) : Select α ε :=
  fun dest _ _ => (dest ++ scanned, some e)

/-- A storage that never fails and hands back, as its only row, the `limit`
it was asked with. -/
def echoSelect {ε : Type} : Select Int ε :=
  fun dest limit _ => (dest ++ [limit], none)

/-- The alias-resolved host `h` is caught by no rule that `cleanRefURL`
tries before generic cleanup: it is no Google or Yahoo host, no `groups`
key, and none of the hosts with a rule of their own. -/
def genericHost (h : GoString) : Prop :=
  HasPrefix h "www.google." = false ∧ HasPrefix h "google." = false ∧
    Contains h "search.yahoo.com" = false ∧ groups h = none ∧
    h ∉ ["lobste.rs", "gambe.ro", "getpocket.com", "app.getpocket.com", "www.reddit.com", "t.co"]

instance (h : GoString) : Decidable (genericHost h) := by
  unfold genericHost
  infer_instance

/-! ## Bytes and the pieces of a rendering -/

/-- A Go string is a sequence of bytes: each `Char` of the model stands for
one byte. -/
def isBytes (s : GoString) : Prop := ∀ c ∈ s.data, c.toNat < 256

instance (s : GoString) : Decidable (isBytes s) := by
  unfold isBytes
  infer_instance

/-- The authority as `(*URL).String` writes it: the user information with
`@`, if there is any, and the escaped host. -/
def url.URL.authority (u : URL) : GoString :=
  (match u.User with
    | some ui => ui.render ++ "@"
    | none => "") ++ escape u.Host encoding.encodeHost

/-- What `(*URL).String` writes after the path of a URL without query: the
`?` of `ForceQuery` and the fragment. -/
def url.URL.trailer (u : URL) : GoString :=
  (if u.ForceQuery = true then "?" else "") ++
    (if u.Fragment ≠ "" then "#" ++ u.EscapedFragment else "")

/-! ## Tables and stages of `cleanRefURL` -/

theorem mapLookup_mem {k v : GoString} {t : List (GoString × GoString)}
    (h : mapLookup k t = some v) : (k, v) ∈ t := by
  induction t with
  | nil => simp [mapLookup] at h
  | cons kv rest ih =>
    obtain ⟨k', v'⟩ := kv
    simp only [mapLookup] at h
    split at h
    · rename_i hk
      simp only [Option.some.injEq] at h
      simp [hk, h]
    · exact List.mem_cons_of_mem _ (ih h)

/-- No `hostAlias` key is caught by the earlier rules of `cleanRefURL`. -/
theorem hostAliasTable_keys :
    ∀ kv ∈ hostAliasTable, kv.1 ≠ "link.oreilly.com" ∧ HasPrefix kv.1 "www.google." = false ∧
      HasPrefix kv.1 "google." = false ∧ Contains kv.1 "search.yahoo.com" = false := by
  decide

/-- No `groups` key is caught by the rules `cleanRefURL` tries before the table. -/
theorem groupsTable_keys :
    ∀ kv ∈ groupsTable, kv.1 ≠ "link.oreilly.com" ∧ HasPrefix kv.1 "www.google." = false ∧
      HasPrefix kv.1 "google." = false ∧ Contains kv.1 "search.yahoo.com" = false := by
  decide

theorem groupsTable_keys_head : ∀ kv ∈ groupsTable, kv.1.data.head? ≠ some ':' := by
  decide

theorem groupsTable_labels : ∀ kv ∈ groupsTable, '?' ∉ kv.2.data := by
  decide

theorem hostAliasTable_values :
    ∀ kv ∈ hostAliasTable, hostAlias kv.2 = none ∧ plainHost kv.2 ∧ kv.2 ≠ "link.oreilly.com" := by
  decide

theorem groups_colon (t : GoString) : groups ("://" ++ t) = none := by
  cases h : groups ("://" ++ t) with
  | none => rfl
  | some g =>
    have := groupsTable_keys_head _ (mapLookup_mem h)
    simp [String.data_append] at this

/-- How the claims' "raw is no `groups` key" gives the lookup miss the code
needs: when the URL has no scheme the trimmed string is `raw` itself, and
when `raw` starts with its scheme and `:` (as the string a URL with that
scheme was parsed from does) the trimmed string starts with `:`, which no
`groups` key does. -/
theorem groups_TrimPrefix_of_raw (raw scheme : GoString) (h : groups raw = none)
    (hs : scheme = "" ∨ HasPrefix raw (scheme ++ ":") = true) :
    groups (TrimPrefix raw scheme) = none := by
  rcases hs with rfl | hs
  · have : TrimPrefix raw "" = raw := by
      simp [TrimPrefix, HasPrefix]
    rw [this]
    exact h
  · simp only [HasPrefix, List.isPrefixOf_iff_prefix, String.data_append] at hs
    obtain ⟨t, ht⟩ := hs
    have hp : HasPrefix raw scheme = true := by
      simp only [HasPrefix, List.isPrefixOf_iff_prefix]
      exact ⟨(":" : GoString).data ++ t, by rw [← List.append_assoc]; exact ht⟩
    cases hg : groups (TrimPrefix raw scheme) with
    | none => rfl
    | some g =>
      have hk := groupsTable_keys_head _ (mapLookup_mem hg)
      simp only [TrimPrefix, hp, if_true, ← ht, List.append_assoc, List.drop_left] at hk
      exact absurd rfl hk

theorem indexFrom_question (l : List Char) (i : Nat) :
    indexFrom ['?'] l i = none ↔ '?' ∉ l := by
  induction l generalizing i with
  | nil => simp [indexFrom]
  | cons c cs ih =>
    by_cases hc : c = '?'
    · subst hc
      simp [indexFrom, List.isPrefixOf]
    · have : (['?'].isPrefixOf (c :: cs)) = false := by
        simp [List.isPrefixOf, Ne.symm hc]
      simp only [indexFrom, this, Bool.false_eq_true, if_false, ih, List.mem_cons, not_or]
      exact ⟨fun h => ⟨Ne.symm hc, h⟩, fun h => h.2⟩

/-- The test `strings.Index(ref, "?") == -1` of the source says that `ref`
holds no `?`. -/
theorem Index_question (s : GoString) : Index s "?" = -1 ↔ '?' ∉ s.data := by
  unfold Index
  have hq : ("?" : GoString).data = ['?'] := rfl
  rw [hq]
  cases h : indexFrom ['?'] s.data 0 with
  | none => simpa using (indexFrom_question s.data 0).mp h
  | some i =>
    have := (indexFrom_question s.data 0).not.mp (by rw [h]; simp)
    simp only [not_not] at this
    constructor
    · intro e
      have e' : (i : Int) = -1 := e
      omega
    · exact fun e => absurd this e

/-- A `?` of the raw string survives the scheme strip when the scheme holds
none (a parsed scheme never does). -/
theorem Index_TrimPrefix_of_raw (raw scheme : GoString) (h : '?' ∈ raw.data)
    (hs : '?' ∉ scheme.data) : Index (TrimPrefix raw scheme) "?" ≠ -1 := by
  rw [Ne, Index_question, not_not]
  unfold TrimPrefix
  split
  · rename_i hp
    simp only [HasPrefix, List.isPrefixOf_iff_prefix] at hp
    obtain ⟨t, ht⟩ := hp
    rw [← ht] at h ⊢
    simp only [List.drop_left]
    rcases List.mem_append.mp h with h | h
    · exact absurd h hs
    · exact h
  · exact h

theorem HasPrefix_trans {s a b : GoString} (h : HasPrefix s a = true)
    (hab : HasPrefix a b = true) : HasPrefix s b = true := by
  simp only [HasPrefix, List.isPrefixOf_iff_prefix] at *
  exact hab.trans h

theorem cleanRefURLState_eq (ref : GoString) (u : URL) :
    cleanRefURLState ref u =
      if u.Host = "link.oreilly.com" then some (("link.oreilly.com", false), u)
      else hostRules (TrimPrefix ref u.Scheme) (normalizeURL u) := by
  rfl

theorem normalizeURL_eq (u : URL) :
    normalizeURL u = { u with Scheme := "", Host := aliasHost u.Host } := by
  unfold normalizeURL normalizeHost aliasHost
  simp only
  cases hostAlias u.Host <;> rfl

theorem normalizeURL_Scheme (u : URL) : (normalizeURL u).Scheme = "" := by
  rw [normalizeURL_eq]

theorem normalizeURL_Host (u : URL) : (normalizeURL u).Host = aliasHost u.Host := by
  rw [normalizeURL_eq]

theorem normalizeURL_Path (u : URL) : (normalizeURL u).Path = u.Path := by
  rw [normalizeURL_eq]

theorem normalizeURL_RawQuery (u : URL) : (normalizeURL u).RawQuery = u.RawQuery := by
  rw [normalizeURL_eq]

theorem normalizeURL_plain (u : URL) (h : u.plain) : (normalizeURL u).plain := by
  rw [normalizeURL_eq]
  exact h

theorem cleanRefURL_eq (ref : GoString) (u : URL) (h : u.Host ≠ "link.oreilly.com") :
    cleanRefURL ref u = (hostRules (TrimPrefix ref u.Scheme) (normalizeURL u)).map Prod.fst := by
  rw [cleanRefURL, cleanRefURLState_eq, if_neg h]

theorem aliasHost_cases (h : GoString) :
    aliasHost h = h ∨ (hostAlias (aliasHost h) = none ∧ plainHost (aliasHost h) ∧
      aliasHost h ≠ "link.oreilly.com") := by
  unfold aliasHost
  cases ha : hostAlias h with
  | none => left; rfl
  | some a => right; exact hostAliasTable_values _ (mapLookup_mem ha)

theorem aliasHost_idem (h : GoString) : aliasHost (aliasHost h) = aliasHost h := by
  rcases aliasHost_cases h with e | ⟨e, -, -⟩
  · rw [e, e]
  · show (hostAlias (aliasHost h)).getD (aliasHost h) = aliasHost h
    rw [e]
    rfl

theorem plainHost_aliasHost {h : GoString} (hh : plainHost h) : plainHost (aliasHost h) := by
  rcases aliasHost_cases h with e | ⟨-, e, -⟩
  · rw [e]; exact hh
  · exact e

theorem aliasHost_ne_oreilly {h : GoString} (hh : h ≠ "link.oreilly.com") :
    aliasHost h ≠ "link.oreilly.com" := by
  rcases aliasHost_cases h with e | ⟨-, -, e⟩
  · rw [e]; exact hh
  · exact e

theorem aliasHost_eq_tco (h : GoString) (e : aliasHost h = "t.co") : h = "t.co" := by
  unfold aliasHost at e
  cases ha : hostAlias h with
  | none => simpa [ha] using e
  | some a =>
    have hv : ∀ kv ∈ hostAliasTable, kv.2 ≠ "t.co" := by decide
    rw [ha] at e
    exact absurd e (hv _ (mapLookup_mem ha))

theorem hostRules_of_noHostRule (ref : GoString) (v : URL) (h : noHostRule ref v) :
    hostRules ref v = pathRules ref v := by
  obtain ⟨h₁, h₂, h₃, h₄, h₅, h₆, h₇, h₈, h₉⟩ := h
  have h₆' : (decide (v.Host = "lobste.rs") && !HasPrefix v.Path "/s/") = false := by
    by_cases e : v.Host = "lobste.rs"
    · have : HasPrefix v.Path "/s/" = true := by
        by_contra c
        exact h₆ ⟨e, by simpa using c⟩
      simp [this]
    · simp [e]
  have h₇' : (decide (v.Host = "gambe.ro") && !HasPrefix v.Path "/s/") = false := by
    by_cases e : v.Host = "gambe.ro"
    · have : HasPrefix v.Path "/s/" = true := by
        by_contra c
        exact h₇ ⟨e, by simpa using c⟩
      simp [this]
    · simp [e]
  simp [hostRules, h₁, h₂, h₃, h₄, h₅, h₆', h₇', h₈, h₉]

theorem pathRules_reddit (ref : GoString) (v : URL) (h : v.Host = "www.reddit.com") :
    pathRules ref v = (redditPath v.Path).bind fun p => cleanQuery ref { v with Path := p } := by
  simp only [pathRules, h, if_true]
  cases redditPath v.Path with
  | none => rfl
  | some p =>
    simp only [Option.map_some', Option.some_bind]
    rfl

theorem pathRules_generic (ref : GoString) (v : URL) (h₁ : v.Host ≠ "www.reddit.com")
    (h₂ : ¬ (v.Host = "t.co" ∧ len v.Path > 1)) : pathRules ref v = cleanQuery ref v := by
  have h₂' : (decide (v.Host = "t.co") && decide (len v.Path > 1)) = false := by
    by_cases e : v.Host = "t.co"
    · have : ¬ len v.Path > 1 := fun c => h₂ ⟨e, c⟩
      simp [this]
    · simp [e]
  simp only [pathRules, h₁, if_false, Option.some_bind, h₂']
  rfl

/-! ## Grouping by host (claims C1, C2, C3) -/

/-- Group lookup by host, as the code does it: when the host, rewritten by
`hostAlias`, is a `groups` key, the result is that key's label with
`isKnownGroup = true`, whatever the rest of the URL and the raw string are. -/
theorem cleanRefURL_group_of_aliasHost (ref : GoString) (u : URL) (g : GoString)
    (hg : groups (aliasHost u.Host) = some g) : cleanRefURL ref u = some (g, true) := by
  have h₀ : u.Host ≠ "link.oreilly.com" := by
    intro e
    rw [e] at hg
    revert hg
    have : aliasHost "link.oreilly.com" = "link.oreilly.com" := by decide
    rw [this]
    have : groups "link.oreilly.com" = none := by decide
    rw [this]
    simp
  obtain ⟨-, h₂, h₃, h₄⟩ := groupsTable_keys _ (mapLookup_mem hg)
  rw [cleanRefURL_eq _ _ h₀]
  simp only at h₂ h₃ h₄
  simp [hostRules, normalizeURL_Host, h₂, h₃, h₄, hg]

/-- Claim C1, at the host the claim singles out: `m.facebook.com` is a key
of `groups` (label `www.facebook.com`) and also a key of `hostAlias`; the
alias rewrite runs first, the rewritten host `www.facebook.com` is no
`groups` key, and the referrer is reported as an ordinary page with
`isKnownGroup = false`, not as the group. -/
theorem C1_m_facebook_not_grouped :
    groups "m.facebook.com" = some "www.facebook.com" ∧
    hostAlias "m.facebook.com" = some "www.facebook.com" ∧
    groups "www.facebook.com" = none ∧
    cleanRefURL "https://m.facebook.com/story"
      { Scheme := "https", Host := "m.facebook.com", Path := "/story" } =
      some ("www.facebook.com/story", false) ∧
    cleanRefURL "https://l.facebook.com/story"
      { Scheme := "https", Host := "l.facebook.com", Path := "/story" } =
      some ("www.facebook.com", true) := by
  decide

/-- Claim C2: a host that starts with `www.google.` or `google.` is reported
as `("Google", true)`, for every raw string and every other field of the URL;
neither the `link.oreilly.com` passthrough nor host aliasing gets in first. -/
theorem C2_google (ref : GoString) (u : URL)
    (h : HasPrefix u.Host "www.google." = true ∨ HasPrefix u.Host "google." = true) :
    cleanRefURL ref u = some ("Google", true) := by
  have h₀ : u.Host ≠ "link.oreilly.com" := by
    intro e
    rw [e] at h
    revert h
    decide
  have h₁ : hostAlias u.Host = none := by
    cases ha : hostAlias u.Host with
    | none => rfl
    | some a =>
      obtain ⟨_, h₂, h₃, _⟩ := hostAliasTable_keys _ (mapLookup_mem ha)
      simp only at h₂ h₃
      rw [h₂, h₃] at h
      simp at h
  rcases h with h | h <;> simp [cleanRefURL, cleanRefURLState, h₀, h₁, h]

/-- Witness of C2 at host `www.google.co.nz`. -/
theorem C2_google_witness :
    cleanRefURL "https://www.google.co.nz/search?q=x"
      { Scheme := "https", Host := "www.google.co.nz", Path := "/search", RawQuery := "q=x" } =
      some ("Google", true) :=
  C2_google _ _ (Or.inl (by decide))

/-- Claim C3 as stated fails: the host `google.search.yahoo.com` contains
`search.yahoo.com`, but the Google rule comes first. -/
theorem C3_counterexample :
    Contains "google.search.yahoo.com" "search.yahoo.com" = true ∧
    cleanRefURL "https://google.search.yahoo.com/"
      { Scheme := "https", Host := "google.search.yahoo.com", Path := "/" } =
      some ("Google", true) ∧
    cleanRefURL "https://google.search.yahoo.com/"
      { Scheme := "https", Host := "google.search.yahoo.com", Path := "/" } ≠
      some ("Yahoo", true) := by
  decide

/-- Claim C3, amended: a host that contains `search.yahoo.com` and does not
start with `www.google.` or `google.` is reported as `("Yahoo", true)`, for
every raw string and every other field of the URL. -/
theorem C3_yahoo (ref : GoString) (u : URL)
    (h : Contains u.Host "search.yahoo.com" = true)
    (hg₁ : HasPrefix u.Host "www.google." = false) (hg₂ : HasPrefix u.Host "google." = false) :
    cleanRefURL ref u = some ("Yahoo", true) := by
  have h₀ : u.Host ≠ "link.oreilly.com" := by
    intro e
    rw [e] at h
    revert h
    decide
  have h₁ : hostAlias u.Host = none := by
    cases ha : hostAlias u.Host with
    | none => rfl
    | some a =>
      obtain ⟨_, _, _, h₄⟩ := hostAliasTable_keys _ (mapLookup_mem ha)
      simp only at h₄
      rw [h₄] at h
      simp at h
  simp [cleanRefURL, cleanRefURLState, h₀, h₁, h, hg₁, hg₂]

/-- Witness of C3 at host `nz.search.yahoo.com`. -/
theorem C3_yahoo_witness :
    cleanRefURL "https://nz.search.yahoo.com/"
      { Scheme := "https", Host := "nz.search.yahoo.com", Path := "/" } = some ("Yahoo", true) :=
  C3_yahoo _ _ (by decide) (by decide) (by decide)

/-! ## Rendering a plain URL and generic cleanup -/

theorem escapeByte_of_not_shouldEscape {c : Char} {mode : encoding}
    (h : shouldEscape c mode = false) : escapeByte mode c = [c] := by
  unfold escapeByte
  have h' : ¬ (c = ' ' ∧ mode = encoding.encodeQueryComponent) := by
    rintro ⟨rfl, rfl⟩
    revert h
    decide
  simp [h, h']

theorem flatMap_escapeByte_of_noEscape (mode : encoding) (l : List Char)
    (h : ∀ c ∈ l, shouldEscape c mode = false) : l.flatMap (escapeByte mode) = l := by
  induction l with
  | nil => rfl
  | cons c cs ih =>
    rw [List.flatMap_cons, escapeByte_of_not_shouldEscape (h c (List.mem_cons_self _ _)),
      ih (fun d hd => h d (List.mem_cons_of_mem _ hd))]
    rfl

theorem escape_of_noEscape {s : GoString} {mode : encoding} (h : noEscape s mode) :
    escape s mode = s := by
  apply String.ext
  simp only [escape]
  exact flatMap_escapeByte_of_noEscape mode s.data h

/-- In a path, `/` is never escaped, so escaping keeps a leading `/`. -/
theorem escape_path_head (p : GoString) (h : HasPrefix p "/" = true) :
    ∃ t, (escape p encoding.encodePath).data = '/' :: t := by
  obtain ⟨cs⟩ := p
  cases cs with
  | nil => simp [HasPrefix] at h
  | cons c cs =>
    have hc : c = '/' := by
      simp only [HasPrefix] at h
      have : ['/'].isPrefixOf (c :: cs) = true := h
      simp only [List.isPrefixOf, Bool.and_true, beq_iff_eq] at this
      exact this.symm
    subst hc
    exact ⟨cs.flatMap (escapeByte encoding.encodePath), by
      simp only [escape, List.flatMap_cons]
      rfl⟩

/-- The rendering of a plain URL with an empty scheme and a non-empty host. -/
theorem String_of_plain (u : URL) (hp : u.plain) (hs : u.Scheme = "") (hh : u.Host ≠ "")
    (hpath : u.Path = "" ∨ HasPrefix u.Path "/" = true) :
    u.String = "//" ++ escape u.Host encoding.encodeHost ++ escape u.Path encoding.encodePath ++
      (if u.RawQuery ≠ "" then "?" ++ u.RawQuery else "") := by
  obtain ⟨h1, h2, h3, h4, h5, h6, h7⟩ := hp
  have hE : u.EscapedPath = escape u.Path encoding.encodePath := by
    unfold URL.EscapedPath
    have : u.Path ≠ "*" := by
      rcases hpath with h | h
      · rw [h]; decide
      · intro e; rw [e] at h; revert h; decide
    simp [h3, this]
  have hhead : ¬ (¬ (escape u.Path encoding.encodePath) = "" ∧
      ¬ (escape u.Path encoding.encodePath).data.head? = some '/') := by
    rintro ⟨a, b⟩
    rcases hpath with h | h
    · apply a; rw [h]; rfl
    · obtain ⟨t, ht⟩ := escape_path_head u.Path h
      apply b; rw [ht]; rfl
  have hne : ("//" ++ escape u.Host encoding.encodeHost : GoString) ≠ "" := by
    intro e
    have := congrArg String.data e
    simp at this
  have hcond : (u.Scheme ≠ "" ∨ u.Host ≠ "" ∨ u.User.isSome = true) := Or.inr (Or.inl hh)
  have hcond₂ : ¬ (u.OmitHost = true ∧ u.Host = "" ∧ u.User.isNone = true) := fun h => hh h.2.1
  have hcond₃ : (u.Host ≠ "" ∨ u.Path ≠ "" ∨ u.User.isSome = true) := Or.inl hh
  unfold URL.String
  simp only [hcond, hcond₂, hcond₃, if_true, if_false]
  simp only [hs, h1, h2, h5, h6, hE, hhead, hh, hne, if_true, if_false, ne_eq, not_true_eq_false,
    not_false_eq_true, String.append_empty, String.empty_append, false_and, false_or]
  by_cases hq : u.RawQuery = "" <;> simp [hq, hhead, hne, String.append_assoc]

/-- A host that needs no escaping is left alone by `strings.TrimLeft(_, "/")`
when it follows the `//` of a rendering. -/
theorem TrimLeft_render (h t : GoString) (hne : h ≠ "") (hh : noEscape h encoding.encodeHost) :
    TrimLeft ("//" ++ h ++ t) "/" = h ++ t := by
  obtain ⟨cs⟩ := h
  cases cs with
  | nil => exact absurd rfl hne
  | cons c cs =>
    have hc : c ≠ '/' := by
      intro e
      have := hh c (List.mem_cons_self _ _)
      rw [e] at this
      revert this
      decide
    apply String.ext
    simp [TrimLeft, String.data_append, List.dropWhile, hc]

theorem sliceFrom_render (t : GoString) : sliceFrom ("//" ++ t) 2 = some t := by
  have : (0 : Int) ≤ 2 ∧ (2 : Int) ≤ len ("//" ++ t) := by
    simp only [len, String.data_append]
    constructor
    · decide
    · simp only [List.length_append, List.length_cons, List.length_nil]
      omega
  simp only [sliceFrom, this, and_self, if_true]
  rfl

theorem len_render (t : GoString) : len ("//" ++ t) > 1 := by
  simp only [len, String.data_append, List.length_append, List.length_cons, List.length_nil]
  omega

/-- Generic cleanup (the code after the `t.co` rule) on a plain URL with an
empty scheme and a non-empty host that needs no escaping, when a non-empty
query shows in the raw string: both branches give the host followed by the
escaped path. -/
theorem generic_cleanup (ref : GoString) (v : URL) (hp : v.plain) (hs : v.Scheme = "")
    (hne : v.Host ≠ "") (hh : noEscape v.Host encoding.encodeHost)
    (hpath : v.Path = "" ∨ HasPrefix v.Path "/" = true)
    (hq : v.RawQuery ≠ "" → Index ref "?" ≠ -1) :
    (if Index ref "?" = -1 then some ((TrimLeft v.String "/", false), v)
      else
        if len ({ v with RawQuery := "" } : URL).String > 1 then
          (sliceFrom ({ v with RawQuery := "" } : URL).String 2).map
            (fun d => ((d, false), ({ v with RawQuery := "" } : URL)))
        else some (("/", false), ({ v with RawQuery := "" } : URL))) =
      some ((v.Host ++ escape v.Path encoding.encodePath, false),
        if Index ref "?" = -1 then v else { v with RawQuery := "" }) := by
  split
  · rename_i hi
    have hq' : v.RawQuery = "" := by
      by_contra hc
      exact hq hc hi
    rw [String_of_plain v hp hs hne hpath, escape_of_noEscape hh]
    simp only [hq', ne_eq, not_true_eq_false, if_false, String.append_empty]
    rw [TrimLeft_render _ _ hne hh]
  · have hp' : ({ v with RawQuery := "" } : URL).plain := hp
    rw [String_of_plain _ hp' hs hne hpath, escape_of_noEscape hh]
    simp only [ne_eq, not_true_eq_false, if_false, String.append_empty]
    rw [String.append_assoc, if_pos (len_render _), sliceFrom_render]
    rfl

/-- Generic cleanup on a plain URL with an empty scheme and a non-empty
host that needs no escaping, when a non-empty query shows in the raw string:
both branches give the host followed by the escaped path. -/
theorem cleanQuery_plain (ref : GoString) (v : URL) (hp : v.plain) (hs : v.Scheme = "")
    (hne : v.Host ≠ "") (hh : noEscape v.Host encoding.encodeHost)
    (hpath : v.Path = "" ∨ HasPrefix v.Path "/" = true)
    (hq : v.RawQuery ≠ "" → Index ref "?" ≠ -1) :
    cleanQuery ref v = some ((v.Host ++ escape v.Path encoding.encodePath, false),
        if Index ref "?" = -1 then v else { v with RawQuery := "" }) :=
  generic_cleanup ref v hp hs hne hh hpath hq

/-! ## The per-host path rules (claims C6, C7, C8) -/

/-- The `switch` removes the one listing suffix the path ends in. -/
theorem redditPath_strip (p s : GoString) (hs : s ∈ ["/top", "/new", "/search", ".compact"]) :
    redditPath (p ++ s) = some p := by
  obtain ⟨cs⟩ := p
  simp only [List.mem_cons, List.mem_singleton, List.not_mem_nil, or_false] at hs
  rcases hs with rfl | rfl | rfl | rfl <;>
    simp [redditPath, HasSuffix, List.isSuffixOf, sliceTo, len, String.data_append]

theorem noHostRule_reddit (ref : GoString) (v : URL) (h : v.Host = "www.reddit.com")
    (hr : groups ref = none) : noHostRule ref v := by
  unfold noHostRule
  rw [h]
  exact ⟨by decide, by decide, by decide, by decide, hr, fun c => absurd c.1 (by decide),
    fun c => absurd c.1 (by decide), by decide, by decide⟩

/-- Claim C7: for host `t.co` with a path longer than one byte, and a raw
string that (once its scheme is trimmed, which is how the code looks it up)
is not a `groups` key, the display is the Twitter search URL for the link,
with `isKnownGroup = false`, whatever the query and the other fields are. -/
theorem C7_tco (ref : GoString) (u : URL) (hh : u.Host = "t.co") (hp : len u.Path > 1)
    (hr : groups (TrimPrefix ref u.Scheme) = none) :
    cleanRefURL ref u =
      some ("twitter.com/search?q=https%3A%2F%2Ft.co" ++ QueryEscape u.Path, false) := by
  have e₁ : hostAlias "t.co" = none := by decide
  have e₂ : HasPrefix "t.co" "www.google." = false := by decide
  have e₃ : HasPrefix "t.co" "google." = false := by decide
  have e₄ : Contains "t.co" "search.yahoo.com" = false := by decide
  have e₅ : groups "t.co" = none := by decide
  simp [cleanRefURL, cleanRefURLState, hh, e₁, e₂, e₃, e₄, e₅, hr, hp]

/-- Witness of C7: the spec's concrete case `https://t.co/abc123`. -/
theorem C7_tco_witness :
    cleanRefURL "https://t.co/abc123" { Scheme := "https", Host := "t.co", Path := "/abc123" } =
      some ("twitter.com/search?q=https%3A%2F%2Ft.co%2Fabc123", false) :=
  C7_tco "https://t.co/abc123" { Scheme := "https", Host := "t.co", Path := "/abc123" } rfl
    (by decide) (by decide)

theorem noHostRule_lobsters (ref : GoString) (v : URL)
    (h : v.Host = "lobste.rs" ∨ v.Host = "gambe.ro") (hp : HasPrefix v.Path "/s/" = true)
    (hr : groups ref = none) : noHostRule ref v := by
  unfold noHostRule
  rcases h with h | h <;> rw [h] <;>
    exact ⟨by decide, by decide, by decide, by decide, hr, fun c => by simp [hp] at c,
      fun c => by simp [hp] at c, by decide, by decide⟩

theorem upperhex_ne_question (n : Nat) (h : n < 16) : upperhex n ≠ '?' := by
  interval_cases n <;> decide

theorem question_not_mem_escapeByte (mode : encoding) (hm : shouldEscape '?' mode = true)
    (c : Char) : '?' ∉ escapeByte mode c := by
  unfold escapeByte
  split
  · decide
  · split
    · intro h
      simp only [List.mem_cons, List.mem_singleton, List.not_mem_nil, or_false] at h
      rcases h with h | h | h
      · exact absurd h (by decide)
      · exact upperhex_ne_question _ (Nat.mod_lt _ (by decide)) h.symm
      · exact upperhex_ne_question _ (Nat.mod_lt _ (by decide)) h.symm
    · rename_i hc
      intro h
      simp only [List.mem_singleton] at h
      rw [← h] at hc
      exact hc hm

theorem question_not_mem_escape (s : GoString) (mode : encoding)
    (hm : shouldEscape '?' mode = true) : '?' ∉ (escape s mode).data := by
  simp only [escape, List.mem_flatMap, not_exists, not_and]
  intro c _
  exact question_not_mem_escapeByte mode hm c

/-- The rendering of a plain URL without scheme and query holds no `?`. -/
theorem question_not_mem_String (v : URL) (hp : v.plain) (hs : v.Scheme = "")
    (hq : v.RawQuery = "") : '?' ∉ v.String.data := by
  obtain ⟨h1, h2, h3, h4, h5, h6, h7⟩ := hp
  have hH := question_not_mem_escape v.Host encoding.encodeHost (by decide)
  have hP : '?' ∉ v.EscapedPath.data := by
    unfold URL.EscapedPath
    simp only [h3, ne_eq, not_true_eq_false, false_and, if_false]
    split
    · decide
    · exact question_not_mem_escape v.Path encoding.encodePath (by decide)
  unfold URL.String
  simp only [hs, h1, h2, h5, h6, hq, ne_eq, not_true_eq_false, if_false, false_or,
    Option.isSome_none, Bool.false_eq_true, or_false, String.empty_append]
  split_ifs <;> simp [String.data_append, hH, hP]

theorem cleanQuery_no_question (ref : GoString) (v : URL) (hp : v.plain) (hs : v.Scheme = "")
    (hq : Index ref "?" ≠ -1) (r : (GoString × Bool) × URL) (hr : cleanQuery ref v = some r) :
    '?' ∉ r.1.1.data := by
  have hS := question_not_mem_String { v with RawQuery := "" } hp hs rfl
  simp only [cleanQuery, hq, if_false] at hr
  split at hr
  · simp only [sliceFrom] at hr
    split at hr
    · simp only [Option.map_some', Option.some.injEq] at hr
      rw [← hr]
      exact fun h => hS (List.mem_of_mem_drop h)
    · simp at hr
  · simp only [Option.some.injEq] at hr
    rw [← hr]
    show '?' ∉ ("/" : GoString).data
    decide

theorem pathRules_no_question (ref : GoString) (v : URL) (hp : v.plain) (hs : v.Scheme = "")
    (hq : Index ref "?" ≠ -1) (ht : ¬ (v.Host = "t.co" ∧ len v.Path > 1))
    (r : (GoString × Bool) × URL) (hr : pathRules ref v = some r) : '?' ∉ r.1.1.data := by
  by_cases hred : v.Host = "www.reddit.com"
  · rw [pathRules_reddit _ _ hred] at hr
    cases hp' : redditPath v.Path with
    | none => simp [hp'] at hr
    | some p =>
      rw [hp', Option.some_bind] at hr
      exact cleanQuery_no_question ref { v with Path := p } hp hs hq r hr
  · rw [pathRules_generic _ _ hred ht] at hr
    exact cleanQuery_no_question ref _ hp hs hq r hr

theorem hostRules_no_question (ref : GoString) (v : URL) (hp : v.plain) (hs : v.Scheme = "")
    (hq : Index ref "?" ≠ -1) (ht : ¬ (v.Host = "t.co" ∧ len v.Path > 1))
    (r : (GoString × Bool) × URL) (hr : hostRules ref v = some r) : '?' ∉ r.1.1.data := by
  unfold hostRules at hr
  split at hr
  · simp only [Option.some.injEq] at hr
    rw [← hr]
    simp only
    decide
  split at hr
  · simp only [Option.some.injEq] at hr
    rw [← hr]
    simp only
    decide
  split at hr
  · rename_i g hg
    simp only [Option.some.injEq] at hr
    rw [← hr]
    exact groupsTable_labels _ (mapLookup_mem hg)
  split at hr
  · rename_i g hg
    simp only [Option.some.injEq] at hr
    rw [← hr]
    exact groupsTable_labels _ (mapLookup_mem hg)
  split at hr
  · simp only [Option.some.injEq] at hr
    rw [← hr]
    simp only
    decide
  split at hr
  · simp only [Option.some.injEq] at hr
    rw [← hr]
    simp only
    decide
  split at hr
  · simp only [Option.some.injEq] at hr
    rw [← hr]
    simp only
    decide
  exact pathRules_no_question ref v hp hs hq ht r hr

/-! ## Parsing what `cleanRefURL` displays -/

theorem unreservedByte_cases {c : Char} (h : unreservedByte c = true) :
    (('a' ≤ c ∧ c ≤ 'z') ∨ ('A' ≤ c ∧ c ≤ 'Z') ∨ ('0' ≤ c ∧ c ≤ '9')) ∨
      c ∈ ['-', '_', '.', '~'] := by
  simpa [unreservedByte] using h

theorem shouldEscape_path_cases {c : Char} (h : shouldEscape c encoding.encodePath = false) :
    (('a' ≤ c ∧ c ≤ 'z') ∨ ('A' ≤ c ∧ c ≤ 'Z') ∨ ('0' ≤ c ∧ c ≤ '9')) ∨
      c ∈ ['-', '_', '.', '~', '$', '&', '+', ',', '/', ':', ';', '=', '@'] := by
  unfold shouldEscape at h
  split at h
  · rename_i h₁
    exact Or.inl h₁
  split at h
  · rename_i h₂
    exact absurd h₂.1 (by decide)
  split at h
  · rename_i h₃
    right
    simp only [List.mem_cons, List.mem_singleton, List.not_mem_nil, or_false] at h₃
    rcases h₃ with rfl | rfl | rfl | rfl <;> decide
  split at h
  · rename_i h₄
    right
    simp only [List.mem_cons, List.mem_singleton, List.not_mem_nil, or_false] at h₄
    rcases h₄ with rfl | rfl | rfl | rfl | rfl | rfl | rfl | rfl | rfl | rfl
    all_goals first | decide | exact absurd h (by decide)
  split at h
  · rename_i h₅
    exact absurd h₅.1 (by decide)
  · exact absurd h (by decide)

/-- The bytes that structure a URL, and control bytes, are not alphanumeric. -/
theorem alnum_not_special {c : Char}
    (h : ('a' ≤ c ∧ c ≤ 'z') ∨ ('A' ≤ c ∧ c ≤ 'Z') ∨ ('0' ≤ c ∧ c ≤ '9')) :
    c ≠ '/' ∧ c ≠ '?' ∧ c ≠ '#' ∧ c ≠ '%' ∧ c ≠ '@' ∧ c ≠ ':' ∧ c ≠ '[' ∧ ¬ c < ' ' ∧
      c ≠ '\x7f' := by
  refine ⟨?_, ?_, ?_, ?_, ?_, ?_, ?_, ?_, ?_⟩
  any_goals (rintro rfl; revert h; decide)
  intro hlt
  rcases h with h | h | h
  · exact absurd (lt_of_le_of_lt h.1 hlt) (by decide)
  · exact absurd (lt_of_le_of_lt h.1 hlt) (by decide)
  · exact absurd (lt_of_le_of_lt h.1 hlt) (by decide)

theorem unreservedByte_not_special {c : Char} (h : unreservedByte c = true) :
    c ≠ '/' ∧ c ≠ '?' ∧ c ≠ '#' ∧ c ≠ '%' ∧ c ≠ '@' ∧ c ≠ ':' ∧ c ≠ '[' ∧ ¬ c < ' ' ∧
      c ≠ '\x7f' := by
  rcases unreservedByte_cases h with h | h
  · exact alnum_not_special h
  · simp only [List.mem_cons, List.mem_singleton, List.not_mem_nil, or_false] at h
    rcases h with rfl | rfl | rfl | rfl <;> decide

theorem pathByte_not_special {c : Char} (h : shouldEscape c encoding.encodePath = false) :
    c ≠ '?' ∧ c ≠ '#' ∧ c ≠ '%' ∧ ¬ c < ' ' ∧ c ≠ '\x7f' := by
  rcases shouldEscape_path_cases h with h | h
  · obtain ⟨_, h₂, h₃, h₄, _, _, _, h₈, h₉⟩ := alnum_not_special h
    exact ⟨h₂, h₃, h₄, h₈, h₉⟩
  · simp only [List.mem_cons, List.mem_singleton, List.not_mem_nil, or_false] at h
    rcases h with rfl | rfl | rfl | rfl | rfl | rfl | rfl | rfl | rfl | rfl | rfl | rfl | rfl <;>
      decide

theorem unreservedByte_host {c : Char} (h : unreservedByte c = true) :
    shouldEscape c encoding.encodeHost = false := by
  rcases unreservedByte_cases h with h | h
  · simp [shouldEscape, h]
  · simp only [List.mem_cons, List.mem_singleton, List.not_mem_nil, or_false] at h
    rcases h with rfl | rfl | rfl | rfl <;> decide

theorem plainHost_noEscape {h : GoString} (hh : plainHost h) :
    noEscape h encoding.encodeHost :=
  fun c hc => unreservedByte_host (hh.2 c hc)

theorem cut_of_not_mem (sep : Char) (s : List Char) (h : sep ∉ s) : url.cut sep s = (s, []) := by
  have h₁ : ∀ c ∈ s, (c != sep) = true := by
    intro c hc
    simp only [bne_iff_ne, ne_eq]
    rintro rfl
    exact h hc
  simp only [url.cut, List.takeWhile_eq_self_iff.mpr h₁, List.dropWhile_eq_nil_iff.mpr h₁,
    List.drop_nil]

theorem cutLast_of_not_mem (sep : Char) (s : List Char) (h : sep ∉ s) :
    url.cutLast sep s = none := by
  simp [url.cutLast, h]

/-- Splitting `host ++ path` at the first `/`. -/
theorem split_authority (h p : List Char) (hh : '/' ∉ h) (hp : p = [] ∨ p.head? = some '/') :
    (h ++ p).takeWhile (fun c => c != '/') = h ∧ (h ++ p).dropWhile (fun c => c != '/') = p := by
  have h₁ : ∀ c ∈ h, (c != '/') = true := by
    intro c hc
    simp only [bne_iff_ne, ne_eq]
    rintro rfl
    exact hh hc
  rw [List.takeWhile_append_of_pos h₁, List.dropWhile_append_of_pos h₁]
  rcases hp with rfl | hp
  · simp
  · cases p with
    | nil => simp at hp
    | cons c cs =>
      simp only [List.head?_cons, Option.some.injEq] at hp
      subst hp
      simp [List.takeWhile, List.dropWhile]

theorem unescapeBytes_id (mode : encoding) (l : List Char) (h₁ : '%' ∉ l)
    (h₂ : mode = encoding.encodeHost → ∀ c ∈ l, shouldEscape c encoding.encodeHost = false)
    (h₃ : mode ≠ encoding.encodeQueryComponent) : unescapeBytes mode l = some l := by
  induction l with
  | nil => rfl
  | cons c cs ih =>
    have hc : c ≠ '%' := fun e => h₁ (e ▸ List.mem_cons_self _ _)
    have ih' := ih (fun m => h₁ (List.mem_cons_of_mem _ m))
      (fun e d hd => h₂ e d (List.mem_cons_of_mem _ hd))
    have hm : ¬ (mode = encoding.encodeHost ∧ c.toNat < 128 ∧
        shouldEscape c encoding.encodeHost = true) := by
      rintro ⟨e, -, hs⟩
      rw [h₂ e c (List.mem_cons_self _ _)] at hs
      exact absurd hs (by decide)
    unfold unescapeBytes
    split
    · rename_i heq
      exact absurd heq (by simp)
    · rename_i heq
      simp only [List.cons.injEq] at heq
      exact absurd heq.1 hc
    · rename_i heq
      simp only [List.cons.injEq] at heq
      exact absurd heq.1 hc
    · rename_i c' rest _ _ heq
      simp only [List.cons.injEq] at heq
      obtain ⟨rfl, rfl⟩ := heq
      simp [hm, ih', h₃]

theorem plainPath_head {p : GoString} (hp : plainPath p) :
    p.data = [] ∨ p.data.head? = some '/' := by
  rcases hp.1 with h | h
  · left; rw [h]
  · right
    obtain ⟨cs⟩ := p
    cases cs with
    | nil => simp [HasPrefix] at h
    | cons c cs =>
      have : ['/'].isPrefixOf (c :: cs) = true := h
      simp only [List.isPrefixOf, Bool.and_true, beq_iff_eq] at this
      simp [this.symm]

theorem getScheme_https (rest : List Char) :
    getScheme ('h' :: 't' :: 't' :: 'p' :: 's' :: ':' :: rest) =
      some (['h', 't', 't', 'p', 's'], rest) := by
  simp [getScheme, getSchemeLoop]

theorem splitQuery_of_not_mem (rest : List Char) (h : '?' ∉ rest) :
    splitQuery rest = (false, rest, []) := by
  have h₁ : ¬ (['?'].isSuffixOf rest = true ∧ rest.count '?' = 1) := by
    rintro ⟨-, hc⟩
    rw [List.count_eq_zero_of_not_mem h] at hc
    exact absurd hc (by decide)
  simp only [splitQuery, h₁, if_false, cut_of_not_mem _ _ h]

theorem parseHost_plain (hs : List Char)
    (hH : ∀ c ∈ hs, c ≠ '%' ∧ c ≠ ':' ∧ c ≠ '[' ∧ shouldEscape c encoding.encodeHost = false) :
    parseHost hs = some hs := by
  have h₁ : hs.head? ≠ some '[' := by
    cases hs with
    | nil => simp
    | cons c cs =>
      simp only [List.head?_cons, ne_eq, Option.some.injEq]
      exact (hH c (List.mem_cons_self _ _)).2.2.1
  have h₂ : ':' ∉ hs := fun m => (hH _ m).2.1 rfl
  have h₃ : '%' ∉ hs := fun m => (hH _ m).1 rfl
  simp only [parseHost, h₁, if_false, cutLast_of_not_mem _ _ h₂]
  exact unescapeBytes_id _ _ h₃ (fun _ c hc => (hH c hc).2.2.2) (by decide)

theorem setPath_plain (u : URL) (ps : List Char)
    (hP : ∀ c ∈ ps, shouldEscape c encoding.encodePath = false) :
    URL.setPath u ps = some { u with Path := ⟨ps⟩, RawPath := "" } := by
  have h₁ : '%' ∉ ps := fun m => (pathByte_not_special (hP _ m)).2.2.1 rfl
  have h₂ : escape ⟨ps⟩ encoding.encodePath = ⟨ps⟩ := escape_of_noEscape hP
  have h₃ : unescapeBytes encoding.encodePath ps = some ps :=
    unescapeBytes_id _ _ h₁ (fun e => absurd e (by decide)) (by decide)
  simp only [URL.setPath, h₃, Option.map_some', h₂, if_true]

/-- `url.Parse` on `https://` followed by a plain host and a plain path. -/
theorem Parse_https (h p : GoString) (hh : plainHost h) (hp : plainPath p) :
    Parse ("https://" ++ h ++ p) = some { Scheme := "https", Host := h, Path := p } := by
  have hphead := plainPath_head hp
  obtain ⟨hs⟩ := h
  obtain ⟨ps⟩ := p
  have hH : ∀ c ∈ hs, c ≠ '/' ∧ c ≠ '?' ∧ c ≠ '#' ∧ c ≠ '%' ∧ c ≠ '@' ∧ c ≠ ':' ∧ c ≠ '[' ∧
      ¬ c < ' ' ∧ c ≠ '\x7f' := fun c hc => unreservedByte_not_special (hh.2 c hc)
  have hP : ∀ c ∈ ps, c ≠ '?' ∧ c ≠ '#' ∧ c ≠ '%' ∧ ¬ c < ' ' ∧ c ≠ '\x7f' :=
    fun c hc => pathByte_not_special (hp.2 c hc)
  have hraw : ("https://" ++ (⟨hs⟩ : GoString) ++ ⟨ps⟩).data =
      'h' :: 't' :: 't' :: 'p' :: 's' :: ':' :: '/' :: '/' :: (hs ++ ps) := by
    simp [String.data_append]
  have hfrag : '#' ∉ 'h' :: 't' :: 't' :: 'p' :: 's' :: ':' :: '/' :: '/' :: (hs ++ ps) := by
    simp only [List.mem_cons, List.mem_append, not_or]
    refine ⟨by decide, by decide, by decide, by decide, by decide, by decide, by decide,
      by decide, ?_, ?_⟩
    · exact fun m => (hH _ m).2.2.1 rfl
    · exact fun m => (hP _ m).2.1 rfl
  have hquery : '?' ∉ '/' :: '/' :: (hs ++ ps) := by
    simp only [List.mem_cons, List.mem_append, not_or]
    refine ⟨by decide, by decide, ?_, ?_⟩
    · exact fun m => (hH _ m).2.1 rfl
    · exact fun m => (hP _ m).1 rfl
  have hctl : stringContainsCTLByte
      ('h' :: 't' :: 't' :: 'p' :: 's' :: ':' :: '/' :: '/' :: (hs ++ ps)) = false := by
    simp only [stringContainsCTLByte, List.any_cons, List.any_append, Bool.or_eq_false_iff,
      List.any_eq_false, decide_eq_false_iff_not, beq_eq_false_iff_ne, ne_eq,
      decide_eq_true_eq, beq_iff_eq, not_or]
    refine ⟨by decide, by decide, by decide, by decide, by decide, by decide, by decide,
      by decide, ?_, ?_⟩
    · intro c hc hor
      simp only [Bool.or_eq_true, decide_eq_true_eq, beq_iff_eq] at hor
      rcases hor with e | e
      · exact (hH c hc).2.2.2.2.2.2.2.1 e
      · exact (hH c hc).2.2.2.2.2.2.2.2 e
    · intro c hc hor
      simp only [Bool.or_eq_true, decide_eq_true_eq, beq_iff_eq] at hor
      rcases hor with e | e
      · exact (hP c hc).2.2.2.1 e
      · exact (hP c hc).2.2.2.2 e
  have hstar : ('h' :: 't' :: 't' :: 'p' :: 's' :: ':' :: '/' :: '/' :: (hs ++ ps)) ≠ ['*'] := by
    simp
  have hsplit := split_authority hs ps (fun m => (hH _ m).1 rfl) hphead
  have hauth : parseAuthority hs = some (none, hs) := by
    have h₁ : '@' ∉ hs := fun m => (hH _ m).2.2.2.2.1 rfl
    simp only [parseAuthority, cutLast_of_not_mem _ _ h₁]
    rw [parseHost_plain hs (fun c hc =>
      ⟨(hH c hc).2.2.2.1, (hH c hc).2.2.2.2.2.1, (hH c hc).2.2.2.2.2.2.1,
        unreservedByte_host (hh.2 c hc)⟩)]
    rfl
  unfold Parse
  rw [hraw, cut_of_not_mem _ _ hfrag]
  simp only [if_true, parseNoFragment, hctl, getScheme_https, hstar, Bool.false_eq_true,
    if_false, Option.some_bind, splitQuery_of_not_mem _ hquery]
  have hlow : (⟨toLowerASCII ['h', 't', 't', 'p', 's']⟩ : GoString) = "https" := by decide
  have hscheme : ("https" : GoString) ≠ "" := by decide
  rw [hlow]
  simp only [parseHier, List.head?_cons, ne_eq, not_true_eq_false, false_and, if_false,
    hscheme, not_false_eq_true, true_or, true_and, List.isPrefixOf, beq_self_eq_true,
    Bool.true_and, if_true, List.drop_succ_cons, List.drop_zero, hsplit.1, hsplit.2, hauth,
    Option.some_bind, setPath_plain _ ps hp.2]

/-! ## Classifying the display of a plain URL again -/

theorem TrimPrefix_https (t : GoString) : TrimPrefix ("https://" ++ t) "https" = "://" ++ t := by
  have h : HasPrefix ("https://" ++ t) "https" = true := by
    simp [HasPrefix, String.data_append, List.isPrefixOf]
  simp only [TrimPrefix, h, if_true]
  apply String.ext
  simp [String.data_append]

theorem redditPath_isPrefix {path p : GoString} (h : redditPath path = some p) :
    p.data <+: path.data := by
  unfold redditPath at h
  split at h
  · simp only [sliceTo] at h
    split at h
    · simp only [Option.some.injEq] at h
      rw [← h]
      exact List.take_prefix _ _
    · simp at h
  split at h
  · simp only [sliceTo] at h
    split at h
    · simp only [Option.some.injEq] at h
      rw [← h]
      exact List.take_prefix _ _
    · simp at h
  split at h
  · simp only [sliceTo] at h
    split at h
    · simp only [Option.some.injEq] at h
      rw [← h]
      exact List.take_prefix _ _
    · simp at h
  · simp only [Option.some.injEq] at h
    rw [h]

theorem plainPath_of_isPrefix {path p : GoString} (hp : plainPath path)
    (h : p.data <+: path.data) : plainPath p := by
  constructor
  · obtain ⟨ps⟩ := p
    cases ps with
    | nil => left; rfl
    | cons c cs =>
      right
      rcases plainPath_head hp with e | e
      · rw [e] at h
        simp at h
      · obtain ⟨t, ht⟩ := h
        simp only [List.cons_append] at ht
        rw [← ht] at e
        simp only [List.head?_cons, Option.some.injEq] at e
        subst e
        simp [HasPrefix, List.isPrefixOf]
  · exact fun c hc => hp.2 c (h.subset hc)

/-- Classifying `https://` followed by a host and a path that no rule before
generic cleanup rewrites gives host followed by path. -/
theorem cleanRefURL_settled (h p : GoString) (hh : plainHost h) (hp : plainPath p)
    (h₀ : h ≠ "link.oreilly.com") (ha : aliasHost h = h)
    (h₁ : HasPrefix h "www.google." = false) (h₂ : HasPrefix h "google." = false)
    (h₃ : Contains h "search.yahoo.com" = false) (h₄ : groups h = none)
    (h₅ : ¬ (h = "lobste.rs" ∧ HasPrefix p "/s/" = false))
    (h₆ : ¬ (h = "gambe.ro" ∧ HasPrefix p "/s/" = false))
    (h₇ : h ≠ "getpocket.com") (h₈ : h ≠ "app.getpocket.com")
    (h₉ : h = "www.reddit.com" → redditPath p = some p)
    (h₁₀ : ¬ (h = "t.co" ∧ len p > 1)) :
    cleanRefURL ("https://" ++ h ++ p) { Scheme := "https", Host := h, Path := p } =
      some (h ++ p, false) := by
  have eH : (normalizeURL { Scheme := "https", Host := h, Path := p }).Host = h := by
    rw [normalizeURL_Host]; exact ha
  have eP : (normalizeURL { Scheme := "https", Host := h, Path := p }).Path = p :=
    normalizeURL_Path _
  have eQ : (normalizeURL { Scheme := "https", Host := h, Path := p }).RawQuery = "" :=
    normalizeURL_RawQuery _
  have ePl : (normalizeURL { Scheme := "https", Host := h, Path := p }).plain :=
    normalizeURL_plain _ (by simp [URL.plain])
  have eS := normalizeURL_Scheme { Scheme := "https", Host := h, Path := p }
  have hnr : noHostRule (TrimPrefix ("https://" ++ h ++ p) "https")
      (normalizeURL { Scheme := "https", Host := h, Path := p }) := by
    unfold noHostRule
    rw [eH, eP, String.append_assoc, TrimPrefix_https]
    exact ⟨h₁, h₂, h₃, h₄, groups_colon _, h₅, h₆, h₇, h₈⟩
  rw [cleanRefURL_eq _ _ h₀]
  show Option.map Prod.fst (hostRules (TrimPrefix ("https://" ++ h ++ p) "https") _) = _
  rw [hostRules_of_noHostRule _ _ hnr]
  by_cases hred : h = "www.reddit.com"
  · rw [pathRules_reddit _ _ (eH.trans hred), eP, h₉ hred, Option.some_bind]
    have := cleanQuery_plain (TrimPrefix ("https://" ++ h ++ p) "https")
      { normalizeURL { Scheme := "https", Host := h, Path := p } with Path := p }
      ePl eS (by show (normalizeURL _).Host ≠ ""; rw [eH]; exact hh.1)
      (by show noEscape (normalizeURL _).Host _; rw [eH]; exact plainHost_noEscape hh)
      hp.1 (fun c => absurd eQ c)
    rw [this]
    simp only [Option.map_some', escape_of_noEscape hp.2]
    show some ((normalizeURL _).Host ++ p, false) = _
    rw [eH]
  · have := cleanQuery_plain (TrimPrefix ("https://" ++ h ++ p) "https")
      (normalizeURL { Scheme := "https", Host := h, Path := p })
      ePl eS (by rw [eH]; exact hh.1) (by rw [eH]; exact plainHost_noEscape hh)
      (by rw [eP]; exact hp.1) (fun c => absurd eQ c)
    rw [pathRules_generic _ _ (by rw [eH]; exact hred) (by rw [eH, eP]; exact h₁₀), this]
    simp only [Option.map_some', eH, eP, escape_of_noEscape hp.2]

/-! ## The query adapter (claims C9, C10) -/

/-- Below `MaxInt64` the sum `limit + 1` of Go `int`s is the sum of integers. -/
theorem addInt_succ (n : Int) (h₀ : -9223372036854775808 ≤ n) (h₁ : n < 9223372036854775807) :
    addInt n 1 = n + 1 := by
  unfold addInt
  omega

/-- At the largest limit the sum wraps: for `limit = MaxInt64` the adapter
asks the storage for `MinInt64` rows. -/
theorem ListRefsByPathID_limit_wraps :
    ListRefsByPathID (echoSelect : Select Int Unit) ⟨false, []⟩ 9223372036854775807 0 =
      some (⟨false, [-9223372036854775808]⟩, none) := by
  decide

/-- Claim C9: with a limit `N ≥ 0`, a fresh container (no rows,
`More = false`) and a storage call that succeeds and hands back the first
`min (N+1) M` of the `M` matching rows `rows`, the call returns no error, the
container holds the first `min N M` rows, a prefix of what the storage
returned, and `More` is true exactly when `M > N`. The storage call is the
one the adapter makes, with `limit + 1` as a sum of Go `int`s: this is
`N + 1` below `MaxInt64` (`addInt_succ`). -/
theorem C9_pagination {α ε : Type} (select : Select α ε) (rows : List α) (N : Nat) (offset : Int)
    (hsel : select [] (addInt (N : Int) 1) offset = (rows.take (N + 1), none)) :
    ∃ h' : HitStats α,
      ListRefsByPathID select ⟨false, []⟩ (N : Int) offset = some (h', none) ∧
      h'.Stats = rows.take N ∧ h'.Stats.length = min N rows.length ∧
      h'.Stats <+: rows.take (N + 1) ∧ (h'.More = true ↔ rows.length > N) := by
  by_cases hM : rows.length > N
  · refine ⟨⟨true, rows.take N⟩, ?_, rfl, ?_, ?_, ?_⟩
    · have hl : (rows.take (N + 1)).length = N + 1 := by
        rw [List.length_take]
        omega
      simp only [ListRefsByPathID, hsel, hl]
      have h₁ : ((N + 1 : Nat) : Int) > (N : Int) := by omega
      have h₂ : (0 : Int) ≤ ((N + 1 : Nat) : Int) - 1 := by omega
      have h₃ : (((N + 1 : Nat) : Int) - 1).toNat = N := by omega
      simp only [h₁, h₂, h₃, if_true, Option.map_some', errorsWrap, Option.map_none',
        List.take_take]
      rw [Nat.min_eq_left (Nat.le_succ N)]
    · show (rows.take N).length = min N rows.length
      rw [List.length_take]
    · exact List.take_prefix_take_left rows (Nat.le_succ N)
    · simp [hM]
  · refine ⟨⟨false, rows.take N⟩, ?_, rfl, ?_, ?_, ?_⟩
    · have hl : (rows.take (N + 1)).length = rows.length := by
        rw [List.length_take]
        omega
      have ht : rows.take (N + 1) = rows.take N := by
        rw [List.take_of_length_le (by omega), List.take_of_length_le (by omega)]
      simp only [ListRefsByPathID, hsel, hl]
      have h₁ : ¬ ((rows.length : Int) > (N : Int)) := by omega
      simp only [h₁, if_false, Option.map_some', errorsWrap, Option.map_none', ht]
    · show (rows.take N).length = min N rows.length
      rw [List.length_take]
    · exact List.take_prefix_take_left rows (Nat.le_succ N)
    · simp [hM]

/-- Witness of C9, the two cases of the spec with `N = 2`: `M = N + 5` rows
give `N` rows and `More = true`; `M = N` rows give `N` rows and `More = false`. -/
theorem C9_pagination_witness :
    (∃ h' : HitStats Nat,
      ListRefsByPathID (tableSelect [1, 2, 3, 4, 5, 6, 7] : Select Nat Unit) ⟨false, []⟩ 2 0 =
        some (h', none) ∧
      h'.Stats = [1, 2] ∧ h'.Stats.length = 2 ∧ h'.Stats <+: [1, 2, 3] ∧
      (h'.More = true ↔ 7 > 2)) ∧
    (∃ h' : HitStats Nat,
      ListRefsByPathID (tableSelect [1, 2] : Select Nat Unit) ⟨false, []⟩ 2 0 = some (h', none) ∧
      h'.Stats = [1, 2] ∧ h'.Stats.length = 2 ∧ h'.Stats <+: [1, 2] ∧
      (h'.More = true ↔ 2 > 2)) :=
  ⟨C9_pagination (tableSelect [1, 2, 3, 4, 5, 6, 7]) [1, 2, 3, 4, 5, 6, 7] 2 0 rfl,
    C9_pagination (tableSelect [1, 2]) [1, 2] 2 0 rfl⟩

/-- Claim C10 as stated fails: with limit 0, a fresh container (`More = false`)
and a storage call that fails after scanning one row, the adapter returns
the wrapped error but has set `More` and dropped the row. -/
theorem C10_counterexample :
    ListRefsByPathID (failingSelect [7] "timeout" : Select Nat GoString) ⟨false, []⟩ 0 0 =
      some (⟨true, []⟩, some ("timeout", "HitStats.ListRefsByPathID")) ∧
    (ListRefsByPathID (failingSelect [7] "timeout" : Select Nat GoString) ⟨false, []⟩ 0 0).map
      (fun r => r.1.More) ≠ some false := by
  decide

/-- Claim C10, amended: when the storage call the adapter makes (asking for
`limit + 1` rows, a sum of Go `int`s) returns an error and leaves at most
`limit` rows in the container (so always when it leaves none and
`limit ≥ 0`), the adapter returns that error wrapped with its operation
name, and `More` and the rows are as the storage call left them. -/
theorem C10_error {α ε : Type} (select : Select α ε) (h : HitStats α) (limit offset : Int)
    (stats : List α) (e : ε) (hsel : select h.Stats (addInt limit 1) offset = (stats, some e))
    (hlen : (stats.length : Int) ≤ limit) :
    ListRefsByPathID select h limit offset =
      some (⟨h.More, stats⟩, some (e, "HitStats.ListRefsByPathID")) := by
  have h₁ : ¬ ((stats.length : Int) > limit) := by omega
  simp only [ListRefsByPathID, hsel, h₁, if_false, Option.map_some', errorsWrap]

/-- Witness of C10: the storage fails before any row is scanned, limit 10. -/
theorem C10_error_witness :
    ListRefsByPathID (failingSelect [] "timeout" : Select Nat GoString) ⟨false, []⟩ 10 0 =
      some (⟨false, []⟩, some ("timeout", "HitStats.ListRefsByPathID")) :=
  C10_error (failingSelect [] "timeout") ⟨false, []⟩ 10 0 [] "timeout" rfl (by decide)

/-! ## Totality (claim C11) -/

theorem len_ge_of_HasSuffix {s suf : GoString} (h : HasSuffix s suf = true) :
    len suf ≤ len s := by
  simp only [HasSuffix, List.isSuffixOf_iff_suffix] at h
  have := h.length_le
  simp only [len]
  omega

theorem sliceTo_isSome (s : GoString) (hi : Int) (h₀ : 0 ≤ hi) (h₁ : hi ≤ len s) :
    ∃ t, sliceTo s hi = some t := by
  simp [sliceTo, h₀, h₁]

/-- The reddit `switch` never slices out of range: a path that ends in a
suffix is at least as long as the suffix. -/
theorem redditPath_total (path : GoString) : ∃ p, redditPath path = some p := by
  unfold redditPath
  split
  · rename_i h
    have hl : (4 : Int) ≤ len path := by
      simp only [Bool.or_eq_true] at h
      rcases h with h | h
      · exact len_ge_of_HasSuffix h
      · exact len_ge_of_HasSuffix h
    exact sliceTo_isSome _ _ (by omega) (by omega)
  split
  · rename_i h
    have hl : (7 : Int) ≤ len path := len_ge_of_HasSuffix h
    exact sliceTo_isSome _ _ (by omega) (by omega)
  split
  · rename_i h
    have hl : (8 : Int) ≤ len path := len_ge_of_HasSuffix h
    exact sliceTo_isSome _ _ (by omega) (by omega)
  · exact ⟨path, rfl⟩

/-- Generic cleanup never slices out of range: `s[2:]` is taken only when
`len(s) > 1`. -/
theorem cleanQuery_total (ref : GoString) (v : URL) : ∃ r, cleanQuery ref v = some r := by
  unfold cleanQuery
  simp only
  split
  · exact ⟨_, rfl⟩
  · split
    · rename_i h
      have : (0 : Int) ≤ 2 ∧ (2 : Int) ≤ len ({ v with RawQuery := "" } : URL).String :=
        ⟨by decide, by omega⟩
      simp only [sliceFrom, this, and_self, if_true, Option.map_some']
      exact ⟨_, rfl⟩
    · exact ⟨_, rfl⟩

theorem pathRules_total (ref : GoString) (v : URL) : ∃ r, pathRules ref v = some r := by
  unfold pathRules
  split
  · obtain ⟨p, hp⟩ := redditPath_total v.Path
    simp only [hp, Option.map_some', Option.some_bind]
    split
    · exact ⟨_, rfl⟩
    · exact cleanQuery_total _ _
  · simp only [Option.some_bind]
    split
    · exact ⟨_, rfl⟩
    · exact cleanQuery_total _ _

theorem hostRules_total (ref : GoString) (v : URL) : ∃ r, hostRules ref v = some r := by
  unfold hostRules
  split
  · exact ⟨_, rfl⟩
  split
  · exact ⟨_, rfl⟩
  split
  · exact ⟨_, rfl⟩
  split
  · exact ⟨_, rfl⟩
  split
  · exact ⟨_, rfl⟩
  split
  · exact ⟨_, rfl⟩
  split
  · exact ⟨_, rfl⟩
  exact pathRules_total _ _

theorem cleanRefURLState_total (ref : GoString) (u : URL) :
    ∃ r, cleanRefURLState ref u = some r := by
  rw [cleanRefURLState_eq]
  split
  · exact ⟨_, rfl⟩
  · exact hostRules_total _ _

/-- Claim C11: `cleanRefURL` is total. For every raw string and every URL
value no slice expression in it is out of range (the model's `none`), so it
always returns a pair `(display, isKnownGroup)`. -/
theorem C11_total (ref : GoString) (u : URL) : ∃ d b, cleanRefURL ref u = some (d, b) := by
  obtain ⟨⟨⟨d, b⟩, v⟩, h⟩ := cleanRefURLState_total ref u
  exact ⟨d, b, by simp [cleanRefURL, h]⟩

/-! ## What `cleanRefURL` does to the caller's URL (claim C12) -/

theorem cleanQuery_state (r : GoString) (w : URL) (x : GoString × Bool) (v : URL)
    (h : cleanQuery r w = some (x, v)) :
    v = w ∨ (Index r "?" ≠ -1 ∧ v = { w with RawQuery := "" }) := by
  unfold cleanQuery at h
  simp only at h
  split at h
  · simp only [Option.some.injEq, Prod.mk.injEq] at h
    exact Or.inl h.2.symm
  · rename_i hi
    right
    refine ⟨hi, ?_⟩
    split at h
    · cases hs : sliceFrom ({ w with RawQuery := "" } : URL).String 2 with
      | none => simp [hs] at h
      | some d =>
        simp only [hs, Option.map_some', Option.some.injEq, Prod.mk.injEq] at h
        exact h.2.symm
    · simp only [Option.some.injEq, Prod.mk.injEq] at h
      exact h.2.symm

theorem pathRules_state (r : GoString) (w : URL) (x : GoString × Bool) (v : URL)
    (h : pathRules r w = some (x, v)) :
    ∃ p, (p = w.Path ∨ (w.Host = "www.reddit.com" ∧ redditPath w.Path = some p)) ∧
      (v = { w with Path := p } ∨
        (Index r "?" ≠ -1 ∧ v = { w with Path := p, RawQuery := "" })) := by
  unfold pathRules at h
  split at h
  · rename_i hred
    cases hp : redditPath w.Path with
    | none => simp [hp] at h
    | some p =>
      refine ⟨p, Or.inr ⟨hred, rfl⟩, ?_⟩
      simp only [hp, Option.map_some', Option.some_bind] at h
      split at h
      · simp only [Option.some.injEq, Prod.mk.injEq] at h
        exact Or.inl h.2.symm
      · rcases cleanQuery_state _ _ _ _ h with e | ⟨hi, e⟩
        · exact Or.inl e
        · exact Or.inr ⟨hi, e⟩
  · refine ⟨w.Path, Or.inl rfl, ?_⟩
    simp only [Option.some_bind] at h
    split at h
    · simp only [Option.some.injEq, Prod.mk.injEq] at h
      exact Or.inl h.2.symm
    · rcases cleanQuery_state _ _ _ _ h with e | ⟨hi, e⟩
      · exact Or.inl e
      · exact Or.inr ⟨hi, e⟩

theorem hostRules_state (r : GoString) (w : URL) (x : GoString × Bool) (v : URL)
    (h : hostRules r w = some (x, v)) :
    ∃ p, (p = w.Path ∨ (w.Host = "www.reddit.com" ∧ redditPath w.Path = some p)) ∧
      (v = { w with Path := p } ∨
        (Index r "?" ≠ -1 ∧ v = { w with Path := p, RawQuery := "" })) := by
  have early : ∀ y : GoString × Bool, some (y, w) = some (x, v) →
      ∃ p, (p = w.Path ∨ (w.Host = "www.reddit.com" ∧ redditPath w.Path = some p)) ∧
        (v = { w with Path := p } ∨
          (Index r "?" ≠ -1 ∧ v = { w with Path := p, RawQuery := "" })) := by
    intro y hy
    simp only [Option.some.injEq, Prod.mk.injEq] at hy
    exact ⟨w.Path, Or.inl rfl, Or.inl hy.2.symm⟩
  unfold hostRules at h
  split at h
  · exact early _ h
  split at h
  · exact early _ h
  split at h
  · exact early _ h
  split at h
  · exact early _ h
  split at h
  · exact early _ h
  split at h
  · exact early _ h
  split at h
  · exact early _ h
  exact pathRules_state _ _ _ _ h

theorem TrimPrefix_self_append (s t : GoString) : TrimPrefix (s ++ t) s = t := by
  have h : HasPrefix (s ++ t) s = true := by
    simp only [HasPrefix, List.isPrefixOf_iff_prefix, String.data_append]
    exact List.prefix_append _ _
  simp only [TrimPrefix, h, if_true]
  apply String.ext
  simp [String.data_append]

/-- After the scheme strip a raw string `scheme://rest` still starts with
`://`, so the read `groups[ref]` misses for every such string. -/
theorem groups_after_scheme (s t : GoString) :
    groups (TrimPrefix (s ++ "://" ++ t) s) = none := by
  rw [String.append_assoc, TrimPrefix_self_append]
  exact groups_colon t

/-- Claim C14, at the key the claim names: `www.daemonology.net/hn-daily` is
a `groups` key, but for the raw string `https://www.daemonology.net/hn-daily`
(and for `http://`) the scheme strip leaves `://www.daemonology.net/hn-daily`,
the table read misses, and the referrer is reported as an ordinary page
with `isKnownGroup = false`. Only a raw string without any scheme is matched. -/
theorem C14_full_string_lookup_missed :
    groups "www.daemonology.net/hn-daily" = some "Hacker News" ∧
    Parse "https://www.daemonology.net/hn-daily" =
      some { Scheme := "https", Host := "www.daemonology.net", Path := "/hn-daily" } ∧
    TrimPrefix "https://www.daemonology.net/hn-daily" "https" =
      "://www.daemonology.net/hn-daily" ∧
    cleanRefURL "https://www.daemonology.net/hn-daily"
      { Scheme := "https", Host := "www.daemonology.net", Path := "/hn-daily" } =
      some ("www.daemonology.net/hn-daily", false) ∧
    Parse "http://www.daemonology.net/hn-daily" =
      some { Scheme := "http", Host := "www.daemonology.net", Path := "/hn-daily" } ∧
    cleanRefURL "http://www.daemonology.net/hn-daily"
      { Scheme := "http", Host := "www.daemonology.net", Path := "/hn-daily" } =
      some ("www.daemonology.net/hn-daily", false) ∧
    Parse "www.daemonology.net/hn-daily" = some { Path := "www.daemonology.net/hn-daily" } ∧
    cleanRefURL "www.daemonology.net/hn-daily" { Path := "www.daemonology.net/hn-daily" } =
      some ("Hacker News", true) := by
  decide

/-- Claim C15 as stated fails: for host `app.getpocket.com` the display is
`getpocket.com`, not the referrer's own host. -/
theorem C15_counterexample :
    cleanRefURL "https://app.getpocket.com/read/2369667792"
      { Scheme := "https", Host := "app.getpocket.com", Path := "/read/2369667792" } =
      some ("getpocket.com", false) ∧
    ("getpocket.com" : GoString) ≠ "app.getpocket.com" := by
  decide

/-- Claim C15, amended: for host `getpocket.com` or `app.getpocket.com`, every
path and query, and a raw string that (scheme trimmed, as the code looks it
up) is no `groups` key, the result is `("getpocket.com", false)`: both hosts
collapse to the one label, the path is discarded. -/
theorem C15_pocket (ref : GoString) (u : URL)
    (hh : u.Host = "getpocket.com" ∨ u.Host = "app.getpocket.com")
    (hr : groups (TrimPrefix ref u.Scheme) = none) :
    cleanRefURL ref u = some ("getpocket.com", false) := by
  have e₀ : u.Host ≠ "link.oreilly.com" := by
    rcases hh with h | h <;> rw [h] <;> decide
  have e₁ : (normalizeURL u).Host = u.Host := by
    rw [normalizeURL_Host]
    rcases hh with h | h <;> rw [h] <;> decide
  have a₁ : HasPrefix "getpocket.com" "www.google." = false := by decide
  have a₂ : HasPrefix "getpocket.com" "google." = false := by decide
  have a₃ : Contains "getpocket.com" "search.yahoo.com" = false := by decide
  have a₄ : groups "getpocket.com" = none := by decide
  have b₁ : HasPrefix "app.getpocket.com" "www.google." = false := by decide
  have b₂ : HasPrefix "app.getpocket.com" "google." = false := by decide
  have b₃ : Contains "app.getpocket.com" "search.yahoo.com" = false := by decide
  have b₄ : groups "app.getpocket.com" = none := by decide
  rw [cleanRefURL_eq _ _ e₀]
  rcases hh with h | h <;> rw [h] at e₁ <;>
    simp [hostRules, e₁, a₁, a₂, a₃, a₄, b₁, b₂, b₃, b₄, hr]

/-- Witness of C15 on `https://getpocket.com/a/read/2580004052`. -/
theorem C15_pocket_witness :
    cleanRefURL "https://getpocket.com/a/read/2580004052"
      { Scheme := "https", Host := "getpocket.com", Path := "/a/read/2580004052" } =
      some ("getpocket.com", false) :=
  C15_pocket "https://getpocket.com/a/read/2580004052"
    { Scheme := "https", Host := "getpocket.com", Path := "/a/read/2580004052" }
    (Or.inl rfl) (by decide)

/-! ## The query is never written back (claim C19) -/

theorem cleanQuery_query (r : GoString) (w : URL) (q : GoString) (hi : Index r "?" ≠ -1) :
    cleanQuery r { w with RawQuery := q } = cleanQuery r { w with RawQuery := "" } := by
  unfold cleanQuery
  simp only [hi, if_false]

theorem pathRules_query (r : GoString) (w : URL) (q : GoString) (hi : Index r "?" ≠ -1) :
    (pathRules r { w with RawQuery := q }).map Prod.fst =
      (pathRules r { w with RawQuery := "" }).map Prod.fst := by
  unfold pathRules
  simp only
  by_cases hred : w.Host = "www.reddit.com"
  · simp only [hred, if_true]
    cases redditPath w.Path with
    | none => rfl
    | some p =>
      simp only [Option.map_some', Option.some_bind]
      split
      · rfl
      · have e := cleanQuery_query r { w with Host := "www.reddit.com", Path := p } q hi
        simp only at e
        rw [e]
  · simp only [hred, if_false, Option.some_bind]
    split
    · rfl
    · rw [cleanQuery_query r w q hi]

theorem hostRules_query (r : GoString) (w : URL) (q : GoString) (hi : Index r "?" ≠ -1) :
    (hostRules r { w with RawQuery := q }).map Prod.fst =
      (hostRules r { w with RawQuery := "" }).map Prod.fst := by
  unfold hostRules
  simp only
  split
  · rfl
  split
  · rfl
  split
  · rfl
  split
  · rfl
  split
  · rfl
  split
  · rfl
  split
  · rfl
  exact pathRules_query r w q hi

theorem cleanRefURL_query (ref : GoString) (u : URL) (q : GoString)
    (hi : Index (TrimPrefix ref u.Scheme) "?" ≠ -1) :
    cleanRefURL ref { u with RawQuery := q } = cleanRefURL ref { u with RawQuery := "" } := by
  unfold cleanRefURL
  rw [cleanRefURLState_eq, cleanRefURLState_eq]
  simp only
  split
  · rfl
  · rw [normalizeURL_eq, normalizeURL_eq]
    exact hostRules_query _ { u with Scheme := "", Host := aliasHost u.Host } q hi

/-- Claim C19: once the raw string holds a `?`, the result of `cleanRefURL`
does not depend on the query: two URLs that differ only in `RawQuery` (with a
scheme that holds no `?`, as every parsed scheme) give the same
`(display, isKnownGroup)`. So generic cleanup drops the whole query, not
only the tracking keys. -/
theorem C19_query_ignored (raw : GoString) (u : URL) (q₁ q₂ : GoString)
    (hraw : '?' ∈ raw.data) (hs : '?' ∉ u.Scheme.data) :
    cleanRefURL raw { u with RawQuery := q₁ } = cleanRefURL raw { u with RawQuery := q₂ } := by
  have hi := Index_TrimPrefix_of_raw raw u.Scheme hraw hs
  rw [cleanRefURL_query raw u q₁ hi, cleanRefURL_query raw u q₂ hi]

/-- Witness of C19: a query of tracking keys and one of ordinary parameters
give the same display, and the ordinary parameters are gone from it. -/
theorem C19_query_ignored_witness :
    cleanRefURL "https://example.com/list?id=42&page=3"
      { Scheme := "https", Host := "example.com", Path := "/list",
        RawQuery := "utm_source=x" } =
    cleanRefURL "https://example.com/list?id=42&page=3"
      { Scheme := "https", Host := "example.com", Path := "/list",
        RawQuery := "id=42&page=3" } ∧
    cleanRefURL "https://example.com/list?id=42&page=3"
      { Scheme := "https", Host := "example.com", Path := "/list",
        RawQuery := "id=42&page=3" } = some ("example.com/list", false) :=
  ⟨C19_query_ignored "https://example.com/list?id=42&page=3"
      { Scheme := "https", Host := "example.com", Path := "/list" }
      "utm_source=x" "id=42&page=3" (by decide) (by decide),
    by decide⟩

/-! ## Rendering with any host -/

/-- The rendering of a plain URL with an empty scheme and a non-empty host,
whatever host and path are: `//`, the escaped host, a `/` when the escaped
path is not empty and not rooted, the escaped path, and the query. -/
theorem String_plain_host (u : URL) (hp : u.plain) (hs : u.Scheme = "") (hh : u.Host ≠ "") :
    u.String = "//" ++ (escape u.Host encoding.encodeHost ++
      ((if u.EscapedPath ≠ "" ∧ u.EscapedPath.data.head? ≠ some '/' then "/" else "") ++
        u.EscapedPath ++ (if u.RawQuery ≠ "" then "?" ++ u.RawQuery else ""))) := by
  obtain ⟨h1, h2, h3, h4, h5, h6, h7⟩ := hp
  have hne : ∀ t : GoString, ("//" ++ t : GoString) ≠ "" := by
    intro t e
    have := congrArg String.data e
    simp at this
  have hcond : (u.Scheme ≠ "" ∨ u.Host ≠ "" ∨ u.User.isSome = true) := Or.inr (Or.inl hh)
  have hcond₂ : ¬ (u.OmitHost = true ∧ u.Host = "" ∧ u.User.isNone = true) := fun h => hh h.2.1
  have hcond₃ : (u.Host ≠ "" ∨ u.Path ≠ "" ∨ u.User.isSome = true) := Or.inl hh
  unfold URL.String
  simp only [hcond, hcond₂, hcond₃, if_true, if_false]
  simp only [hs, h1, h2, h5, h6, hh, if_true, if_false, ne_eq, not_true_eq_false,
    not_false_eq_true, String.append_empty, String.empty_append, false_and, false_or, and_true]
  by_cases hq : u.RawQuery = "" <;>
    by_cases hsl : (¬ u.EscapedPath = "" ∧ ¬ u.EscapedPath.data.head? = some '/') <;>
    simp [hq, hsl, hne, String.append_assoc]

/-- In a host `/` is escaped, so the escaped form of a non-empty host starts
with a byte other than `/`. -/
theorem escape_host_head (h : GoString) (hne : h ≠ "") :
    ∃ c t, (escape h encoding.encodeHost).data = c :: t ∧ c ≠ '/' := by
  obtain ⟨cs⟩ := h
  cases cs with
  | nil => exact absurd rfl hne
  | cons b bs =>
    simp only [escape, List.flatMap_cons]
    unfold escapeByte
    split
    · rename_i h
      exact absurd h.2 (by decide)
    · split
      · exact ⟨'%', _, rfl, by decide⟩
      · rename_i hb
        refine ⟨b, _, rfl, ?_⟩
        rintro rfl
        exact hb (by decide)

theorem TrimLeft_slashes (x : GoString) (c : Char) (t : List Char) (hx : x.data = c :: t)
    (hc : c ≠ '/') : TrimLeft ("//" ++ x) "/" = x := by
  apply String.ext
  simp [TrimLeft, String.data_append, hx, List.dropWhile, hc]

/-- Generic cleanup on a plain URL with an empty scheme and a non-empty
host: the display is the escaped host, then a `/` if the escaped path is not
empty and not rooted, then the escaped path, and only when the raw string
holds no `?` the query of the URL, if it has one. -/
theorem cleanQuery_plain_host (ref : GoString) (v : URL) (hp : v.plain) (hs : v.Scheme = "")
    (hne : v.Host ≠ "") :
    cleanQuery ref v =
      some ((escape v.Host encoding.encodeHost ++
          ((if v.EscapedPath ≠ "" ∧ v.EscapedPath.data.head? ≠ some '/' then "/" else "") ++
            v.EscapedPath ++
            (if Index ref "?" = -1 ∧ v.RawQuery ≠ "" then "?" ++ v.RawQuery else "")), false),
        if Index ref "?" = -1 then v else { v with RawQuery := "" }) := by
  obtain ⟨c, t, hE, hc⟩ := escape_host_head v.Host hne
  unfold cleanQuery
  simp only
  split
  · rename_i hi
    rw [String_plain_host v hp hs hne]
    have hx : (escape v.Host encoding.encodeHost ++
        ((if v.EscapedPath ≠ "" ∧ v.EscapedPath.data.head? ≠ some '/' then "/" else "") ++
          v.EscapedPath ++ (if v.RawQuery ≠ "" then "?" ++ v.RawQuery else ""))).data =
        c :: (t ++ ((if v.EscapedPath ≠ "" ∧ v.EscapedPath.data.head? ≠ some '/' then "/"
          else "") ++ v.EscapedPath ++
          (if v.RawQuery ≠ "" then "?" ++ v.RawQuery else "")).data) := by
      rw [String.data_append, hE]
      rfl
    rw [TrimLeft_slashes _ c _ hx hc]
    simp only [hi, true_and]
  · rename_i hi
    have hp' : ({ v with RawQuery := "" } : URL).plain := hp
    have hEP : ({ v with RawQuery := "" } : URL).EscapedPath = v.EscapedPath := rfl
    rw [String_plain_host _ hp' hs hne, hEP]
    simp only [ne_eq, not_true_eq_false, if_false, String.append_empty, hi, false_and]
    rw [if_pos (len_render _), sliceFrom_render]
    rfl

/-! ## Generic cleanup: host followed by path (claims C16, C18) -/

theorem head_of_HasPrefix_slash (p : GoString) (h : HasPrefix p "/" = true) :
    p.data.head? = some '/' := by
  obtain ⟨cs⟩ := p
  cases cs with
  | nil => simp [HasPrefix] at h
  | cons c cs =>
    have hc : ['/'].isPrefixOf (c :: cs) = true := h
    simp only [List.isPrefixOf, Bool.and_true, beq_iff_eq] at hc
    simp [← hc]

theorem EscapedPath_of_plainPath (u : URL) (h3 : u.RawPath = "") (hpath : plainPath u.Path) :
    u.EscapedPath = u.Path := by
  unfold URL.EscapedPath
  simp only [h3, ne_eq, not_true_eq_false, false_and, if_false]
  split
  · rename_i h
    exact h.symm
  · exact escape_of_noEscape hpath.2

theorem noHostRule_of_genericHost (ref : GoString) (v : URL) (hg : genericHost v.Host)
    (hr : groups ref = none) : noHostRule ref v := by
  obtain ⟨g₁, g₂, g₃, g₄, g₅⟩ := hg
  simp only [List.mem_cons, List.mem_singleton, List.not_mem_nil, or_false, not_or] at g₅
  exact ⟨g₁, g₂, g₃, g₄, hr, fun h => g₅.1 h.1, fun h => g₅.2.1 h.1, g₅.2.2.1, g₅.2.2.2.1⟩

/-- A plain URL whose alias-resolved host is not empty and caught by no rule
reaches generic cleanup, whatever host and path are. -/
theorem cleanRefURL_generic (ref : GoString) (u : URL) (hp : u.plain) (hne : u.Host ≠ "")
    (ho : u.Host ≠ "link.oreilly.com") (hg : genericHost (aliasHost u.Host))
    (hr : groups (TrimPrefix ref u.Scheme) = none) :
    cleanRefURL ref u =
      some (escape (aliasHost u.Host) encoding.encodeHost ++
        ((if u.EscapedPath ≠ "" ∧ u.EscapedPath.data.head? ≠ some '/' then "/" else "") ++
          u.EscapedPath ++
          (if Index (TrimPrefix ref u.Scheme) "?" = -1 ∧ u.RawQuery ≠ "" then
            "?" ++ u.RawQuery else "")), false) := by
  have hg' : genericHost (normalizeURL u).Host := by
    rw [normalizeURL_Host]
    exact hg
  have hne' : (normalizeURL u).Host ≠ "" := by
    rw [normalizeURL_Host]
    rcases aliasHost_cases u.Host with e | ⟨-, e, -⟩
    · rw [e]
      exact hne
    · exact e.1
  have g₅ := hg'.2.2.2.2
  simp only [List.mem_cons, List.mem_singleton, List.not_mem_nil, or_false, not_or] at g₅
  have hEP : (normalizeURL u).EscapedPath = u.EscapedPath := by
    rw [normalizeURL_eq]
    rfl
  rw [cleanRefURL_eq _ _ ho, hostRules_of_noHostRule _ _ (noHostRule_of_genericHost _ _ hg' hr),
    pathRules_generic _ _ g₅.2.2.2.2.1 (fun h => g₅.2.2.2.2.2 h.1),
    cleanQuery_plain_host _ _ (normalizeURL_plain u hp) (normalizeURL_Scheme u) hne',
    hEP, normalizeURL_Host, normalizeURL_RawQuery]
  rfl

/-- Counterexamples to C16 as stated. A parsed URL with a fragment meets every
condition of the claim, and the display carries the fragment after the path;
a host with bytes outside ASCII meets them too, and the display holds the
host percent-encoded, as `String` renders it. -/
theorem C16_counterexample :
    Parse "https://example.com/a#top" =
      some { Scheme := "https", Host := "example.com", Path := "/a", Fragment := "top" } ∧
    genericHost (aliasHost "example.com") ∧ plainPath "/a" ∧
    groups (TrimPrefix "https://example.com/a#top" "https") = none ∧
    cleanRefURL "https://example.com/a#top"
      { Scheme := "https", Host := "example.com", Path := "/a", Fragment := "top" } =
      some ("example.com/a#top", false) ∧
    ("example.com/a#top" : GoString) ≠ aliasHost "example.com" ++ "/a" ∧
    Parse "https://b\xc3\xbccher.example/katalog" =
      some { Scheme := "https", Host := "b\xc3\xbccher.example", Path := "/katalog" } ∧
    genericHost (aliasHost "b\xc3\xbccher.example") ∧ plainPath "/katalog" ∧
    groups (TrimPrefix "https://b\xc3\xbccher.example/katalog" "https") = none ∧
    cleanRefURL "https://b\xc3\xbccher.example/katalog"
      { Scheme := "https", Host := "b\xc3\xbccher.example", Path := "/katalog" } =
      some ("b%C3%BCcher.example/katalog", false) ∧
    ("b%C3%BCcher.example/katalog" : GoString) ≠ aliasHost "b\xc3\xbccher.example" ++ "/katalog" := by
  decide

/-- Claim C16, amended: generic cleanup yields the escaped host followed by the
path. For a plain URL (nothing set but scheme, host, path and query) with a
non-empty host other than `link.oreilly.com`, whose alias-resolved host is
caught by no earlier rule, with a path that is empty or rooted and needs no
escaping, a scheme-trimmed raw string that is no `groups` key, and a query only
if the raw string shows a `?`: the result is the alias-resolved host as
`url.escape` writes it in host mode, followed by the path, with the flag
false. The display does not begin with `/`, and it is the alias-resolved
host itself followed by the path when no byte of that host needs escaping. -/
theorem C16_generic (ref : GoString) (u : URL) (hp : u.plain) (hne : u.Host ≠ "")
    (ho : u.Host ≠ "link.oreilly.com") (hg : genericHost (aliasHost u.Host))
    (hpath : plainPath u.Path) (hr : groups (TrimPrefix ref u.Scheme) = none)
    (hq : rawAgrees ref u) :
    cleanRefURL ref u =
      some (escape (aliasHost u.Host) encoding.encodeHost ++ u.Path, false) ∧
    (escape (aliasHost u.Host) encoding.encodeHost ++ u.Path).data.head? ≠ some '/' ∧
    (escape (aliasHost u.Host) encoding.encodeHost ++ u.Path).data.head? ≠ none ∧
    (noEscape (aliasHost u.Host) encoding.encodeHost →
      cleanRefURL ref u = some (aliasHost u.Host ++ u.Path, false)) := by
  have hEP := EscapedPath_of_plainPath u hp.2.2.1 hpath
  have hsl : ¬ (u.Path ≠ "" ∧ u.Path.data.head? ≠ some '/') := by
    rintro ⟨h₁, h₂⟩
    rcases hpath.1 with e | e
    · exact h₁ e
    · exact h₂ (head_of_HasPrefix_slash _ e)
  have hqq : ¬ (Index (TrimPrefix ref u.Scheme) "?" = -1 ∧ u.RawQuery ≠ "") :=
    fun h => hq h.2 h.1
  have main : cleanRefURL ref u =
      some (escape (aliasHost u.Host) encoding.encodeHost ++ u.Path, false) := by
    rw [cleanRefURL_generic ref u hp hne ho hg hr, hEP, if_neg hsl, if_neg hqq]
    simp only [String.append_empty, String.empty_append]
  have hne' : aliasHost u.Host ≠ "" := by
    rcases aliasHost_cases u.Host with e | ⟨-, e, -⟩
    · rw [e]
      exact hne
    · exact e.1
  obtain ⟨c, t, hE, hc⟩ := escape_host_head _ hne'
  refine ⟨main, ?_, ?_, ?_⟩
  · rw [String.data_append, hE]
    simpa using hc
  · rw [String.data_append, hE]
    simp
  · intro hesc
    rw [main, escape_of_noEscape hesc]

/-- Witness of C16: `https://example.com/blog/post`, a plain host with a plain path. -/
theorem C16_generic_witness :
    cleanRefURL "https://example.com/blog/post"
      { Scheme := "https", Host := "example.com", Path := "/blog/post" } =
      some ("example.com/blog/post", false) :=
  (C16_generic "https://example.com/blog/post"
    { Scheme := "https", Host := "example.com", Path := "/blog/post" }
    (by decide) (by decide) (by decide) (by decide) (by decide) (by decide)
    (by decide)).2.2.2 (by decide)

/-- Without a host the rules before generic cleanup do not apply, and generic
cleanup is reached with the scheme cleared. -/
theorem cleanRefURL_no_host (ref : GoString) (u : URL) (hh : u.Host = "")
    (hr : groups (TrimPrefix ref u.Scheme) = none) :
    cleanRefURL ref u =
      (cleanQuery (TrimPrefix ref u.Scheme) { u with Scheme := "" }).map Prod.fst := by
  have ho : u.Host ≠ "link.oreilly.com" := by
    rw [hh]
    decide
  have ha : aliasHost u.Host = "" := by
    rw [hh]
    decide
  have hn : normalizeURL u = { u with Scheme := "" } := by
    rw [normalizeURL_eq, ha, ← hh]
  have hH : ({ u with Scheme := "" } : URL).Host = "" := hh
  have hnr : noHostRule (TrimPrefix ref u.Scheme) { u with Scheme := "" } := by
    unfold noHostRule
    rw [hH]
    exact ⟨by decide, by decide, by decide, by decide, hr, fun h => absurd h.1 (by decide),
      fun h => absurd h.1 (by decide), by decide, by decide⟩
  rw [cleanRefURL_eq _ _ ho, hn, hostRules_of_noHostRule _ _ hnr,
    pathRules_generic _ _ (by rw [hH]; decide) (fun h => absurd (hH ▸ h.1) (by decide))]

/-- Counterexample to C18 as stated: for the claim's own example, a bare host
with the path `/` and a query, the display is the host followed by `/`, not
the lone `/`. -/
theorem C18_counterexample :
    Parse "https://example.com/?utm_source=x" =
      some { Scheme := "https", Host := "example.com", Path := "/", RawQuery := "utm_source=x" } ∧
    cleanRefURL "https://example.com/?utm_source=x"
      { Scheme := "https", Host := "example.com", Path := "/", RawQuery := "utm_source=x" } =
      some ("example.com/", false) ∧
    cleanRefURL "https://example.com/?utm_source=x"
      { Scheme := "https", Host := "example.com", Path := "/", RawQuery := "utm_source=x" } ≠
      some ("/", false) := by
  decide

/-- Claim C18, amended: where the lone `/` comes from. For a plain URL whose
scheme-trimmed raw string holds a `?` and is no `groups` key: with a non-empty
host (other than `link.oreilly.com`, alias-resolved host caught by no earlier
rule) the display begins with the escaped host, so it is never the lone `/`,
and for the path `/` it is the escaped host followed by `/`; with an empty
host and the path `/` or no path, the rendering is at most one byte long and
the display is `/`. The flag is false throughout. -/
theorem C18_root_path (ref : GoString) (u : URL) (hp : u.plain)
    (hr : groups (TrimPrefix ref u.Scheme) = none)
    (hq : Index (TrimPrefix ref u.Scheme) "?" ≠ -1) :
    (u.Host ≠ "" → u.Host ≠ "link.oreilly.com" → genericHost (aliasHost u.Host) →
      cleanRefURL ref u ≠ some ("/", false) ∧
      (u.Path = "/" →
        cleanRefURL ref u =
          some (escape (aliasHost u.Host) encoding.encodeHost ++ "/", false))) ∧
    (u.Host = "" → (u.Path = "/" ∨ u.Path = "") → cleanRefURL ref u = some ("/", false)) := by
  constructor
  · intro hne ho hg
    have hne' : aliasHost u.Host ≠ "" := by
      rcases aliasHost_cases u.Host with e | ⟨-, e, -⟩
      · rw [e]
        exact hne
      · exact e.1
    obtain ⟨c, t, hE, hc⟩ := escape_host_head _ hne'
    have main := cleanRefURL_generic ref u hp hne ho hg hr
    constructor
    · rw [main]
      intro e
      simp only [Option.some.injEq, Prod.mk.injEq, and_true] at e
      have := congrArg String.data e
      rw [String.data_append, hE] at this
      simp only [List.cons_append] at this
      exact hc (List.cons.inj this).1
    · intro hpath
      have hpp : plainPath u.Path := by
        rw [hpath]
        decide
      have hEP := EscapedPath_of_plainPath u hp.2.2.1 hpp
      rw [main, hEP, hpath]
      have hd : (("/" : GoString) ≠ "" ∧ ("/" : GoString).data.head? ≠ some '/') = False := by
        simp
      simp only [hd, if_false, hq, false_and, String.append_empty, String.empty_append]
  · intro hh hpath
    rw [cleanRefURL_no_host ref u hh hr]
    obtain ⟨h1, h2, h3, h4, h5, h6, h7⟩ := hp
    obtain ⟨Scheme, Opaque, User, Host, Path, RawPath, OmitHost, ForceQuery, RawQuery, Fragment,
      RawFragment⟩ := u
    simp only at h1 h2 h3 h4 h5 h6 h7 hh hpath hq
    subst h1 h2 h3 h4 h5 h6 h7 hh
    unfold cleanQuery
    simp only [hq, if_false]
    rcases hpath with e | e <;> subst e <;> rfl

/-- Witness of C18: the claim's example `https://example.com/?utm_source=x`. -/
theorem C18_root_path_witness :
    cleanRefURL "https://example.com/?utm_source=x"
      { Scheme := "https", Host := "example.com", Path := "/", RawQuery := "utm_source=x" } =
      some ("example.com/", false) :=
  ((C18_root_path "https://example.com/?utm_source=x"
    { Scheme := "https", Host := "example.com", Path := "/", RawQuery := "utm_source=x" }
    (by decide) (by decide) (by decide)).1 (by decide) (by decide) (by decide)).2 rfl

/-! ## The two bytes cut in the query branch (claim C17) -/

/-- With a non-empty host the rendering of a plain URL without scheme begins
with `//`, and cutting two bytes in the query branch removes just that. -/
theorem query_branch_cut (ref : GoString) (v : URL) (hp : v.plain) (hs : v.Scheme = "")
    (hne : v.Host ≠ "") (hq : Index ref "?" ≠ -1) :
    ∃ d, ({ v with RawQuery := "" } : URL).String = "//" ++ d ∧
      cleanQuery ref v = some ((d, false), { v with RawQuery := "" }) := by
  have hp' : ({ v with RawQuery := "" } : URL).plain := hp
  refine ⟨_, String_plain_host _ hp' hs hne, ?_⟩
  unfold cleanQuery
  simp only [hq, if_false]
  rw [String_plain_host _ hp' hs hne, if_pos (len_render _), sliceFrom_render]
  rfl

/-- Claim C17, at its own example of an empty host: the referrer
`https:///foo?x=1` parses to host "" and path `/foo`; no earlier rule
applies and the raw string holds a `?`; the rendering with scheme and query
cleared is `/foo`, longer than one byte and not beginning with `//`; the two
bytes cut are `/f`, and the display is `oo`. The same URL without a query goes
through `TrimLeft` and gives `foo`. -/
theorem C17_empty_host_cut :
    Parse "https:///foo?x=1" = some { Scheme := "https", Path := "/foo", RawQuery := "x=1" } ∧
    Index (TrimPrefix "https:///foo?x=1" "https") "?" ≠ -1 ∧
    ({ Path := "/foo" } : URL).String = "/foo" ∧
    len ({ Path := "/foo" } : URL).String > 1 ∧
    HasPrefix ({ Path := "/foo" } : URL).String "//" = false ∧
    cleanRefURLState "https:///foo?x=1" { Scheme := "https", Path := "/foo", RawQuery := "x=1" } =
      some (("oo", false), { Path := "/foo" }) ∧
    cleanRefURL "https:///foo" { Scheme := "https", Path := "/foo" } = some ("foo", false) := by
  decide

/-! ## No scheme at the start of the display (claim C13) -/

/-- A byte that a mode escapes, other than `%`, `+` and the hex digits, does
not occur in text escaped in that mode. -/
theorem special_not_mem_escape (x : Char) (mode : encoding) (hx : shouldEscape x mode = true)
    (hhex : ∀ n < 16, upperhex n ≠ x) (hpc : x ≠ '%') (hplus : x ≠ '+') (s : GoString) :
    x ∉ (escape s mode).data := by
  simp only [escape, List.mem_flatMap, not_exists, not_and]
  intro c _
  unfold escapeByte
  split
  · simpa using hplus
  · split
    · intro h
      simp only [List.mem_cons, List.mem_singleton, List.not_mem_nil, or_false] at h
      rcases h with h | h | h
      · exact hpc h
      · exact hhex _ (Nat.mod_lt _ (by decide)) h.symm
      · exact hhex _ (Nat.mod_lt _ (by decide)) h.symm
    · rename_i hc
      intro h
      simp only [List.mem_singleton] at h
      rw [← h] at hc
      exact hc hx

/-- Neither a host nor a user name or password, once escaped, holds one of
`/`, `?` and `#`. -/
theorem delimiter_not_mem_escape (mode : encoding)
    (hm : mode = encoding.encodeHost ∨ mode = encoding.encodeUserPassword) (s : GoString) :
    ∀ c ∈ (escape s mode).data, c ≠ '/' ∧ c ≠ '?' ∧ c ≠ '#' := by
  intro c hc
  refine ⟨?_, ?_, ?_⟩ <;> rintro rfl
  · rcases hm with rfl | rfl
    · exact special_not_mem_escape '/' _ (by decide) (by decide) (by decide) (by decide) s hc
    · exact special_not_mem_escape '/' _ (by decide) (by decide) (by decide) (by decide) s hc
  · rcases hm with rfl | rfl
    · exact special_not_mem_escape '?' _ (by decide) (by decide) (by decide) (by decide) s hc
    · exact special_not_mem_escape '?' _ (by decide) (by decide) (by decide) (by decide) s hc
  · rcases hm with rfl | rfl
    · exact special_not_mem_escape '#' _ (by decide) (by decide) (by decide) (by decide) s hc
    · exact special_not_mem_escape '#' _ (by decide) (by decide) (by decide) (by decide) s hc

/-- A host whose escaped form holds no `%` was written unchanged. -/
theorem escape_host_inv (h s : GoString) (hs : '%' ∉ s.data)
    (e : escape h encoding.encodeHost = s) : h = s := by
  have hn : noEscape h encoding.encodeHost := by
    intro c hc
    by_contra hne
    have hsc : shouldEscape c encoding.encodeHost = true := by simpa using hne
    apply hs
    rw [← e]
    simp only [escape, List.mem_flatMap]
    refine ⟨c, hc, ?_⟩
    unfold escapeByte
    rw [if_neg (fun h => absurd h.2 (by decide)), if_pos hsc]
    exact List.mem_cons_self _ _
  rw [escape_of_noEscape hn] at e
  exact e

theorem aliasHost_inv (h s : GoString) (hv : ∀ kv ∈ hostAliasTable, kv.2 ≠ s)
    (e : aliasHost h = s) : h = s := by
  unfold aliasHost at e
  cases ha : hostAlias h with
  | none => simpa [ha] using e
  | some a =>
    rw [ha] at e
    exact absurd e (hv _ (mapLookup_mem ha))

/-- A list of bytes free of `/`, `?` and `#`, followed by nothing or by a
list that starts with one of the three, is what precedes the first of them. -/
theorem takeWhile_authority (A T : List Char) (hA : ∀ c ∈ A, c ≠ '/' ∧ c ≠ '?' ∧ c ≠ '#')
    (hT : T.head? = none ∨ T.head? = some '/' ∨ T.head? = some '?' ∨ T.head? = some '#') :
    (A ++ T).takeWhile (fun c => c != '/' && c != '?' && c != '#') = A := by
  induction A with
  | nil =>
    cases T with
    | nil => rfl
    | cons c t =>
      rcases hT with h | h | h | h
      · simp at h
      · simp only [List.head?_cons, Option.some.injEq] at h
        subst h
        rfl
      · simp only [List.head?_cons, Option.some.injEq] at h
        subst h
        rfl
      · simp only [List.head?_cons, Option.some.injEq] at h
        subst h
        rfl
  | cons c cs ih =>
    have hc := hA c (List.mem_cons_self _ _)
    have hcs : ∀ x ∈ cs, x ≠ '/' ∧ x ≠ '?' ∧ x ≠ '#' :=
      fun x hx => hA x (List.mem_cons_of_mem _ hx)
    simp [hc.1, hc.2.1, hc.2.2, ih hcs]

/-- In a display made of an authority `A` and a tail `T` that is empty or
starts with `/`, `?` or `#`, what stands before the first `/` is `A`. -/
theorem authority_of_display (A T : GoString) (s : List Char) (r : List Char)
    (hA : ∀ c ∈ A.data, c ≠ '/' ∧ c ≠ '?' ∧ c ≠ '#')
    (hT : T.data.head? = none ∨ T.data.head? = some '/' ∨ T.data.head? = some '?' ∨
      T.data.head? = some '#')
    (hs : ∀ c ∈ s, c ≠ '/' ∧ c ≠ '?' ∧ c ≠ '#') (h : (A ++ T).data = s ++ '/' :: r) :
    A.data = s := by
  rw [String.data_append] at h
  have h₁ := takeWhile_authority A.data T.data hA hT
  have h₂ := takeWhile_authority s ('/' :: r) hs (Or.inr (Or.inl rfl))
  rw [h] at h₁
  rw [← h₁, h₂]

theorem HasPrefix_of_head (d s : GoString) (c₁ c₂ : Char) (hd : d.data.head? = some c₁)
    (hs : s.data.head? = some c₂) (hne : c₁ ≠ c₂) : HasPrefix d s = false := by
  obtain ⟨dl⟩ := d
  obtain ⟨sl⟩ := s
  cases dl with
  | nil => simp at hd
  | cons a as =>
    cases sl with
    | nil => simp at hs
    | cons x xs =>
      simp only [List.head?_cons, Option.some.injEq] at hd hs
      subst hd hs
      simp only [HasPrefix, List.isPrefixOf, Bool.and_eq_false_imp, beq_iff_eq]
      intro e
      exact absurd e.symm hne

theorem groupsTable_no_scheme :
    ∀ kv ∈ groupsTable, HasPrefix kv.2 "http://" = false ∧ HasPrefix kv.2 "https://" = false := by
  decide

theorem groups_no_scheme {k g : GoString} (h : groups k = some g) :
    HasPrefix g "http://" = false ∧ HasPrefix g "https://" = false :=
  groupsTable_no_scheme _ (mapLookup_mem h)


theorem head_append (a b : GoString) (c : Char) (h : a.data.head? = some c) :
    (a ++ b).data.head? = some c := by
  rw [String.data_append]
  cases hd : a.data with
  | nil => simp [hd] at h
  | cons x t =>
    rw [hd] at h
    simpa using h

/-- The rendering of a URL with an empty scheme, no opaque part and a
non-empty host: `//`, an authority free of `/`, `?` and `#` (the escaped
host, after the user information and `@` if there is any), and a tail that
is empty or starts with `/`, `?` or `#`. -/
theorem String_host_shape (u : URL) (hs : u.Scheme = "") (ho : u.Opaque = "")
    (hh : u.Host ≠ "") :
    ∃ A T : GoString, u.String = "//" ++ (A ++ T) ∧
      (∀ c ∈ A.data, c ≠ '/' ∧ c ≠ '?' ∧ c ≠ '#') ∧ A.data ≠ [] ∧
      (A = escape u.Host encoding.encodeHost ∨ '@' ∈ A.data) ∧
      (T.data.head? = none ∨ T.data.head? = some '/' ∨ T.data.head? = some '?' ∨
        T.data.head? = some '#') := by
  have hne : ∀ t : GoString, ("//" ++ t : GoString) ≠ "" := by
    intro t e
    have := congrArg String.data e
    simp at this
  have hcond : (u.Scheme ≠ "" ∨ u.Host ≠ "" ∨ u.User.isSome = true) := Or.inr (Or.inl hh)
  have hcond₂ : ¬ (u.OmitHost = true ∧ u.Host = "" ∧ u.User.isNone = true) := fun h => hh h.2.1
  have hcond₃ : (u.Host ≠ "" ∨ u.Path ≠ "" ∨ u.User.isSome = true) := Or.inl hh
  obtain ⟨c₀, t₀, hE, -⟩ := escape_host_head u.Host hh
  have hEd := delimiter_not_mem_escape encoding.encodeHost (Or.inl rfl) u.Host
  refine ⟨(match u.User with
      | some ui => ui.render ++ "@"
      | none => "") ++ escape u.Host encoding.encodeHost,
    (if u.EscapedPath ≠ "" ∧ u.EscapedPath.data.head? ≠ some '/' then "/" else "") ++
      (u.EscapedPath ++ ((if u.ForceQuery = true ∨ u.RawQuery ≠ "" then "?" ++ u.RawQuery else "") ++
        (if u.Fragment ≠ "" then "#" ++ u.EscapedFragment else ""))), ?_, ?_, ?_, ?_, ?_⟩
  · unfold URL.String
    simp only [hcond, hcond₂, hcond₃, if_true, if_false]
    simp only [hs, ho, hh, if_true, if_false, ne_eq, not_true_eq_false, not_false_eq_true,
      String.empty_append, and_true]
    by_cases hq : (u.ForceQuery = true ∨ ¬ u.RawQuery = "") <;>
      by_cases hf : u.Fragment = "" <;>
      by_cases hsl : (¬ u.EscapedPath = "" ∧ ¬ u.EscapedPath.data.head? = some '/') <;>
      simp [hq, hf, hsl, hne, String.append_assoc]
  · intro c hc
    rw [String.data_append, List.mem_append] at hc
    rcases hc with hc | hc
    · cases hU : u.User with
      | none =>
        rw [hU] at hc
        exact absurd hc (List.not_mem_nil _)
      | some ui =>
        rw [hU] at hc
        simp only [Userinfo.render] at hc
        have hu := delimiter_not_mem_escape encoding.encodeUserPassword (Or.inr rfl)
        split at hc
        · simp only [String.data_append, List.mem_append] at hc
          rcases hc with (((hc | hc) | hc) | hc)
          · exact hu _ c hc
          · have : c = ':' := by simpa using hc
            subst this
            decide
          · exact hu _ c hc
          · have : c = '@' := by simpa using hc
            subst this
            decide
        · simp only [String.data_append, List.mem_append] at hc
          rcases hc with hc | hc
          · exact hu _ c hc
          · have : c = '@' := by simpa using hc
            subst this
            decide
    · exact hEd c hc
  · rw [String.data_append, hE]
    simp
  · cases hU : u.User with
    | none =>
      left
      simp only [String.empty_append]
    | some ui =>
      right
      simp only [String.data_append, List.mem_append]
      left; right
      show '@' ∈ ['@']
      simp
  · by_cases hsl : u.EscapedPath ≠ "" ∧ u.EscapedPath.data.head? ≠ some '/'
    · right; left
      rw [if_pos hsl]
      rfl
    · rw [if_neg hsl, String.empty_append]
      by_cases e : u.EscapedPath = ""
      · rw [e, String.empty_append]
        by_cases hq : u.ForceQuery = true ∨ u.RawQuery ≠ ""
        · right; right; left
          rw [if_pos hq]
          exact head_append _ _ '?' (head_append _ _ '?' rfl)
        · rw [if_neg hq, String.empty_append]
          by_cases hf : u.Fragment ≠ ""
          · right; right; right
            rw [if_pos hf]
            exact head_append _ _ '#' rfl
          · left
            rw [if_neg hf]
            rfl
      · right; left
        apply head_append
        by_contra c
        exact hsl ⟨e, c⟩

/-- Generic cleanup on a URL with an empty scheme, no opaque part and a
non-empty host: both branches give the rendering without its leading `//`,
an authority followed by a tail. -/
theorem cleanQuery_shape (r : GoString) (v : URL) (hs : v.Scheme = "") (ho : v.Opaque = "")
    (hh : v.Host ≠ "") (x : GoString × Bool) (w : URL) (h : cleanQuery r v = some (x, w)) :
    ∃ A T : GoString, x.1 = A ++ T ∧
      (∀ c ∈ A.data, c ≠ '/' ∧ c ≠ '?' ∧ c ≠ '#') ∧
      (A = escape v.Host encoding.encodeHost ∨ '@' ∈ A.data) ∧
      (T.data.head? = none ∨ T.data.head? = some '/' ∨ T.data.head? = some '?' ∨
        T.data.head? = some '#') := by
  unfold cleanQuery at h
  simp only at h
  split at h
  · obtain ⟨A, T, hS, hA, hne, hAE, hT⟩ := String_host_shape v hs ho hh
    refine ⟨A, T, ?_, hA, hAE, hT⟩
    simp only [Option.some.injEq, Prod.mk.injEq] at h
    rw [← h.1, hS]
    cases hd : A.data with
    | nil => exact absurd hd hne
    | cons c t =>
      have hc : c ≠ '/' := (hA c (by rw [hd]; exact List.mem_cons_self _ _)).1
      exact TrimLeft_slashes (A ++ T) c (t ++ T.data) (by rw [String.data_append, hd]; rfl) hc
  · obtain ⟨A, T, hS, hA, hne, hAE, hT⟩ :=
      String_host_shape { v with RawQuery := "" } hs ho hh
    refine ⟨A, T, ?_, hA, hAE, hT⟩
    rw [hS, if_pos (len_render _), sliceFrom_render] at h
    simp only [Option.map_some', Option.some.injEq, Prod.mk.injEq] at h
    rw [← h.1]

/-- A display made of an authority and a tail does not begin with `http://`
or `https://` unless the host is `http:` or `https:`. -/
theorem no_scheme_of_shape (h A T : GoString)
    (hA : ∀ c ∈ A.data, c ≠ '/' ∧ c ≠ '?' ∧ c ≠ '#')
    (hAE : A = escape h encoding.encodeHost ∨ '@' ∈ A.data)
    (hT : T.data.head? = none ∨ T.data.head? = some '/' ∨ T.data.head? = some '?' ∨
      T.data.head? = some '#')
    (h₁ : h ≠ "http:") (h₂ : h ≠ "https:") :
    HasPrefix (A ++ T) "http://" = false ∧ HasPrefix (A ++ T) "https://" = false := by
  constructor
  · cases hp : HasPrefix (A ++ T) "http://" with
    | false => rfl
    | true =>
      simp only [HasPrefix, List.isPrefixOf_iff_prefix] at hp
      obtain ⟨r, hr⟩ := hp
      have := authority_of_display A T ['h', 't', 't', 'p', ':'] ('/' :: r) hA hT (by decide)
        hr.symm
      rcases hAE with e | e
      · have e' : escape h encoding.encodeHost = "http:" := by
          rw [← e]
          exact String.ext this
        exact absurd (escape_host_inv h "http:" (by decide) e') h₁
      · rw [this] at e
        exact absurd e (by decide)
  · cases hp : HasPrefix (A ++ T) "https://" with
    | false => rfl
    | true =>
      simp only [HasPrefix, List.isPrefixOf_iff_prefix] at hp
      obtain ⟨r, hr⟩ := hp
      have := authority_of_display A T ['h', 't', 't', 'p', 's', ':'] ('/' :: r) hA hT
        (by decide) hr.symm
      rcases hAE with e | e
      · have e' : escape h encoding.encodeHost = "https:" := by
          rw [← e]
          exact String.ext this
        exact absurd (escape_host_inv h "https:" (by decide) e') h₂
      · rw [this] at e
        exact absurd e (by decide)

theorem cleanQuery_no_scheme (r : GoString) (v : URL) (hs : v.Scheme = "") (ho : v.Opaque = "")
    (hne : v.Host ≠ "") (h₁ : v.Host ≠ "http:") (h₂ : v.Host ≠ "https:")
    (x : GoString × Bool) (w : URL) (h : cleanQuery r v = some (x, w)) :
    HasPrefix x.1 "http://" = false ∧ HasPrefix x.1 "https://" = false := by
  obtain ⟨A, T, hx, hA, hAE, hT⟩ := cleanQuery_shape r v hs ho hne x w h
  rw [hx]
  exact no_scheme_of_shape v.Host A T hA hAE hT h₁ h₂

theorem pathRules_no_scheme (r : GoString) (v : URL) (hs : v.Scheme = "") (ho : v.Opaque = "")
    (hne : v.Host ≠ "") (h₁ : v.Host ≠ "http:") (h₂ : v.Host ≠ "https:")
    (x : GoString × Bool) (w : URL) (h : pathRules r v = some (x, w)) :
    HasPrefix x.1 "http://" = false ∧ HasPrefix x.1 "https://" = false := by
  by_cases hred : v.Host = "www.reddit.com"
  · rw [pathRules_reddit r v hred] at h
    cases hq : redditPath v.Path with
    | none => simp [hq] at h
    | some p =>
      rw [hq, Option.some_bind] at h
      exact cleanQuery_no_scheme r { v with Path := p } hs ho hne h₁ h₂ x w h
  · by_cases htco : v.Host = "t.co" ∧ len v.Path > 1
    · have hc : (decide (v.Host = "t.co") && decide (len v.Path > 1)) = true := by
        simp [htco.1, htco.2]
      simp only [pathRules, hred, if_false, Option.some_bind, hc, if_true, Option.some.injEq,
        Prod.mk.injEq] at h
      rw [← h.1]
      exact ⟨HasPrefix_of_head _ _ 't' 'h' rfl rfl (by decide),
        HasPrefix_of_head _ _ 't' 'h' rfl rfl (by decide)⟩
    · rw [pathRules_generic r v hred htco] at h
      exact cleanQuery_no_scheme r v hs ho hne h₁ h₂ x w h

theorem hostRules_no_scheme (r : GoString) (v : URL) (hs : v.Scheme = "") (ho : v.Opaque = "")
    (hne : v.Host ≠ "") (h₁ : v.Host ≠ "http:") (h₂ : v.Host ≠ "https:")
    (x : GoString × Bool) (w : URL) (h : hostRules r v = some (x, w)) :
    HasPrefix x.1 "http://" = false ∧ HasPrefix x.1 "https://" = false := by
  have early : ∀ (d : GoString) (b : Bool), some ((d, b), v) = some (x, w) →
      (HasPrefix d "http://" = false ∧ HasPrefix d "https://" = false) →
      HasPrefix x.1 "http://" = false ∧ HasPrefix x.1 "https://" = false := by
    intro d b hy hd
    simp only [Option.some.injEq, Prod.mk.injEq] at hy
    rw [← hy.1]
    exact hd
  unfold hostRules at h
  split at h
  · exact early _ _ h (by decide)
  split at h
  · exact early _ _ h (by decide)
  split at h
  · rename_i g hg
    exact early _ _ h (groups_no_scheme hg)
  split at h
  · rename_i g hg
    exact early _ _ h (groups_no_scheme hg)
  split at h
  · exact early _ _ h (by decide)
  split at h
  · exact early _ _ h (by decide)
  split at h
  · exact early _ _ h (by decide)
  exact pathRules_no_scheme r v hs ho hne h₁ h₂ x w h

/-- Counterexamples to C13 as stated. The path of an archived page holds
`http://`, and it is kept in the display; and `url.Parse` reads the host
`http:` (a host with an empty port) out of `https://http://example.com/x`,
so that the display begins with `http://`. -/
theorem C13_counterexample :
    Parse "https://web.archive.org/web/2019/http://example.com/" =
      some { Scheme := "https", Host := "web.archive.org",
             Path := "/web/2019/http://example.com/" } ∧
    cleanRefURL "https://web.archive.org/web/2019/http://example.com/"
      { Scheme := "https", Host := "web.archive.org", Path := "/web/2019/http://example.com/" } =
      some ("web.archive.org/web/2019/http://example.com/", false) ∧
    Contains "web.archive.org/web/2019/http://example.com/" "http://" = true ∧
    Parse "https://http://example.com/x" =
      some { Scheme := "https", Host := "http:", Path := "//example.com/x" } ∧
    cleanRefURL "https://http://example.com/x"
      { Scheme := "https", Host := "http:", Path := "//example.com/x" } =
      some ("http://example.com/x", false) ∧
    HasPrefix "http://example.com/x" "http://" = true := by
  decide

/-- Claim C13, amended: the display does not begin with a scheme. For every
raw string and every URL with no opaque part and a non-empty host other than
`http:` and `https:`, `cleanRefURL` returns, and the display it returns
begins with neither `http://` nor `https://`, on every return path. (Further
on, the display may hold them: path, query and fragment are kept as they
are rendered.) -/
theorem C13_no_scheme_start (ref : GoString) (u : URL) (ho : u.Opaque = "")
    (hne : u.Host ≠ "") (h₁ : u.Host ≠ "http:") (h₂ : u.Host ≠ "https:") :
    ∃ d b, cleanRefURL ref u = some (d, b) ∧
      HasPrefix d "http://" = false ∧ HasPrefix d "https://" = false := by
  by_cases hor : u.Host = "link.oreilly.com"
  · refine ⟨"link.oreilly.com", false, ?_, by decide, by decide⟩
    rw [cleanRefURL, cleanRefURLState_eq, if_pos hor]
    rfl
  · obtain ⟨⟨⟨d, b⟩, w⟩, hr⟩ := hostRules_total (TrimPrefix ref u.Scheme) (normalizeURL u)
    have hne' : (normalizeURL u).Host ≠ "" := by
      rw [normalizeURL_Host]
      rcases aliasHost_cases u.Host with e | ⟨-, e, -⟩
      · rw [e]
        exact hne
      · exact e.1
    have h₁' : (normalizeURL u).Host ≠ "http:" := by
      rw [normalizeURL_Host]
      exact fun e => h₁ (aliasHost_inv _ _ (by decide) e)
    have h₂' : (normalizeURL u).Host ≠ "https:" := by
      rw [normalizeURL_Host]
      exact fun e => h₂ (aliasHost_inv _ _ (by decide) e)
    have ho' : (normalizeURL u).Opaque = "" := by
      rw [normalizeURL_eq]
      exact ho
    refine ⟨d, b, ?_, hostRules_no_scheme _ _ (normalizeURL_Scheme u) ho' hne' h₁' h₂' (d, b) w hr⟩
    rw [cleanRefURL_eq _ _ hor, hr]
    rfl

/-- Witness of C13: the reddit referrer of the spec, which loses its scheme,
its `/top` and its query. -/
theorem C13_no_scheme_start_witness :
    ∃ d b, cleanRefURL "https://old.reddit.com/r/programming/top?utm_source=x"
        { Scheme := "https", Host := "old.reddit.com", Path := "/r/programming/top",
          RawQuery := "utm_source=x" } = some (d, b) ∧
      HasPrefix d "http://" = false ∧ HasPrefix d "https://" = false :=
  C13_no_scheme_start "https://old.reddit.com/r/programming/top?utm_source=x"
    { Scheme := "https", Host := "old.reddit.com", Path := "/r/programming/top",
      RawQuery := "utm_source=x" } rfl (by decide) (by decide) (by decide)

/-! ## Rendering without userinfo and fragment (claim C6) -/

/-- The rendering of a URL with an empty scheme, no opaque part, no user
information, no forced `?`, no fragment and a non-empty host: `//`, the
escaped host, a `/` when the escaped path is not empty and not rooted, the
escaped path, and the query. -/
theorem String_host (u : URL) (hs : u.Scheme = "") (ho : u.Opaque = "") (hu : u.User = none)
    (hf : u.ForceQuery = false) (hF : u.Fragment = "") (hh : u.Host ≠ "") :
    u.String = "//" ++ (escape u.Host encoding.encodeHost ++
      ((if u.EscapedPath ≠ "" ∧ u.EscapedPath.data.head? ≠ some '/' then "/" else "") ++
        u.EscapedPath ++ (if u.RawQuery ≠ "" then "?" ++ u.RawQuery else ""))) := by
  have hne : ∀ t : GoString, ("//" ++ t : GoString) ≠ "" := by
    intro t e
    have := congrArg String.data e
    simp at this
  have hcond : (u.Scheme ≠ "" ∨ u.Host ≠ "" ∨ u.User.isSome = true) := Or.inr (Or.inl hh)
  have hcond₂ : ¬ (u.OmitHost = true ∧ u.Host = "" ∧ u.User.isNone = true) := fun h => hh h.2.1
  have hcond₃ : (u.Host ≠ "" ∨ u.Path ≠ "" ∨ u.User.isSome = true) := Or.inl hh
  unfold URL.String
  simp only [hcond, hcond₂, hcond₃, if_true, if_false]
  simp only [hs, ho, hu, hf, hF, hh, if_true, if_false, ne_eq, not_true_eq_false,
    not_false_eq_true, String.append_empty, String.empty_append, false_and, false_or, and_true]
  by_cases hq : u.RawQuery = "" <;>
    by_cases hsl : (¬ u.EscapedPath = "" ∧ ¬ u.EscapedPath.data.head? = some '/') <;>
    simp [hq, hsl, hne, String.append_assoc]

/-- Generic cleanup on such a URL, when a query shows in the raw string: both
branches give the escaped host followed by the escaped path. -/
theorem cleanQuery_host (ref : GoString) (v : URL) (hs : v.Scheme = "") (ho : v.Opaque = "")
    (hu : v.User = none) (hf : v.ForceQuery = false) (hF : v.Fragment = "") (hne : v.Host ≠ "")
    (hq : v.RawQuery ≠ "" → Index ref "?" ≠ -1) :
    (cleanQuery ref v).map Prod.fst =
      some (escape v.Host encoding.encodeHost ++
        ((if v.EscapedPath ≠ "" ∧ v.EscapedPath.data.head? ≠ some '/' then "/" else "") ++
          v.EscapedPath), false) := by
  obtain ⟨c, t, hE, hc⟩ := escape_host_head v.Host hne
  unfold cleanQuery
  simp only
  split
  · rename_i hi
    have hq' : v.RawQuery = "" := by
      by_contra c
      exact hq c hi
    rw [String_host v hs ho hu hf hF hne]
    have hx : (escape v.Host encoding.encodeHost ++
        ((if v.EscapedPath ≠ "" ∧ v.EscapedPath.data.head? ≠ some '/' then "/" else "") ++
          v.EscapedPath ++ (if v.RawQuery ≠ "" then "?" ++ v.RawQuery else ""))).data =
        c :: (t ++ ((if v.EscapedPath ≠ "" ∧ v.EscapedPath.data.head? ≠ some '/' then "/"
          else "") ++ v.EscapedPath ++
          (if v.RawQuery ≠ "" then "?" ++ v.RawQuery else "")).data) := by
      rw [String.data_append, hE]
      rfl
    rw [TrimLeft_slashes _ c _ hx hc]
    simp [hq']
  · have hEP : ({ v with RawQuery := "" } : URL).EscapedPath = v.EscapedPath := rfl
    rw [String_host { v with RawQuery := "" } hs ho hu hf hF hne, hEP]
    simp only [ne_eq, not_true_eq_false, if_false, String.append_empty]
    rw [if_pos (len_render _), sliceFrom_render]
    rfl

/-- Once a reddit path has lost its listing suffix, `RawPath` (an encoding of
the path as parsed) no longer matches it, and the path is rendered as
`url.escape` writes it. -/
theorem EscapedPath_stripped (u : URL) (p s : GoString) (hpath : u.Path = p ++ s)
    (hs : s ≠ "") (hraw : u.RawPath = "" ∨ unescape u.RawPath encoding.encodePath = some u.Path)
    (hpe : noEscape p encoding.encodePath) :
    ({ u with Path := p } : URL).EscapedPath = p := by
  have hne : p ≠ p ++ s := by
    intro e
    apply hs
    have := congrArg String.data e
    rw [String.data_append] at this
    apply String.ext
    simpa using this
  unfold URL.EscapedPath
  simp only
  have h₁ : ¬ (u.RawPath ≠ "" ∧ validEncoding u.RawPath encoding.encodePath = true ∧
      unescape u.RawPath encoding.encodePath = some p) := by
    rintro ⟨a, -, c⟩
    rcases hraw with e | e
    · exact a e
    · rw [e, hpath] at c
      exact hne (Option.some.inj c).symm
  rw [if_neg h₁]
  split
  · rename_i e
    exact e.symm
  · exact escape_of_noEscape hpe

/-- The reddit listing-suffix rule for any URL value: on `www.reddit.com` or
one of its aliases, without user information, fragment or forced `?`, with a
raw string that is no `groups` key and a path `p ++ s` with `s` a listing
suffix and `p` in no need of escaping, the display is `www.reddit.com`
followed by `p`. The remaining hypotheses hold of every parse of a raw string
with a host (`Parse_host_shape`). -/
theorem cleanRefURL_reddit (ref : GoString) (u : URL) (p s : GoString)
    (hh : u.Host ∈ ["www.reddit.com", "old.reddit.com", "i.reddit.com", "np.reddit.com",
      "fr.reddit.com"])
    (hr : groups (TrimPrefix ref u.Scheme) = none)
    (hpath : u.Path = p ++ s) (hs : s ∈ ["/top", "/new", "/search", ".compact"])
    (hpe : noEscape p encoding.encodePath)
    (hu : u.User = none) (hF : u.Fragment = "") (hf : u.ForceQuery = false)
    (ho : u.Opaque = "")
    (hraw : u.RawPath = "" ∨ unescape u.RawPath encoding.encodePath = some u.Path)
    (hp : p = "" ∨ HasPrefix p "/" = true) (hq : rawAgrees ref u) :
    cleanRefURL ref u = some ("www.reddit.com" ++ p, false) := by
  have e₀ : u.Host ≠ "link.oreilly.com" := by
    intro e; rw [e] at hh; revert hh; decide
  have e₁ : (normalizeURL u).Host = "www.reddit.com" := by
    rw [normalizeURL_Host]
    simp only [List.mem_cons, List.mem_singleton, List.not_mem_nil, or_false] at hh
    rcases hh with h | h | h | h | h <;> rw [h] <;> decide
  have e₂ : redditPath (normalizeURL u).Path = some p := by
    rw [normalizeURL_Path, hpath, redditPath_strip p s hs]
  have hsne : s ≠ "" := by
    rintro rfl
    revert hs
    decide
  have hvh : ({ normalizeURL u with Path := p } : URL).Host = "www.reddit.com" := e₁
  have hvq : ({ normalizeURL u with Path := p } : URL).RawQuery ≠ "" →
      Index (TrimPrefix ref u.Scheme) "?" ≠ -1 := by
    intro c
    exact hq (by rw [← normalizeURL_RawQuery]; exact c)
  have hEP : ({ normalizeURL u with Path := p } : URL).EscapedPath = p := by
    have := EscapedPath_stripped u p s hpath hsne hraw hpe
    rw [normalizeURL_eq]
    exact this
  have hsl : ¬ (p ≠ "" ∧ p.data.head? ≠ some '/') := by
    rintro ⟨h₁, h₂⟩
    rcases hp with e | e
    · exact h₁ e
    · exact h₂ (head_of_HasPrefix_slash _ e)
  have hO : ({ normalizeURL u with Path := p } : URL).Opaque = "" := by
    rw [normalizeURL_eq]; exact ho
  have hU : ({ normalizeURL u with Path := p } : URL).User = none := by
    rw [normalizeURL_eq]; exact hu
  have hFQ : ({ normalizeURL u with Path := p } : URL).ForceQuery = false := by
    rw [normalizeURL_eq]; exact hf
  have hFr : ({ normalizeURL u with Path := p } : URL).Fragment = "" := by
    rw [normalizeURL_eq]; exact hF
  rw [cleanRefURL_eq _ _ e₀, hostRules_of_noHostRule _ _ (noHostRule_reddit _ _ e₁ hr),
    pathRules_reddit _ _ e₁, e₂, Option.some_bind,
    cleanQuery_host _ { normalizeURL u with Path := p } (normalizeURL_Scheme u) hO hU hFQ hFr
      (by rw [hvh]; decide) hvq,
    hEP, hvh, if_neg hsl]
  have hE : escape "www.reddit.com" encoding.encodeHost = "www.reddit.com" := by decide
  rw [hE, String.empty_append]

/-! ## No `?` in the display, for any URL (claim C4) -/

/-- Unescaping keeps every `?`: a `?` is no part of a `%XX` escape. -/
theorem question_mem_unescapeBytes (mode : encoding) :
    ∀ (n : Nat) (s t : List Char), s.length ≤ n → unescapeBytes mode s = some t → '?' ∈ s →
      '?' ∈ t := by
  intro n
  induction n with
  | zero =>
    intro s t hn _ hm
    have : s = [] := List.length_eq_zero.mp (Nat.le_zero.mp hn)
    rw [this] at hm
    exact absurd hm (List.not_mem_nil _)
  | succ n ih =>
    intro s t hn hu hm
    unfold unescapeBytes at hu
    split at hu
    · exact absurd hm (List.not_mem_nil _)
    · rename_i a b rest
      split at hu
      · exact absurd hu (by simp)
      · rename_i hx
        split at hu
        · exact absurd hu (by simp)
        · cases hr : unescapeBytes mode rest with
          | none => simp [hr] at hu
          | some t' =>
            simp only [hr, Option.map_some', Option.some.injEq] at hu
            have hab : ishex a = true ∧ ishex b = true := by
              simpa using hx
            have hq : ishex '?' = false := by decide
            have ha : a ≠ '?' := by
              rintro rfl
              rw [hq] at hab
              exact absurd hab.1 (by decide)
            have hb : b ≠ '?' := by
              rintro rfl
              rw [hq] at hab
              exact absurd hab.2 (by decide)
            have hm' : '?' ∈ rest := by
              simp only [List.mem_cons] at hm
              rcases hm with h | h | h | h
              · exact absurd h (by decide)
              · exact absurd h.symm ha
              · exact absurd h.symm hb
              · exact h
            rw [← hu]
            exact List.mem_cons_of_mem _
              (ih rest t' (by simp only [List.length_cons] at hn; omega) hr hm')
    · exact absurd hu (by simp)
    · rename_i c rest _ _
      split at hu
      · exact absurd hu (by simp)
      · cases hr : unescapeBytes mode rest with
        | none => simp [hr] at hu
        | some t' =>
          simp only [hr, Option.map_some', Option.some.injEq] at hu
          rw [← hu]
          simp only [List.mem_cons] at hm
          rcases hm with h | h
          · rw [← h]
            simp
          · exact List.mem_cons_of_mem _
              (ih rest t' (by simp only [List.length_cons] at hn; omega) hr h)

/-- A string with a `?` is no valid encoding in a mode that escapes `?`. -/
theorem question_not_mem_of_validEncoding (s : GoString) (mode : encoding)
    (hm : shouldEscape '?' mode = true) (hv : validEncoding s mode = true) : '?' ∉ s.data := by
  intro h
  simp only [validEncoding, List.all_eq_true] at hv
  have := hv '?' h
  rw [if_neg (by decide), hm] at this
  exact absurd this (by decide)

theorem question_not_mem_EscapedPath (u : URL) : '?' ∉ u.EscapedPath.data := by
  unfold URL.EscapedPath
  split
  · rename_i h
    exact question_not_mem_of_validEncoding _ _ (by decide) h.2.1
  · split
    · decide
    · exact question_not_mem_escape u.Path encoding.encodePath (by decide)

/-- Escaping brings in no `?`: the escaped text holds one only if the text does. -/
theorem question_mem_of_escape (s : GoString) (mode : encoding)
    (h : '?' ∈ (escape s mode).data) : '?' ∈ s.data := by
  simp only [escape, List.mem_flatMap] at h
  obtain ⟨c, hc, hm⟩ := h
  unfold escapeByte at hm
  split at hm
  · exact absurd hm (by decide)
  · split at hm
    · simp only [List.mem_cons, List.mem_singleton, List.not_mem_nil, or_false] at hm
      rcases hm with h | h | h
      · exact absurd h (by decide)
      · exact absurd h.symm (upperhex_ne_question _ (Nat.mod_lt _ (by decide)))
      · exact absurd h.symm (upperhex_ne_question _ (Nat.mod_lt _ (by decide)))
    · simp only [List.mem_singleton] at hm
      rw [hm]
      exact hc

theorem question_not_mem_EscapedFragment (u : URL) (hF : '?' ∉ u.Fragment.data) :
    '?' ∉ u.EscapedFragment.data := by
  unfold URL.EscapedFragment
  split
  · rename_i h
    intro hm
    obtain ⟨-, -, hu⟩ := h
    simp only [unescape, Option.map_eq_some'] at hu
    obtain ⟨t, ht, e⟩ := hu
    apply hF
    rw [← e]
    exact question_mem_unescapeBytes _ _ _ t (Nat.le_refl _) ht hm
  · exact fun hm => hF (question_mem_of_escape _ _ hm)

theorem question_not_mem_render (ui : Userinfo) : '?' ∉ ui.render.data := by
  have hu := fun s => question_not_mem_escape s encoding.encodeUserPassword (by decide)
  unfold Userinfo.render
  simp only
  split
  · simp only [String.data_append, List.mem_append, not_or]
    exact ⟨⟨hu _, by decide⟩, hu _⟩
  · exact hu _

theorem not_mem_ite {x : Char} {c : Prop} [Decidable c] {a b : GoString} (ha : x ∉ a.data)
    (hb : x ∉ b.data) : x ∉ (if c then a else b).data := by
  split
  · exact ha
  · exact hb

theorem not_mem_append {x : Char} {a b : GoString} (ha : x ∉ a.data) (hb : x ∉ b.data) :
    x ∉ (a ++ b).data := by
  rw [String.data_append, List.mem_append, not_or]
  exact ⟨ha, hb⟩

/-- The rendering of a URL without scheme, query and forced `?` holds no `?`,
unless the opaque part or the fragment holds one. -/
theorem question_not_mem_String_of (v : URL) (hs : v.Scheme = "") (hq : v.RawQuery = "")
    (hf : v.ForceQuery = false) (ho : '?' ∉ v.Opaque.data) (hF : '?' ∉ v.Fragment.data) :
    '?' ∉ v.String.data := by
  have hH := question_not_mem_escape v.Host encoding.encodeHost (by decide)
  have hP := question_not_mem_EscapedPath v
  have hFr := question_not_mem_EscapedFragment v hF
  have hd₀ : '?' ∉ (":" : GoString).data := by decide
  have hd₁ : '?' ∉ ("//" : GoString).data := by decide
  have hd₂ : '?' ∉ ("/" : GoString).data := by decide
  have hd₃ : '?' ∉ ("./" : GoString).data := by decide
  have hd₄ : '?' ∉ ("#" : GoString).data := by decide
  have hd₅ : '?' ∉ ("@" : GoString).data := by decide
  have hd₆ : '?' ∉ ("" : GoString).data := by decide
  have hS : '?' ∉ v.Scheme.data := by
    rw [hs]
    exact hd₆
  have hU : '?' ∉ (match v.User with
      | some ui => ui.render ++ "@"
      | none => ("" : GoString)).data := by
    cases v.User with
    | none => exact hd₆
    | some ui => exact not_mem_append (question_not_mem_render ui) hd₅
  have hc : ¬ (v.ForceQuery = true ∨ v.RawQuery ≠ "") := by
    rw [hf, hq]
    simp
  unfold URL.String
  dsimp only
  rw [if_neg hc]
  repeat' (first
    | assumption
    | apply not_mem_ite
    | apply not_mem_append)

theorem cleanQuery_no_question_of (ref : GoString) (v : URL) (hs : v.Scheme = "")
    (hf : v.ForceQuery = false) (ho : '?' ∉ v.Opaque.data) (hF : '?' ∉ v.Fragment.data)
    (hq : Index ref "?" ≠ -1) (r : (GoString × Bool) × URL) (hr : cleanQuery ref v = some r) :
    '?' ∉ r.1.1.data := by
  have hS := question_not_mem_String_of { v with RawQuery := "" } hs rfl hf ho hF
  simp only [cleanQuery, hq, if_false] at hr
  split at hr
  · simp only [sliceFrom] at hr
    split at hr
    · simp only [Option.map_some', Option.some.injEq] at hr
      rw [← hr]
      exact fun h => hS (List.mem_of_mem_drop h)
    · simp at hr
  · simp only [Option.some.injEq] at hr
    rw [← hr]
    show '?' ∉ ("/" : GoString).data
    decide

theorem pathRules_no_question_of (ref : GoString) (v : URL) (hs : v.Scheme = "")
    (hf : v.ForceQuery = false) (ho : '?' ∉ v.Opaque.data) (hF : '?' ∉ v.Fragment.data)
    (hq : Index ref "?" ≠ -1) (ht : ¬ (v.Host = "t.co" ∧ len v.Path > 1))
    (r : (GoString × Bool) × URL) (hr : pathRules ref v = some r) : '?' ∉ r.1.1.data := by
  by_cases hred : v.Host = "www.reddit.com"
  · rw [pathRules_reddit _ _ hred] at hr
    cases hp' : redditPath v.Path with
    | none => simp [hp'] at hr
    | some p =>
      rw [hp', Option.some_bind] at hr
      exact cleanQuery_no_question_of ref { v with Path := p } hs hf ho hF hq r hr
  · rw [pathRules_generic _ _ hred ht] at hr
    exact cleanQuery_no_question_of ref _ hs hf ho hF hq r hr

theorem hostRules_no_question_of (ref : GoString) (v : URL) (hs : v.Scheme = "")
    (hf : v.ForceQuery = false) (ho : '?' ∉ v.Opaque.data) (hF : '?' ∉ v.Fragment.data)
    (hq : Index ref "?" ≠ -1) (ht : ¬ (v.Host = "t.co" ∧ len v.Path > 1))
    (r : (GoString × Bool) × URL) (hr : hostRules ref v = some r) : '?' ∉ r.1.1.data := by
  have early : ∀ (d : GoString) (b : Bool), some ((d, b), v) = some r → '?' ∉ d.data →
      '?' ∉ r.1.1.data := by
    intro d b hy hd
    simp only [Option.some.injEq] at hy
    rw [← hy]
    exact hd
  unfold hostRules at hr
  split at hr
  · exact early _ _ hr (by decide)
  split at hr
  · exact early _ _ hr (by decide)
  split at hr
  · rename_i g hg
    exact early _ _ hr (groupsTable_labels _ (mapLookup_mem hg))
  split at hr
  · rename_i g hg
    exact early _ _ hr (groupsTable_labels _ (mapLookup_mem hg))
  split at hr
  · exact early _ _ hr (by decide)
  split at hr
  · exact early _ _ hr (by decide)
  split at hr
  · exact early _ _ hr (by decide)
  exact pathRules_no_question_of ref v hs hf ho hF hq ht r hr

/-- No `?` in the display, for any URL value: when the raw string (scheme
trimmed, as the code searches it) holds a `?`, the URL is not caught by the
`t.co` rule, and neither fragment nor opaque part holds a `?` and no lone `?`
is forced, `cleanRefURL` returns a display without `?`. -/
theorem cleanRefURL_no_question (ref : GoString) (u : URL)
    (hq : Index (TrimPrefix ref u.Scheme) "?" ≠ -1)
    (ht : ¬ (u.Host = "t.co" ∧ len u.Path > 1)) (hF : '?' ∉ u.Fragment.data)
    (hf : u.ForceQuery = false) (ho : '?' ∉ u.Opaque.data) :
    ∃ d b, cleanRefURL ref u = some (d, b) ∧ '?' ∉ d.data := by
  by_cases h₀ : u.Host = "link.oreilly.com"
  · refine ⟨"link.oreilly.com", false, ?_, by decide⟩
    rw [cleanRefURL, cleanRefURLState_eq, if_pos h₀]
    rfl
  · obtain ⟨⟨⟨d, b⟩, w⟩, hr⟩ := hostRules_total (TrimPrefix ref u.Scheme) (normalizeURL u)
    have ht' : ¬ ((normalizeURL u).Host = "t.co" ∧ len (normalizeURL u).Path > 1) := by
      rw [normalizeURL_Host, normalizeURL_Path]
      rintro ⟨a, b⟩
      exact ht ⟨aliasHost_eq_tco _ a, b⟩
    have hf' : (normalizeURL u).ForceQuery = false := by
      rw [normalizeURL_eq]; exact hf
    have ho' : '?' ∉ (normalizeURL u).Opaque.data := by
      rw [normalizeURL_eq]; exact ho
    have hF' : '?' ∉ (normalizeURL u).Fragment.data := by
      rw [normalizeURL_eq]; exact hF
    refine ⟨d, b, ?_, hostRules_no_question_of _ _ (normalizeURL_Scheme u) hf' ho' hF' hq ht'
      ((d, b), w) hr⟩
    rw [cleanRefURL_eq _ _ h₀, hr]
    rfl

/-! ## Unescaping what `escape` wrote -/

theorem upperhex_hex : ∀ n < 16, ishex (upperhex n) = true ∧ unhex (upperhex n) = n := by
  decide

theorem shouldEscape_percent (mode : encoding) : shouldEscape '%' mode = true := by
  cases mode <;> decide

/-- The two hex digits `escape` writes for a byte decode to that byte. -/
theorem hex_roundtrip (c : Char) (h : c.toNat < 256) :
    ishex (upperhex (c.toNat / 16 % 16)) = true ∧ ishex (upperhex (c.toNat % 16)) = true ∧
    unhex (upperhex (c.toNat / 16 % 16)) = c.toNat / 16 ∧
    Char.ofNat (unhex (upperhex (c.toNat / 16 % 16)) * 16 + unhex (upperhex (c.toNat % 16))) = c := by
  have h₁ : c.toNat / 16 % 16 = c.toNat / 16 := Nat.mod_eq_of_lt (by omega)
  have a := upperhex_hex (c.toNat / 16 % 16) (Nat.mod_lt _ (by decide))
  have b := upperhex_hex (c.toNat % 16) (Nat.mod_lt _ (by decide))
  refine ⟨a.1, b.1, by rw [a.2, h₁], ?_⟩
  rw [a.2, b.2, h₁]
  have : c.toNat / 16 * 16 + c.toNat % 16 = c.toNat := by omega
  rw [this]
  exact Char.ofNat_toNat c

theorem unescapeBytes_nil (mode : encoding) : unescapeBytes mode [] = some [] := by
  unfold unescapeBytes
  rfl

theorem unescapeBytes_triple (mode : encoding) (a b : Char) (rest : List Char) :
    unescapeBytes mode ('%' :: a :: b :: rest) =
      if !ishex a || !ishex b then none
      else if mode = encoding.encodeHost ∧ unhex a < 8 ∧ (a, b) ≠ ('2', '5') then none
      else (unescapeBytes mode rest).map (fun t => Char.ofNat (unhex a * 16 + unhex b) :: t) := by
  rw [unescapeBytes]

theorem unescapeBytes_cons (mode : encoding) (c : Char) (rest : List Char) (hc : c ≠ '%') :
    unescapeBytes mode (c :: rest) =
      if mode = encoding.encodeHost ∧ c.toNat < 128 ∧ shouldEscape c encoding.encodeHost then none
      else (unescapeBytes mode rest).map
        (fun t => (if c = '+' ∧ mode = encoding.encodeQueryComponent then ' ' else c) :: t) := by
  conv_lhs => unfold unescapeBytes
  split
  · rename_i heq
    exact absurd heq (by simp)
  · rename_i heq
    simp only [List.cons.injEq] at heq
    exact absurd heq.1 hc
  · rename_i heq
    simp only [List.cons.injEq] at heq
    exact absurd heq.1 hc
  · rename_i c' rest' _ _ heq
    simp only [List.cons.injEq] at heq
    obtain ⟨rfl, rfl⟩ := heq
    rfl

theorem unescapeBytes_percent_short (mode : encoding) (l : List Char) (h : l.length < 2) :
    unescapeBytes mode ('%' :: l) = none := by
  unfold unescapeBytes
  split
  · rename_i heq
    exact absurd heq (by simp)
  · rename_i a b rest heq
    simp only [List.cons.injEq, true_and] at heq
    rw [heq] at h
    simp only [List.length_cons] at h
    omega
  · rfl
  · rename_i c rest _ hne heq
    simp only [List.cons.injEq] at heq
    exact absurd heq.1.symm hne

/-- Unescaping undoes the escaping of one byte, in every mode but the query
mode; in host mode for the bytes a parsed host can hold. -/
theorem unescapeBytes_escapeByte (mode : encoding) (hq : mode ≠ encoding.encodeQueryComponent)
    (c : Char) (hb : c.toNat < 256)
    (hh : mode = encoding.encodeHost →
      (128 ≤ c.toNat ∨ c = '%' ∨ shouldEscape c encoding.encodeHost = false))
    (rest : List Char) :
    unescapeBytes mode (escapeByte mode c ++ rest) =
      (unescapeBytes mode rest).map (fun t => c :: t) := by
  obtain ⟨x₁, x₂, x₃, x₄⟩ := hex_roundtrip c hb
  unfold escapeByte
  rw [if_neg (fun h => hq h.2)]
  by_cases hs : shouldEscape c mode = true
  · rw [if_pos hs]
    simp only [List.cons_append, List.nil_append]
    rw [unescapeBytes_triple]
    have h₁ : (!ishex (upperhex (c.toNat / 16 % 16)) || !ishex (upperhex (c.toNat % 16))) = false := by
      rw [x₁, x₂]
      rfl
    have h₂ : ¬ (mode = encoding.encodeHost ∧ unhex (upperhex (c.toNat / 16 % 16)) < 8 ∧
        (upperhex (c.toNat / 16 % 16), upperhex (c.toNat % 16)) ≠ ('2', '5')) := by
      rintro ⟨hm, hlt, hne⟩
      rcases hh hm with h | h | h
      · rw [x₃] at hlt
        omega
      · subst h
        exact hne (by decide)
      · rw [hm] at hs
        rw [h] at hs
        exact absurd hs (by decide)
    rw [h₁, if_neg h₂, x₄]
    simp
  · rw [if_neg hs]
    have hc : c ≠ '%' := by
      rintro rfl
      exact hs (shouldEscape_percent mode)
    simp only [List.cons_append, List.nil_append]
    rw [unescapeBytes_cons mode c rest hc]
    have h₁ : ¬ (mode = encoding.encodeHost ∧ c.toNat < 128 ∧
        shouldEscape c encoding.encodeHost = true) := by
      rintro ⟨hm, -, h⟩
      rw [hm] at hs
      exact hs h
    rw [if_neg h₁, if_neg (fun h => hq h.2)]

theorem unescapeBytes_escape (mode : encoding) (hq : mode ≠ encoding.encodeQueryComponent)
    (l : List Char) (hb : ∀ c ∈ l, c.toNat < 256)
    (hh : mode = encoding.encodeHost →
      ∀ c ∈ l, (128 ≤ c.toNat ∨ c = '%' ∨ shouldEscape c encoding.encodeHost = false)) :
    unescapeBytes mode (l.flatMap (escapeByte mode)) = some l := by
  induction l with
  | nil => exact unescapeBytes_nil mode
  | cons c cs ih =>
    rw [List.flatMap_cons, unescapeBytes_escapeByte mode hq c (hb c (List.mem_cons_self _ _))
      (fun hm => hh hm c (List.mem_cons_self _ _)),
      ih (fun x hx => hb x (List.mem_cons_of_mem _ hx))
        (fun hm x hx => hh hm x (List.mem_cons_of_mem _ hx))]
    rfl

/-- What `escape` writes: bytes that the mode leaves alone, `%`, and hex digits. -/
theorem mem_escape_cases (mode : encoding) (hq : mode ≠ encoding.encodeQueryComponent)
    (l : List Char) (x : Char) (hx : x ∈ l.flatMap (escapeByte mode)) :
    (x ∈ l ∧ shouldEscape x mode = false) ∨ x = '%' ∨ ∃ n < 16, x = upperhex n := by
  simp only [List.mem_flatMap] at hx
  obtain ⟨c, hc, hm⟩ := hx
  unfold escapeByte at hm
  rw [if_neg (fun h => hq h.2)] at hm
  split at hm
  · simp only [List.mem_cons, List.mem_singleton, List.not_mem_nil, or_false] at hm
    rcases hm with h | h | h
    · exact Or.inr (Or.inl h)
    · exact Or.inr (Or.inr ⟨_, Nat.mod_lt _ (by decide), h⟩)
    · exact Or.inr (Or.inr ⟨_, Nat.mod_lt _ (by decide), h⟩)
  · rename_i hs
    simp only [List.mem_singleton] at hm
    subst hm
    exact Or.inl ⟨hc, by simpa using hs⟩

/-- A byte that is escaped in a mode, and is neither `%` nor a hex digit, does
not occur in text escaped in that mode. -/
theorem not_mem_escape_of (mode : encoding) (hq : mode ≠ encoding.encodeQueryComponent)
    (x : Char) (hx : shouldEscape x mode = true) (hhex : ∀ n < 16, upperhex n ≠ x)
    (hpc : x ≠ '%') (l : List Char) : x ∉ l.flatMap (escapeByte mode) := by
  intro h
  rcases mem_escape_cases mode hq l x h with ⟨-, h⟩ | h | ⟨n, hn, h⟩
  · rw [hx] at h
    exact absurd h (by decide)
  · exact hpc h
  · exact hhex n hn h.symm

/-! ## Cutting a list at a separator -/

theorem takeWhile_stop {p : Char → Bool} (x : List Char) (y : Char) (z : List Char)
    (hx : ∀ c ∈ x, p c = true) (hy : p y = false) :
    (x ++ y :: z).takeWhile p = x ∧ (x ++ y :: z).dropWhile p = y :: z := by
  induction x with
  | nil => simp [List.takeWhile, List.dropWhile, hy]
  | cons c cs ih =>
    have hc := hx c (List.mem_cons_self _ _)
    have := ih (fun a ha => hx a (List.mem_cons_of_mem _ ha))
    simp [List.takeWhile, List.dropWhile, hc, this]

theorem cut_append (sep : Char) (a b : List Char) (h : sep ∉ a) :
    url.cut sep (a ++ sep :: b) = (a, b) := by
  have h₁ : ∀ c ∈ a, (c != sep) = true := by
    intro c hc
    simp only [bne_iff_ne, ne_eq]
    rintro rfl
    exact h hc
  have := takeWhile_stop (p := fun c => c != sep) a sep b h₁ (by simp)
  simp only [url.cut, this.1, this.2, List.drop_succ_cons, List.drop_zero]

theorem cutLast_append (sep : Char) (a b : List Char) (h : sep ∉ b) :
    url.cutLast sep (a ++ sep :: b) = some (a, b) := by
  have h₁ : ∀ c ∈ b.reverse, (c != sep) = true := by
    intro c hc
    simp only [bne_iff_ne, ne_eq]
    rintro rfl
    exact h (List.mem_reverse.mp hc)
  have hr : (a ++ sep :: b).reverse = b.reverse ++ sep :: a.reverse := by simp
  have := takeWhile_stop (p := fun c => c != sep) b.reverse sep a.reverse h₁ (by simp)
  simp only [url.cutLast, List.mem_append, List.mem_cons, true_or, or_true, if_true, hr,
    this.1, this.2, List.drop_succ_cons, List.drop_zero, List.reverse_reverse]

theorem cutLast_some (sep : Char) (s pre post : List Char)
    (h : url.cutLast sep s = some (pre, post)) : s = pre ++ sep :: post ∧ sep ∉ post := by
  unfold url.cutLast at h
  split at h
  · rename_i hm
    simp only [Option.some.injEq, Prod.mk.injEq] at h
    obtain ⟨h₁, h₂⟩ := h
    have hsplit := List.takeWhile_append_dropWhile (fun c => c != sep) s.reverse
    have hpost : sep ∉ post := by
      rw [← h₂]
      intro hc
      have := List.mem_takeWhile_imp (List.mem_reverse.mp hc)
      simp at this
    cases hd : s.reverse.dropWhile (fun c => c != sep) with
    | nil =>
      rw [hd, List.append_nil] at hsplit
      have : sep ∈ s.reverse.takeWhile (fun c => c != sep) := by
        rw [hsplit]
        exact List.mem_reverse.mpr hm
      have := List.mem_takeWhile_imp this
      simp at this
    | cons y z =>
      have hy : (y != sep) = false := by
        have := List.head_dropWhile_not (fun c => c != sep) s.reverse (by rw [hd]; simp)
        simpa [hd] using this
      have hy' : y = sep := by simpa using hy
      rw [hd] at h₁ hsplit
      simp only [List.drop_succ_cons, List.drop_zero] at h₁
      refine ⟨?_, hpost⟩
      have : s = (s.reverse).reverse := (List.reverse_reverse s).symm
      rw [this, ← hsplit, List.reverse_append, List.reverse_cons, h₁, h₂, hy']
      simp
  · exact absurd h (by simp)

theorem cutLast_none (sep : Char) (s : List Char) (h : url.cutLast sep s = none) : sep ∉ s := by
  unfold url.cutLast at h
  split at h
  · exact absurd h (by simp)
  · assumption

/-! ## What a successful `unescape` tells -/

/-- Induction over a successful run of `unescape`: the input is made of
`%XX` escapes, each decoded to one byte, and of other bytes, each kept. -/
theorem unescapeBytes_induct (mode : encoding) (P : List Char → List Char → Prop)
    (hnil : P [] [])
    (htriple : ∀ a b rest t, ishex a = true → ishex b = true →
      ¬ (mode = encoding.encodeHost ∧ unhex a < 8 ∧ (a, b) ≠ ('2', '5')) →
      unescapeBytes mode rest = some t → P rest t →
      P ('%' :: a :: b :: rest) (Char.ofNat (unhex a * 16 + unhex b) :: t))
    (hcons : ∀ c rest t, c ≠ '%' →
      ¬ (mode = encoding.encodeHost ∧ c.toNat < 128 ∧ shouldEscape c encoding.encodeHost = true) →
      unescapeBytes mode rest = some t → P rest t →
      P (c :: rest) ((if c = '+' ∧ mode = encoding.encodeQueryComponent then ' ' else c) :: t)) :
    ∀ s t, unescapeBytes mode s = some t → P s t := by
  have main : ∀ (n : Nat) (s t : List Char), s.length ≤ n → unescapeBytes mode s = some t →
      P s t := by
    intro n
    induction n with
    | zero =>
      intro s t hn hu
      have hs : s = [] := List.length_eq_zero.mp (Nat.le_zero.mp hn)
      subst hs
      rw [unescapeBytes_nil] at hu
      cases hu
      exact hnil
    | succ n ih =>
      intro s t hn hu
      match s, hn, hu with
      | [], _, hu =>
        rw [unescapeBytes_nil] at hu
        cases hu
        exact hnil
      | c :: rest, hn, hu =>
        by_cases hc : c = '%'
        · subst hc
          match rest, hn, hu with
          | [], _, hu =>
            rw [unescapeBytes_percent_short mode [] (by simp)] at hu
            exact absurd hu (by simp)
          | [a], _, hu =>
            rw [unescapeBytes_percent_short mode [a] (by simp)] at hu
            exact absurd hu (by simp)
          | a :: b :: rest', hn, hu =>
            rw [unescapeBytes_triple] at hu
            split at hu
            · exact absurd hu (by simp)
            · rename_i hx
              split at hu
              · exact absurd hu (by simp)
              · rename_i hh
                cases hr : unescapeBytes mode rest' with
                | none => simp [hr] at hu
                | some t' =>
                  simp only [hr, Option.map_some', Option.some.injEq] at hu
                  have hab : ishex a = true ∧ ishex b = true := by simpa using hx
                  rw [← hu]
                  exact htriple a b rest' t' hab.1 hab.2 hh hr
                    (ih rest' t' (by simp only [List.length_cons] at hn; omega) hr)
        · rw [unescapeBytes_cons mode c rest hc] at hu
          split at hu
          · exact absurd hu (by simp)
          · rename_i hh
            cases hr : unescapeBytes mode rest with
            | none => simp [hr] at hu
            | some t' =>
              simp only [hr, Option.map_some', Option.some.injEq] at hu
              rw [← hu]
              exact hcons c rest t' hc hh hr
                (ih rest t' (by simp only [List.length_cons] at hn; omega) hr)
  intro s t hu
  exact main s.length s t (Nat.le_refl _) hu

theorem toNat_ofNat_byte (n : Nat) (h : n < 256) : (Char.ofNat n).toNat = n := by
  have hv : n.isValidChar := Or.inl (by omega)
  simp only [Char.ofNat, hv, Char.toNat, Char.ofNatAux, dite_true]
  show (BitVec.ofNatLt n _).toNat = n
  simp

theorem char_le_iff (a b : Char) : a ≤ b ↔ a.toNat ≤ b.toNat := by
  rfl

theorem unhex_lt (c : Char) : unhex c < 16 := by
  have digits : ('0' : Char).toNat = 48 ∧ ('9' : Char).toNat = 57 := ⟨rfl, rfl⟩
  have lower : ('a' : Char).toNat = 97 ∧ ('f' : Char).toNat = 102 := ⟨rfl, rfl⟩
  have upper : ('A' : Char).toNat = 65 ∧ ('F' : Char).toNat = 70 := ⟨rfl, rfl⟩
  unfold unhex
  simp only [char_le_iff, digits.1, digits.2, lower.1, lower.2, upper.1, upper.2]
  split_ifs <;> omega

/-- The byte a `%XX` escape decodes to. -/
theorem unhex_byte (a b : Char) :
    (Char.ofNat (unhex a * 16 + unhex b)).toNat = unhex a * 16 + unhex b ∧
      unhex a * 16 + unhex b < 256 := by
  have ha := unhex_lt a
  have hb := unhex_lt b
  have : unhex a * 16 + unhex b < 256 := by omega
  exact ⟨toNat_ofNat_byte _ this, this⟩

/-- Unescaping bytes gives bytes, in every mode. -/
theorem unescapeBytes_bytes (mode : encoding) (s t : List Char)
    (h : unescapeBytes mode s = some t) (hb : ∀ c ∈ s, c.toNat < 256) :
    ∀ c ∈ t, c.toNat < 256 := by
  revert hb
  refine unescapeBytes_induct mode (fun s t => (∀ c ∈ s, c.toNat < 256) → ∀ c ∈ t, c.toNat < 256)
    ?_ ?_ ?_ s t h
  · intro _ c hc
    exact absurd hc (List.not_mem_nil _)
  · intro a b rest t _ _ _ _ ih hb c hc
    simp only [List.mem_cons] at hc
    rcases hc with rfl | hc
    · rw [(unhex_byte a b).1]
      exact (unhex_byte a b).2
    · exact ih (fun x hx => hb x (by simp [hx])) c hc
  · intro x rest t _ _ _ ih hb c hc
    simp only [List.mem_cons] at hc
    rcases hc with rfl | hc
    · split
      · decide
      · exact hb _ (List.mem_cons_self _ _)
    · exact ih (fun y hy => hb y (List.mem_cons_of_mem _ hy)) c hc

/-- The bytes of an unescaped host: bytes outside ASCII, `%`, and bytes of
the input that a host may hold unescaped. -/
theorem unescapeBytes_host_mem (s t : List Char)
    (h : unescapeBytes encoding.encodeHost s = some t) :
    ∀ c ∈ t, 128 ≤ c.toNat ∨ c = '%' ∨ (c ∈ s ∧ shouldEscape c encoding.encodeHost = false) := by
  refine unescapeBytes_induct encoding.encodeHost
    (fun s t => ∀ c ∈ t, 128 ≤ c.toNat ∨ c = '%' ∨
      (c ∈ s ∧ shouldEscape c encoding.encodeHost = false)) ?_ ?_ ?_ s t h
  · intro c hc
    exact absurd hc (List.not_mem_nil _)
  · intro a b rest t _ _ hh _ ih c hc
    simp only [List.mem_cons] at hc
    rcases hc with rfl | hc
    · by_cases hlt : unhex a < 8
      · have : (a, b) = ('2', '5') := by
          by_contra hne
          exact hh ⟨rfl, hlt, hne⟩
        simp only [Prod.mk.injEq] at this
        obtain ⟨rfl, rfl⟩ := this
        right; left
        decide
      · left
        rw [(unhex_byte a b).1]
        omega
    · rcases ih c hc with h | h | ⟨h₁, h₂⟩
      · exact Or.inl h
      · exact Or.inr (Or.inl h)
      · exact Or.inr (Or.inr ⟨by simp [h₁], h₂⟩)
  · intro x rest t _ hh _ ih c hc
    simp only [List.mem_cons] at hc
    rcases hc with rfl | hc
    · rw [if_neg (fun h => absurd h.2 (by decide))]
      by_cases hlt : x.toNat < 128
      · right; right
        refine ⟨List.mem_cons_self _ _, ?_⟩
        by_contra hs
        exact hh ⟨rfl, hlt, by simpa using hs⟩
      · left
        omega
    · rcases ih c hc with h | h | ⟨h₁, h₂⟩
      · exact Or.inl h
      · exact Or.inr (Or.inl h)
      · exact Or.inr (Or.inr ⟨List.mem_cons_of_mem _ h₁, h₂⟩)

/-! ## Parsing a host that `String` wrote -/

theorem unescapeBytes_host_head (s t : List Char)
    (h : unescapeBytes encoding.encodeHost s = some t) (hs : s.head? ≠ some '[') :
    t.head? ≠ some '[' := by
  revert hs
  refine unescapeBytes_induct encoding.encodeHost
    (fun s t => s.head? ≠ some '[' → t.head? ≠ some '[') ?_ ?_ ?_ s t h
  · intro h
    exact h
  · intro a b rest t _ _ hh _ _ _
    simp only [List.head?_cons, ne_eq, Option.some.injEq]
    intro e
    have hn := (unhex_byte a b).1
    rw [e] at hn
    have h91 : ('[' : Char).toNat = 91 := rfl
    rw [h91] at hn
    by_cases hlt : unhex a < 8
    · have : (a, b) = ('2', '5') := by
        by_contra hne
        exact hh ⟨rfl, hlt, hne⟩
      simp only [Prod.mk.injEq] at this
      obtain ⟨rfl, rfl⟩ := this
      revert e
      decide
    · have := unhex_lt b
      omega
  · intro x rest t _ _ _ _ hs
    simp only [List.head?_cons, ne_eq, Option.some.injEq] at hs ⊢
    rw [if_neg (fun h => absurd h.2 (by decide))]
    exact hs

/-- A successful `unescape` can be cut in front of a byte that is no hex
digit: no escape runs across it. -/
theorem unescapeBytes_split (mode : encoding) (c : Char) (hx : ishex c = false)
    (rest : List Char) :
    ∀ (n : Nat) (pre h : List Char), pre.length ≤ n →
      unescapeBytes mode (pre ++ c :: rest) = some h →
      ∃ h' t, unescapeBytes mode pre = some h' ∧ unescapeBytes mode (c :: rest) = some t ∧
        h = h' ++ t := by
  intro n
  induction n with
  | zero =>
    intro pre h hn hu
    have hs : pre = [] := List.length_eq_zero.mp (Nat.le_zero.mp hn)
    subst hs
    exact ⟨[], h, unescapeBytes_nil mode, hu, rfl⟩
  | succ n ih =>
    intro pre h hn hu
    match pre, hn, hu with
    | [], _, hu => exact ⟨[], h, unescapeBytes_nil mode, hu, rfl⟩
    | x :: pre', hn, hu =>
      by_cases hxp : x = '%'
      · subst hxp
        match pre', hn, hu with
        | [], _, hu =>
          exfalso
          simp only [List.cons_append, List.nil_append] at hu
          match rest, hu with
          | [], hu =>
            rw [unescapeBytes_percent_short mode [c] (by simp)] at hu
            exact absurd hu (by simp)
          | r :: rest', hu =>
            rw [unescapeBytes_triple, hx] at hu
            simp at hu
        | [a], _, hu =>
          exfalso
          simp only [List.cons_append, List.nil_append] at hu
          rw [unescapeBytes_triple, hx] at hu
          simp at hu
        | a :: b :: pre'', hn, hu =>
          simp only [List.cons_append] at hu
          rw [unescapeBytes_triple] at hu ⊢
          split at hu
          · exact absurd hu (by simp)
          · rename_i h₁
            split at hu
            · exact absurd hu (by simp)
            · rename_i h₂
              cases hr : unescapeBytes mode (pre'' ++ c :: rest) with
              | none => simp [hr] at hu
              | some t' =>
                simp only [hr, Option.map_some', Option.some.injEq] at hu
                obtain ⟨h', t, e₁, e₂, e₃⟩ :=
                  ih pre'' t' (by simp only [List.length_cons] at hn; omega) hr
                refine ⟨Char.ofNat (unhex a * 16 + unhex b) :: h', t, ?_, e₂, ?_⟩
                · rw [if_neg h₁, if_neg h₂, e₁]
                  rfl
                · rw [← hu, e₃]
                  rfl
      · simp only [List.cons_append] at hu
        rw [unescapeBytes_cons mode x _ hxp] at hu
        rw [unescapeBytes_cons mode x _ hxp]
        split at hu
        · exact absurd hu (by simp)
        · rename_i h₁
          cases hr : unescapeBytes mode (pre' ++ c :: rest) with
          | none => simp [hr] at hu
          | some t' =>
            simp only [hr, Option.map_some', Option.some.injEq] at hu
            obtain ⟨h', t, e₁, e₂, e₃⟩ :=
              ih pre' t' (by simp only [List.length_cons] at hn; omega) hr
            refine ⟨(if x = '+' ∧ mode = encoding.encodeQueryComponent then ' ' else x) :: h', t,
              ?_, e₂, ?_⟩
            · rw [if_neg h₁, e₁]
              rfl
            · rw [← hu, e₃]
              rfl

theorem shouldEscape_digit (c : Char) (mode : encoding) (h : '0' ≤ c ∧ c ≤ '9') :
    shouldEscape c mode = false := by
  unfold shouldEscape
  rw [if_pos (Or.inr (Or.inr h))]

theorem head_flatMap_escapeByte (mode : encoding) (l : List Char) (x : Char)
    (hl : l.head? ≠ some x) (hp : x ≠ '%') (hplus : x ≠ '+') :
    (l.flatMap (escapeByte mode)).head? ≠ some x := by
  cases l with
  | nil => simp
  | cons c cs =>
    simp only [List.head?_cons, ne_eq, Option.some.injEq] at hl
    simp only [List.flatMap_cons]
    unfold escapeByte
    split
    · simpa using fun e => hplus e.symm
    · split
      · simpa using fun e => hp e.symm
      · simpa using hl

/-- The host that `url.Parse` read out of an authority is read again out of
its escaped form, as `String` writes it. -/
theorem parseHost_escape (hr h : List Char) (hb : ∀ c ∈ hr, c.toNat < 256)
    (hp : parseHost hr = some h) :
    parseHost (h.flatMap (escapeByte encoding.encodeHost)) = some h ∧ ∀ c ∈ h, c.toNat < 256 := by
  unfold parseHost at hp
  split at hp
  · exact absurd hp (by simp)
  rename_i hhd
  have key : ∀ (hu : unescapeBytes encoding.encodeHost hr = some h),
      unescapeBytes encoding.encodeHost (h.flatMap (escapeByte encoding.encodeHost)) = some h ∧
      (h.flatMap (escapeByte encoding.encodeHost)).head? ≠ some '[' ∧
      ∀ c ∈ h, c.toNat < 256 := by
    intro hu
    have hbytes := unescapeBytes_bytes _ _ _ hu hb
    have hmem := unescapeBytes_host_mem _ _ hu
    refine ⟨unescapeBytes_escape _ (by decide) h hbytes (fun _ c hc => ?_), ?_, hbytes⟩
    · rcases hmem c hc with a | a | ⟨-, a⟩
      · exact Or.inl a
      · exact Or.inr (Or.inl a)
      · exact Or.inr (Or.inr a)
    · exact head_flatMap_escapeByte _ h '[' (unescapeBytes_host_head _ _ hu hhd)
        (by decide) (by decide)
  split at hp
  · rename_i pre port hcut
    split at hp
    · rename_i hport
      obtain ⟨hu', hhead, hbytes⟩ := key hp
      refine ⟨?_, hbytes⟩
      obtain ⟨hsplit, hnc⟩ := cutLast_some ':' hr pre port hcut
      rw [hsplit] at hp
      obtain ⟨h', t, e₁, e₂, e₃⟩ :=
        unescapeBytes_split encoding.encodeHost ':' (by decide) port pre.length pre h
          (Nat.le_refl _) hp
      have hdig : ∀ c ∈ port, '0' ≤ c ∧ c ≤ '9' := by
        simpa [validOptionalPort, List.all_eq_true] using hport
      have hne : ∀ c ∈ ':' :: port, shouldEscape c encoding.encodeHost = false := by
        intro c hc
        simp only [List.mem_cons] at hc
        rcases hc with rfl | hc
        · decide
        · exact shouldEscape_digit c _ (hdig c hc)
      have hpc : '%' ∉ ':' :: port := by
        intro hc
        have := hne '%' hc
        rw [shouldEscape_percent] at this
        exact absurd this (by decide)
      have ht : t = ':' :: port := by
        rw [unescapeBytes_id _ _ hpc (fun _ => hne) (by decide)] at e₂
        exact (Option.some.inj e₂).symm
      have hE : h.flatMap (escapeByte encoding.encodeHost) =
          h'.flatMap (escapeByte encoding.encodeHost) ++ ':' :: port := by
        rw [e₃, ht, List.flatMap_append, flatMap_escapeByte_of_noEscape _ _ hne]
      unfold parseHost
      rw [if_neg hhead, hE, cutLast_append ':' _ port hnc]
      simp only [hport, if_true]
      rw [← hE]
      exact hu'
    · exact absurd hp (by simp)
  · rename_i hcut
    obtain ⟨hu', hhead, hbytes⟩ := key hp
    refine ⟨?_, hbytes⟩
    have hnc : ':' ∉ hr := cutLast_none ':' hr hcut
    have hnh : ':' ∉ h := by
      intro hc
      rcases unescapeBytes_host_mem _ _ hp ':' hc with a | a | ⟨a, -⟩
      · revert a
        decide
      · revert a
        decide
      · exact hnc a
    have hnE : ':' ∉ h.flatMap (escapeByte encoding.encodeHost) := by
      intro hc
      rcases mem_escape_cases _ (by decide) h ':' hc with ⟨a, -⟩ | a | ⟨n, hn, a⟩
      · exact hnh a
      · revert a
        decide
      · have : ∀ n < 16, upperhex n ≠ ':' := by decide
        exact this n hn a.symm
    unfold parseHost
    rw [if_neg hhead, cutLast_of_not_mem ':' _ hnE]
    exact hu'

/-! ## What `url.Parse` yields for a raw string with a host -/

/-- The authority branch of `url.parse`: the only one that sets a host. -/
theorem parseHier_host (ub : URL) (r : List Char) (u₀ : URL) (hub : ub.Host = "")
    (h : parseHier ub r = some u₀) (hne : u₀.Host ≠ "") :
    ∃ user host path, parseAuthority ((r.drop 2).takeWhile (fun c => c != '/')) = some (user, host) ∧
      unescapeBytes encoding.encodePath ((r.drop 2).dropWhile (fun c => c != '/')) = some path ∧
      u₀ = { ub with User := user, Host := ⟨host⟩, Path := ⟨path⟩,
                     RawPath := if (⟨(r.drop 2).dropWhile (fun c => c != '/')⟩ : GoString) =
                         escape ⟨path⟩ encoding.encodePath then ""
                       else ⟨(r.drop 2).dropWhile (fun c => c != '/')⟩ } := by
  have hset : ∀ (v : URL) (p : List Char), v.Host = "" → URL.setPath v p = some u₀ → False := by
    intro v p hv hs
    simp only [URL.setPath, Option.map_eq_some'] at hs
    obtain ⟨path, -, e⟩ := hs
    apply hne
    rw [← e]
    exact hv
  unfold parseHier at h
  split at h
  · simp only [Option.some.injEq] at h
    exact absurd (by rw [← h]; exact hub) hne
  split at h
  · exact absurd h (by simp)
  split at h
  · simp only at h
    cases ha : parseAuthority ((r.drop 2).takeWhile (fun c => c != '/')) with
    | none => simp [ha] at h
    | some uh =>
      obtain ⟨user, host⟩ := uh
      simp only [ha, Option.some_bind, URL.setPath, Option.map_eq_some'] at h
      obtain ⟨path, hp, e⟩ := h
      exact ⟨user, host, path, rfl, hp, e.symm⟩
  split at h
  · exact absurd (hset { ub with OmitHost := true } r hub h) id
  · exact absurd (hset ub r hub h) id

theorem mem_of_mem_cut_fst {sep : Char} {s : List Char} {c : Char} (h : c ∈ (url.cut sep s).1) :
    c ∈ s :=
  (List.takeWhile_prefix _).subset h

theorem mem_of_mem_cut_snd {sep : Char} {s : List Char} {c : Char} (h : c ∈ (url.cut sep s).2) :
    c ∈ s :=
  (List.dropWhile_suffix _).subset (List.mem_of_mem_drop h)

theorem mem_of_mem_splitQuery {rest : List Char} {c : Char} :
    (c ∈ (splitQuery rest).2.1 → c ∈ rest) ∧ (c ∈ (splitQuery rest).2.2 → c ∈ rest) := by
  unfold splitQuery
  split
  · exact ⟨fun h => List.mem_of_mem_take h, fun h => absurd h (List.not_mem_nil _)⟩
  · exact ⟨mem_of_mem_cut_fst, mem_of_mem_cut_snd⟩

/-- A query was split off only where the text holds a `?`. -/
theorem question_mem_of_splitQuery {rest : List Char} (h : (splitQuery rest).2.2 ≠ []) :
    '?' ∈ rest := by
  by_contra hn
  rw [splitQuery_of_not_mem rest hn] at h
  exact h rfl

/-- The scheme that `getScheme` reads is made of letters, digits and `+-.`,
and the rest is part of the raw string. -/
theorem getSchemeLoop_spec (rawURL : List Char) :
    ∀ (l acc scheme rest : List Char),
      (∀ c ∈ acc, c ≠ '?' ∧ ¬ ('A' ≤ c ∧ c ≤ 'Z') ∨ ('A' ≤ c ∧ c ≤ 'Z')) →
      (∀ c ∈ l, c ∈ rawURL) →
      getSchemeLoop rawURL acc l = some (scheme, rest) →
      (∀ c ∈ scheme, c ≠ '?' ∧ ¬ ('A' ≤ c ∧ c ≤ 'Z') ∨ ('A' ≤ c ∧ c ≤ 'Z')) ∧
        ∀ c ∈ rest, c ∈ rawURL := by
  intro l
  induction l with
  | nil =>
    intro acc scheme rest _ _ h
    simp only [getSchemeLoop, Option.some.injEq, Prod.mk.injEq] at h
    obtain ⟨rfl, rfl⟩ := h
    exact ⟨fun c hc => absurd hc (List.not_mem_nil _), fun c hc => hc⟩
  | cons c cs ih =>
    intro acc scheme rest hacc hl h
    have hcs : ∀ x ∈ cs, x ∈ rawURL := fun x hx => hl x (List.mem_cons_of_mem _ hx)
    have hstep : ∀ (hcq : c ≠ '?'), getSchemeLoop rawURL (acc ++ [c]) cs = some (scheme, rest) →
        (∀ c ∈ scheme, c ≠ '?' ∧ ¬ ('A' ≤ c ∧ c ≤ 'Z') ∨ ('A' ≤ c ∧ c ≤ 'Z')) ∧
          ∀ c ∈ rest, c ∈ rawURL := by
      intro hcq h'
      refine ih (acc ++ [c]) scheme rest ?_ hcs h'
      intro x hx
      simp only [List.mem_append, List.mem_singleton] at hx
      rcases hx with hx | rfl
      · exact hacc x hx
      · by_cases hu : 'A' ≤ x ∧ x ≤ 'Z'
        · exact Or.inr hu
        · exact Or.inl ⟨hcq, hu⟩
    have hdone : (scheme, rest) = (([] : List Char), rawURL) →
        (∀ c ∈ scheme, c ≠ '?' ∧ ¬ ('A' ≤ c ∧ c ≤ 'Z') ∨ ('A' ≤ c ∧ c ≤ 'Z')) ∧
          ∀ c ∈ rest, c ∈ rawURL := by
      intro e
      simp only [Prod.mk.injEq] at e
      obtain ⟨rfl, rfl⟩ := e
      exact ⟨fun c hc => absurd hc (List.not_mem_nil _), fun c hc => hc⟩
    unfold getSchemeLoop at h
    split at h
    · rename_i hlet
      refine hstep ?_ h
      rintro rfl
      revert hlet
      decide
    · split at h
      · rename_i hdig
        split at h
        · simp only [Option.some.injEq] at h
          exact hdone h.symm
        · refine hstep ?_ h
          rintro rfl
          revert hdig
          decide
      · split at h
        · split at h
          · exact absurd h (by simp)
          · simp only [Option.some.injEq, Prod.mk.injEq] at h
            obtain ⟨rfl, rfl⟩ := h
            exact ⟨hacc, hcs⟩
        · simp only [Option.some.injEq] at h
          exact hdone h.symm

theorem question_not_mem_toLowerASCII (scheme : List Char)
    (h : ∀ c ∈ scheme, c ≠ '?' ∧ ¬ ('A' ≤ c ∧ c ≤ 'Z') ∨ ('A' ≤ c ∧ c ≤ 'Z')) :
    '?' ∉ toLowerASCII scheme := by
  unfold toLowerASCII
  simp only [List.mem_map, not_exists, not_and]
  intro c hc
  rcases h c hc with ⟨h₁, h₂⟩ | h₂
  · rw [if_neg h₂]
    exact h₁
  · rw [if_pos h₂]
    intro e
    have hA : ('A' : Char).toNat = 65 := rfl
    have hZ : ('Z' : Char).toNat = 90 := rfl
    have h₃ : 65 ≤ c.toNat ∧ c.toNat ≤ 90 := by
      rw [← hA, ← hZ]
      exact h₂
    have := toNat_ofNat_byte (c.toNat + 32) (by omega)
    rw [e] at this
    have hq : ('?' : Char).toNat = 63 := rfl
    omega

theorem parseAuthority_facts (authority : List Char) (user : Option Userinfo) (host : List Char)
    (hb : ∀ c ∈ authority, c.toNat < 256) (h : parseAuthority authority = some (user, host)) :
    (∃ hr, (∀ c ∈ hr, c.toNat < 256) ∧ parseHost hr = some host) ∧
      ∀ ui, user = some ui → isBytes ui.username ∧ isBytes ui.password := by
  unfold parseAuthority at h
  split at h
  · simp only [Option.map_eq_some', Prod.mk.injEq] at h
    obtain ⟨h', hp, rfl, rfl⟩ := h
    exact ⟨⟨authority, hb, hp⟩, fun ui e => absurd e (by simp)⟩
  · rename_i userinfo hostpart hcut
    obtain ⟨hsplit, -⟩ := cutLast_some '@' authority userinfo hostpart hcut
    have hbu : ∀ c ∈ userinfo, c.toNat < 256 := fun c hc => hb c (by rw [hsplit]; simp [hc])
    have hbh : ∀ c ∈ hostpart, c.toNat < 256 := fun c hc => hb c (by rw [hsplit]; simp [hc])
    cases hp : parseHost hostpart with
    | none => simp [hp] at h
    | some h' =>
      simp only [hp, Option.some_bind] at h
      split at h
      · exact absurd h (by simp)
      · split at h
        · cases hu : unescapeBytes encoding.encodeUserPassword (url.cut ':' userinfo).1 with
          | none => simp [hu] at h
          | some username =>
            cases hw : unescapeBytes encoding.encodeUserPassword (url.cut ':' userinfo).2 with
            | none => simp [hu, hw] at h
            | some password =>
              simp only [hu, hw, Option.some_bind, Option.map_some', Option.some.injEq,
                Prod.mk.injEq] at h
              obtain ⟨rfl, rfl⟩ := h
              refine ⟨⟨hostpart, hbh, hp⟩, ?_⟩
              intro ui e
              simp only [Option.some.injEq] at e
              subst e
              exact ⟨unescapeBytes_bytes _ _ _ hu (fun c hc => hbu c (mem_of_mem_cut_fst hc)),
                unescapeBytes_bytes _ _ _ hw (fun c hc => hbu c (mem_of_mem_cut_snd hc))⟩
        · cases hu : unescapeBytes encoding.encodeUserPassword userinfo with
          | none => simp [hu] at h
          | some username =>
            simp only [hu, Option.map_some', Option.some.injEq, Prod.mk.injEq] at h
            obtain ⟨rfl, rfl⟩ := h
            refine ⟨⟨hostpart, hbh, hp⟩, ?_⟩
            intro ui e
            simp only [Option.some.injEq] at e
            subst e
            exact ⟨unescapeBytes_bytes _ _ _ hu hbu, fun c hc => absurd hc (List.not_mem_nil _)⟩

theorem dropWhile_slash_head (l : List Char) :
    l.dropWhile (fun c => c != '/') = [] ∨ (l.dropWhile (fun c => c != '/')).head? = some '/' := by
  cases hd : l.dropWhile (fun c => c != '/') with
  | nil => exact Or.inl rfl
  | cons y z =>
    right
    have := List.head_dropWhile_not (fun c => c != '/') l (by rw [hd]; simp)
    simp only [hd, List.head_cons, Bool.not_eq_true] at this
    have hy : y = '/' := by simpa using this
    simp [hy]

/-- Unescaping a path keeps it empty or rooted. -/
theorem unescapeBytes_path_head (p t : List Char)
    (h : unescapeBytes encoding.encodePath p = some t) (hp : p = [] ∨ p.head? = some '/') :
    t = [] ∨ t.head? = some '/' := by
  rcases hp with rfl | hp
  · rw [unescapeBytes_nil] at h
    exact Or.inl (Option.some.inj h).symm
  · cases p with
    | nil => simp at hp
    | cons c cs =>
      simp only [List.head?_cons, Option.some.injEq] at hp
      subst hp
      rw [unescapeBytes_cons _ _ _ (by decide)] at h
      rw [if_neg (fun h => absurd h.1 (by decide))] at h
      simp only [Option.map_eq_some'] at h
      obtain ⟨t', -, e⟩ := h
      right
      rw [← e]
      rfl

/-- What `url.Parse` yields when it reads a host out of a raw string of
bytes: no opaque part; a host that is read again out of its escaped form; a
path and a `RawPath` that are empty or rooted; bytes in path, fragment and
user information; a raw string that holds a `?` when there is a query; and a
`RawPath` that is empty or an encoding of the path. -/
theorem Parse_host_facts (raw : GoString) (u : URL) (hb : isBytes raw) (hp : Parse raw = some u)
    (hne : u.Host ≠ "") :
    u.Opaque = "" ∧
    parseHost (u.Host.data.flatMap (escapeByte encoding.encodeHost)) = some u.Host.data ∧
    (u.Path.data = [] ∨ u.Path.data.head? = some '/') ∧
    (u.RawPath.data = [] ∨ u.RawPath.data.head? = some '/') ∧
    isBytes u.Path ∧ isBytes u.Fragment ∧
    (∀ ui, u.User = some ui → isBytes ui.username ∧ isBytes ui.password) ∧
    rawAgrees raw u ∧
    (u.RawPath = "" ∨ unescape u.RawPath encoding.encodePath = some u.Path) := by
  unfold Parse at hp
  cases hpn : parseNoFragment (url.cut '#' raw.data).1 with
  | none => simp [hpn] at hp
  | some u₀ =>
    rw [hpn, Option.some_bind] at hp
    -- the fields other than the fragment are those of `u₀`
    have hfields : u.Opaque = u₀.Opaque ∧ u.Host = u₀.Host ∧ u.Path = u₀.Path ∧
        u.RawPath = u₀.RawPath ∧ u.User = u₀.User ∧ u.RawQuery = u₀.RawQuery ∧
        u.Scheme = u₀.Scheme ∧ (u.Fragment = u₀.Fragment ∨
          ∃ f, unescapeBytes encoding.encodeFragment (url.cut '#' raw.data).2 = some f ∧
            u.Fragment = ⟨f⟩) := by
      split at hp
      · simp only [Option.some.injEq] at hp
        subst hp
        exact ⟨rfl, rfl, rfl, rfl, rfl, rfl, rfl, Or.inl rfl⟩
      · simp only [URL.setFragment, Option.map_eq_some'] at hp
        obtain ⟨f, hf, e⟩ := hp
        subst e
        exact ⟨rfl, rfl, rfl, rfl, rfl, rfl, rfl, Or.inr ⟨f, hf, rfl⟩⟩
    obtain ⟨eO, eH, eP, eR, eU, eQ, eS, eF⟩ := hfields
    have hne₀ : u₀.Host ≠ "" := by rw [← eH]; exact hne
    have hbpre : ∀ c ∈ (url.cut '#' raw.data).1, c.toNat < 256 :=
      fun c hc => hb c (mem_of_mem_cut_fst hc)
    unfold parseNoFragment at hpn
    split at hpn
    · exact absurd hpn (by simp)
    split at hpn
    · simp only [Option.some.injEq] at hpn
      exact absurd (by rw [← hpn]) hne₀
    cases hg : getScheme (url.cut '#' raw.data).1 with
    | none => simp [hg] at hpn
    | some sr =>
      obtain ⟨scheme, rest⟩ := sr
      simp only [hg, Option.some_bind] at hpn
      obtain ⟨hsch, hrest⟩ := getSchemeLoop_spec _ _ [] scheme rest
        (fun c hc => absurd hc (List.not_mem_nil _)) (fun c hc => hc) hg
      obtain ⟨user, host, path, ha, hpath, e⟩ := parseHier_host _ _ u₀ rfl hpn hne₀
      have hbq : ∀ c ∈ (splitQuery rest).2.1, c.toNat < 256 :=
        fun c hc => hbpre c (hrest c (mem_of_mem_splitQuery.1 hc))
      have hbauth : ∀ c ∈ ((splitQuery rest).2.1.drop 2).takeWhile (fun c => c != '/'),
          c.toNat < 256 :=
        fun c hc => hbq c (List.mem_of_mem_drop ((List.takeWhile_prefix _).subset hc))
      have hbpath : ∀ c ∈ ((splitQuery rest).2.1.drop 2).dropWhile (fun c => c != '/'),
          c.toNat < 256 :=
        fun c hc => hbq c (List.mem_of_mem_drop ((List.dropWhile_suffix _).subset hc))
      obtain ⟨⟨hr, hbhr, hph⟩, huser⟩ := parseAuthority_facts _ user host hbauth ha
      have hroot := dropWhile_slash_head ((splitQuery rest).2.1.drop 2)
      have e₁ : u₀.Opaque = "" := by rw [e]
      have e₂ : u₀.Host = ⟨host⟩ := by rw [e]
      have e₃ : u₀.Path = ⟨path⟩ := by rw [e]
      have e₄ : u₀.User = user := by rw [e]
      have e₅ : u₀.RawQuery = ⟨(splitQuery rest).2.2⟩ := by rw [e]
      have e₆ : u₀.Scheme = ⟨toLowerASCII scheme⟩ := by rw [e]
      have e₇ : u₀.Fragment = "" := by rw [e]
      have e₈ : u₀.RawPath = "" ∨
          u₀.RawPath = ⟨((splitQuery rest).2.1.drop 2).dropWhile (fun c => c != '/')⟩ := by
        rw [e]
        simp only
        split
        · exact Or.inl rfl
        · exact Or.inr rfl
      refine ⟨by rw [eO, e₁], ?_, ?_, ?_, ?_, ?_, ?_, ?_, ?_⟩
      · rw [eH, e₂]
        exact (parseHost_escape hr host hbhr hph).1
      · rw [eP, e₃]
        exact unescapeBytes_path_head _ _ hpath hroot
      · rw [eR]
        rcases e₈ with h | h
        · rw [h]
          exact Or.inl rfl
        · rw [h]
          exact hroot
      · rw [eP, e₃]
        exact unescapeBytes_bytes _ _ _ hpath hbpath
      · rcases eF with h | ⟨f, hf, h⟩
        · rw [h, e₇]
          intro c hc
          exact absurd hc (List.not_mem_nil _)
        · rw [h]
          exact unescapeBytes_bytes _ _ _ hf (fun c hc => hb c (mem_of_mem_cut_snd hc))
      · rw [eU, e₄]
        exact huser
      · intro hq
        rw [eQ, e₅] at hq
        rw [eS, e₆]
        have hq' : (splitQuery rest).2.2 ≠ [] := by
          intro c
          apply hq
          rw [c]
        have hm : '?' ∈ raw.data :=
          mem_of_mem_cut_fst (hrest _ (question_mem_of_splitQuery hq'))
        exact Index_TrimPrefix_of_raw raw _ hm (question_not_mem_toLowerASCII scheme hsch)
      · rw [eR, eP, e₃]
        rcases e₈ with h | h
        · exact Or.inl h
        · right
          rw [h]
          simp only [unescape, hpath, Option.map_some']

/-! ## The display of generic cleanup, piece by piece -/

/-- The rendering of a URL with an empty scheme, no opaque part, no query, a
non-empty host and an escaped path that is empty or rooted: `//`, the
authority, the escaped path, and the trailer. -/
theorem String_pieces (v : URL) (hs : v.Scheme = "") (ho : v.Opaque = "") (hh : v.Host ≠ "")
    (hq : v.RawQuery = "")
    (hP : v.EscapedPath.data = [] ∨ v.EscapedPath.data.head? = some '/') :
    v.String = "//" ++ (v.authority ++ (v.EscapedPath ++ v.trailer)) := by
  have hne : ∀ t : GoString, ("//" ++ t : GoString) ≠ "" := by
    intro t e
    have := congrArg String.data e
    simp at this
  have hcond : (v.Scheme ≠ "" ∨ v.Host ≠ "" ∨ v.User.isSome = true) := Or.inr (Or.inl hh)
  have hcond₂ : ¬ (v.OmitHost = true ∧ v.Host = "" ∧ v.User.isNone = true) := fun h => hh h.2.1
  have hcond₃ : (v.Host ≠ "" ∨ v.Path ≠ "" ∨ v.User.isSome = true) := Or.inl hh
  have hsl : ¬ (v.EscapedPath ≠ "" ∧ v.EscapedPath.data.head? ≠ some '/' ∧ v.Host ≠ "") := by
    rintro ⟨h₁, h₂, -⟩
    rcases hP with h | h
    · exact h₁ (String.ext h)
    · exact h₂ h
  unfold URL.String URL.authority URL.trailer
  simp only [hcond, hcond₂, hcond₃, hsl, if_true, if_false]
  simp only [hs, ho, hh, hq, if_true, if_false, ne_eq, not_true_eq_false, not_false_eq_true,
    String.empty_append, String.append_empty, and_true, or_false]
  by_cases hf : v.ForceQuery = true <;>
    by_cases hF : v.Fragment = "" <;>
    simp only [hf, hF, hne, String.append_assoc, if_true, if_false, not_true_eq_false,
      not_false_eq_true, String.append_empty, String.empty_append, false_and, or_true,
      Bool.false_eq_true, or_self, ne_eq]

/-! ## The bytes of escaped text -/

theorem shouldEscape_ctl_nat (mode : encoding) :
    ∀ n < 32, shouldEscape (Char.ofNat n) mode = true := by
  cases mode <;> decide

theorem shouldEscape_ctl (c : Char) (mode : encoding) (h : c < ' ' ∨ c = '\x7f') :
    shouldEscape c mode = true := by
  rcases h with h | rfl
  · have h32 : c.toNat < 32 := h
    rw [← Char.ofNat_toNat c]
    exact shouldEscape_ctl_nat mode _ h32
  · cases mode <;> decide

theorem upperhex_not_ctl : ∀ n < 16, ¬ (upperhex n < ' ' ∨ upperhex n = '\x7f') := by
  decide

/-- Escaped text holds no control byte. -/
theorem ctl_not_mem_escape (mode : encoding) (hq : mode ≠ encoding.encodeQueryComponent)
    (l : List Char) : ∀ c ∈ l.flatMap (escapeByte mode), ¬ (c < ' ' ∨ c = '\x7f') := by
  intro c hc hctl
  rcases mem_escape_cases mode hq l c hc with ⟨-, h⟩ | h | ⟨n, hn, h⟩
  · rw [shouldEscape_ctl c mode hctl] at h
    exact absurd h (by decide)
  · subst h
    revert hctl
    decide
  · subst h
    exact upperhex_not_ctl n hn hctl

/-- The bytes of a valid encoding: those of the exempted list, `%`, and bytes
the mode leaves alone. -/
theorem validEncoding_mem (s : GoString) (mode : encoding) (h : validEncoding s mode = true)
    (c : Char) (hc : c ∈ s.data) :
    c ∈ ['!', '$', '&', '\'', '(', ')', '*', '+', ',', ';', '=', ':', '@', '[', ']', '%'] ∨
      shouldEscape c mode = false := by
  simp only [validEncoding, List.all_eq_true] at h
  have := h c hc
  split at this
  · rename_i hm
    exact Or.inl hm
  · right
    simpa using this

/-- A byte that a mode escapes, outside the exempted list, occurs in no valid
encoding of that mode. -/
theorem not_mem_of_validEncoding (s : GoString) (mode : encoding)
    (h : validEncoding s mode = true) (x : Char) (hx : shouldEscape x mode = true)
    (hl : x ∉ ['!', '$', '&', '\'', '(', ')', '*', '+', ',', ';', '=', ':', '@', '[', ']', '%']) :
    x ∉ s.data := by
  intro hc
  rcases validEncoding_mem s mode h x hc with a | a
  · exact hl a
  · rw [hx] at a
    exact absurd a (by decide)

theorem ctl_not_in_list (c : Char) (h : c < ' ' ∨ c = '\x7f') :
    c ∉ ['!', '$', '&', '\'', '(', ')', '*', '+', ',', ';', '=', ':', '@', '[', ']', '%'] := by
  rcases h with h | rfl
  · have h32 : c.toNat < 32 := h
    intro hm
    simp only [List.mem_cons, List.mem_singleton, List.not_mem_nil, or_false] at hm
    rcases hm with rfl | rfl | rfl | rfl | rfl | rfl | rfl | rfl | rfl | rfl | rfl | rfl | rfl |
      rfl | rfl | rfl <;> exact absurd h32 (by decide)
  · decide

theorem upperhex_ne_hash : ∀ n < 16, upperhex n ≠ '#' := by decide

theorem upperhex_ne_slash : ∀ n < 16, upperhex n ≠ '/' := by decide

theorem upperhex_ne_at : ∀ n < 16, upperhex n ≠ '@' := by decide

theorem upperhex_ne_colon : ∀ n < 16, upperhex n ≠ ':' := by decide

theorem upperhex_ne_quest : ∀ n < 16, upperhex n ≠ '?' := by decide

/-- Text escaped for a host, for user information or for a path holds no `?`,
no `#` and no control byte. -/
theorem escape_clean (mode : encoding)
    (hm : mode = encoding.encodeHost ∨ mode = encoding.encodeUserPassword ∨
      mode = encoding.encodePath) (l : List Char) :
    ∀ c ∈ l.flatMap (escapeByte mode), c ≠ '?' ∧ c ≠ '#' ∧ ¬ (c < ' ' ∨ c = '\x7f') := by
  have hq : mode ≠ encoding.encodeQueryComponent := by
    rcases hm with rfl | rfl | rfl <;> decide
  have h₁ : shouldEscape '?' mode = true := by
    rcases hm with rfl | rfl | rfl <;> decide
  have h₂ : shouldEscape '#' mode = true := by
    rcases hm with rfl | rfl | rfl <;> decide
  intro c hc
  refine ⟨?_, ?_, ctl_not_mem_escape mode hq l c hc⟩
  · rintro rfl
    exact not_mem_escape_of mode hq '?' h₁ upperhex_ne_quest (by decide) l hc
  · rintro rfl
    exact not_mem_escape_of mode hq '#' h₂ upperhex_ne_hash (by decide) l hc

theorem escape_ne_nil (mode : encoding) (l : List Char) (h : l ≠ []) :
    l.flatMap (escapeByte mode) ≠ [] := by
  cases l with
  | nil => exact absurd rfl h
  | cons c cs =>
    simp only [List.flatMap_cons]
    unfold escapeByte
    split
    · simp
    · split <;> simp

/-! ## The escaped path and the escaped fragment, parsed again -/

theorem rooted_ne_star (p : GoString) (h : p.data = [] ∨ p.data.head? = some '/') : p ≠ "*" := by
  rintro rfl
  revert h
  decide

/-- The escaped path of a URL whose path and `RawPath` are empty or rooted:
it is empty or rooted, holds no `?`, `#` or control byte, and unescapes to
the path. -/
theorem EscapedPath_facts (v : URL) (hP : v.Path.data = [] ∨ v.Path.data.head? = some '/')
    (hR : v.RawPath.data = [] ∨ v.RawPath.data.head? = some '/') (hb : isBytes v.Path) :
    (v.EscapedPath.data = [] ∨ v.EscapedPath.data.head? = some '/') ∧
    (∀ c ∈ v.EscapedPath.data, c ≠ '?' ∧ c ≠ '#' ∧ ¬ (c < ' ' ∨ c = '\x7f')) ∧
    unescapeBytes encoding.encodePath v.EscapedPath.data = some v.Path.data ∧
    (v.EscapedPath ≠ escape v.Path encoding.encodePath →
      validEncoding v.EscapedPath encoding.encodePath = true) := by
  have hstar := rooted_ne_star v.Path hP
  unfold URL.EscapedPath
  by_cases hc : v.RawPath ≠ "" ∧ validEncoding v.RawPath encoding.encodePath = true ∧
      unescape v.RawPath encoding.encodePath = some v.Path
  · rw [if_pos hc]
    obtain ⟨h₁, h₂, h₃⟩ := hc
    refine ⟨hR, ?_, ?_, fun _ => h₂⟩
    · intro c hc
      refine ⟨?_, ?_, ?_⟩
      · rintro rfl
        exact not_mem_of_validEncoding _ _ h₂ '?' (by decide) (by decide) hc
      · rintro rfl
        exact not_mem_of_validEncoding _ _ h₂ '#' (by decide) (by decide) hc
      · intro hctl
        exact not_mem_of_validEncoding _ _ h₂ c (shouldEscape_ctl c _ hctl)
          (ctl_not_in_list c hctl) hc
    · simp only [unescape, Option.map_eq_some'] at h₃
      obtain ⟨t, ht, e⟩ := h₃
      rw [ht, ← e]
  · rw [if_neg hc, if_neg hstar]
    refine ⟨?_, escape_clean _ (Or.inr (Or.inr rfl)) _, unescapeBytes_escape _ (by decide) _ hb
      (fun h => absurd h (by decide)), fun h => absurd rfl h⟩
    rcases hP with h | h
    · left
      show v.Path.data.flatMap (escapeByte encoding.encodePath) = []
      rw [h]
      rfl
    · right
      cases hd : v.Path.data with
      | nil => simp [hd] at h
      | cons c cs =>
        rw [hd] at h
        simp only [List.head?_cons, Option.some.injEq] at h
        show (v.Path.data.flatMap (escapeByte encoding.encodePath)).head? = some '/'
        rw [hd, h]
        rfl

/-- A URL that holds the path of `v` and, as `setPath` stores it, the escaped
path of `v` as `RawPath` has the same escaped path. -/
theorem EscapedPath_reparse (v u₂ : URL) (hP : v.Path.data = [] ∨ v.Path.data.head? = some '/')
    (hR : v.RawPath.data = [] ∨ v.RawPath.data.head? = some '/') (hb : isBytes v.Path)
    (h₁ : u₂.Path = v.Path)
    (h₂ : u₂.RawPath = if v.EscapedPath = escape v.Path encoding.encodePath then ""
      else v.EscapedPath) :
    u₂.EscapedPath = v.EscapedPath := by
  obtain ⟨-, -, f₃, f₄⟩ := EscapedPath_facts v hP hR hb
  have hstar := rooted_ne_star v.Path hP
  by_cases he : v.EscapedPath = escape v.Path encoding.encodePath
  · rw [if_pos he] at h₂
    conv_lhs => unfold URL.EscapedPath
    rw [h₂, h₁, if_neg (fun h => h.1 rfl), if_neg hstar, he]
  · rw [if_neg he] at h₂
    have hne : v.EscapedPath ≠ "" := by
      intro e
      apply he
      rw [e] at f₃ ⊢
      have : v.Path.data = [] := by
        have h0 : unescapeBytes encoding.encodePath ("" : GoString).data = some [] :=
          unescapeBytes_nil _
        rw [h0] at f₃
        exact (Option.some.inj f₃).symm
      have hp : v.Path = "" := String.ext this
      rw [hp]
      rfl
    have hu : unescape v.EscapedPath encoding.encodePath = some v.Path := by
      simp only [unescape, f₃, Option.map_some']
    conv_lhs => unfold URL.EscapedPath
    rw [h₂, h₁, if_pos ⟨hne, f₄ he, hu⟩]

/-- The escaped fragment of a URL with a fragment: it is not empty, holds no
`#`, and unescapes to the fragment. -/
theorem EscapedFragment_facts (v : URL) (hF : v.Fragment ≠ "") (hb : isBytes v.Fragment) :
    v.EscapedFragment.data ≠ [] ∧ '#' ∉ v.EscapedFragment.data ∧
    unescapeBytes encoding.encodeFragment v.EscapedFragment.data = some v.Fragment.data ∧
    (v.EscapedFragment ≠ escape v.Fragment encoding.encodeFragment →
      validEncoding v.EscapedFragment encoding.encodeFragment = true) := by
  unfold URL.EscapedFragment
  by_cases hc : v.RawFragment ≠ "" ∧ validEncoding v.RawFragment encoding.encodeFragment = true ∧
      unescape v.RawFragment encoding.encodeFragment = some v.Fragment
  · rw [if_pos hc]
    obtain ⟨h₁, h₂, h₃⟩ := hc
    refine ⟨fun e => h₁ (String.ext e), ?_, ?_, fun _ => h₂⟩
    · exact not_mem_of_validEncoding _ _ h₂ '#' (by decide) (by decide)
    · simp only [unescape, Option.map_eq_some'] at h₃
      obtain ⟨t, ht, e⟩ := h₃
      rw [ht, ← e]
  · rw [if_neg hc]
    refine ⟨?_, ?_, unescapeBytes_escape _ (by decide) _ hb (fun h => absurd h (by decide)),
      fun h => absurd rfl h⟩
    · exact escape_ne_nil _ _ (fun e => hF (String.ext e))
    · exact not_mem_escape_of _ (by decide) '#' (by decide) upperhex_ne_hash (by decide) _

/-- A URL that holds the fragment of `v` and, as `setFragment` stores it, the
escaped fragment of `v` as `RawFragment` has the same escaped fragment. -/
theorem EscapedFragment_reparse (v u₂ : URL) (hF : v.Fragment ≠ "") (hb : isBytes v.Fragment)
    (h₁ : u₂.Fragment = v.Fragment)
    (h₂ : u₂.RawFragment = if v.EscapedFragment = escape v.Fragment encoding.encodeFragment
      then "" else v.EscapedFragment) :
    u₂.EscapedFragment = v.EscapedFragment := by
  obtain ⟨f₁, -, f₃, f₄⟩ := EscapedFragment_facts v hF hb
  by_cases he : v.EscapedFragment = escape v.Fragment encoding.encodeFragment
  · rw [if_pos he] at h₂
    conv_lhs => unfold URL.EscapedFragment
    rw [h₂, h₁, if_neg (fun h => h.1 rfl), he]
  · rw [if_neg he] at h₂
    have hne : v.EscapedFragment ≠ "" := fun e => f₁ (by rw [e])
    have hu : unescape v.EscapedFragment encoding.encodeFragment = some v.Fragment := by
      simp only [unescape, f₃, Option.map_some']
    conv_lhs => unfold URL.EscapedFragment
    rw [h₂, h₁, if_pos ⟨hne, f₄ he, hu⟩]

/-! ## Parsing an authority that `String` wrote -/

theorem upperhex_userinfo : ∀ n < 16,
    (decide (('a' ≤ upperhex n ∧ upperhex n ≤ 'z') ∨ ('A' ≤ upperhex n ∧ upperhex n ≤ 'Z') ∨
        ('0' ≤ upperhex n ∧ upperhex n ≤ '9')) ||
      decide (upperhex n ∈ ['-', '.', '_', ':', '~', '!', '$', '&', '\'', '(', ')', '*', '+', ',',
        ';', '=', '%', '@'])) = true := by
  decide

/-- A byte that is left alone in user information is one `validUserinfo` accepts. -/
theorem userinfo_byte (c : Char) (h : shouldEscape c encoding.encodeUserPassword = false) :
    (decide (('a' ≤ c ∧ c ≤ 'z') ∨ ('A' ≤ c ∧ c ≤ 'Z') ∨ ('0' ≤ c ∧ c ≤ '9')) ||
      decide (c ∈ ['-', '.', '_', ':', '~', '!', '$', '&', '\'', '(', ')', '*', '+', ',', ';', '=',
        '%', '@'])) = true := by
  by_cases h₁ : ('a' ≤ c ∧ c ≤ 'z') ∨ ('A' ≤ c ∧ c ≤ 'Z') ∨ ('0' ≤ c ∧ c ≤ '9')
  · simp [h₁]
  · unfold shouldEscape at h
    rw [if_neg h₁, if_neg (fun h => absurd h.1 (by decide))] at h
    by_cases h₂ : c ∈ ['-', '_', '.', '~']
    · simp only [List.mem_cons, List.mem_singleton, List.not_mem_nil, or_false] at h₂
      rcases h₂ with rfl | rfl | rfl | rfl <;> decide
    · rw [if_neg h₂] at h
      by_cases h₃ : c ∈ ['$', '&', '+', ',', '/', ':', ';', '=', '?', '@']
      · rw [if_pos h₃] at h
        simp only [List.mem_cons, List.mem_singleton, List.not_mem_nil, or_false] at h₃
        rcases h₃ with rfl | rfl | rfl | rfl | rfl | rfl | rfl | rfl | rfl | rfl <;>
          first
          | decide
          | exact absurd h (by decide)
      · rw [if_neg h₃, if_neg (fun h => absurd h.1 (by decide))] at h
        exact absurd h (by decide)

theorem validUserinfo_escape (l : List Char) :
    validUserinfo (l.flatMap (escapeByte encoding.encodeUserPassword)) = true := by
  simp only [validUserinfo, List.all_eq_true]
  intro c hc
  rcases mem_escape_cases _ (by decide) l c hc with ⟨-, h⟩ | rfl | ⟨n, hn, rfl⟩
  · exact userinfo_byte c h
  · decide
  · exact upperhex_userinfo n hn

theorem validUserinfo_append (a b : List Char) (ha : validUserinfo a = true)
    (hb : validUserinfo b = true) : validUserinfo (a ++ ':' :: b) = true := by
  simp only [validUserinfo, List.all_append, List.all_cons, Bool.and_eq_true] at ha hb ⊢
  exact ⟨ha, by decide, hb⟩

theorem colon_not_mem_escape_user (l : List Char) :
    ':' ∉ l.flatMap (escapeByte encoding.encodeUserPassword) :=
  not_mem_escape_of _ (by decide) ':' (by decide) upperhex_ne_colon (by decide) l

theorem at_not_mem_escape_host (l : List Char) :
    '@' ∉ l.flatMap (escapeByte encoding.encodeHost) :=
  not_mem_escape_of _ (by decide) '@' (by decide) upperhex_ne_at (by decide) l

theorem slash_not_mem_escape (mode : encoding)
    (hm : mode = encoding.encodeHost ∨ mode = encoding.encodeUserPassword) (l : List Char) :
    '/' ∉ l.flatMap (escapeByte mode) := by
  rcases hm with rfl | rfl
  · exact not_mem_escape_of _ (by decide) '/' (by decide) upperhex_ne_slash (by decide) l
  · exact not_mem_escape_of _ (by decide) '/' (by decide) upperhex_ne_slash (by decide) l

/-- The user information that `String` wrote is read back by `parseAuthority`. -/
theorem parse_userinfo (ui : Userinfo) (hb : isBytes ui.username ∧ isBytes ui.password)
    (host : List Char) :
    ∃ ui₂ : Userinfo, ui₂.render = ui.render ∧
      (if !validUserinfo ui.render.data then none
        else if ':' ∈ ui.render.data then
          (unescapeBytes encoding.encodeUserPassword (url.cut ':' ui.render.data).1).bind
            fun username =>
              (unescapeBytes encoding.encodeUserPassword (url.cut ':' ui.render.data).2).map
                fun password => ((some ⟨⟨username⟩, ⟨password⟩, true⟩ : Option Userinfo), host)
        else
          (unescapeBytes encoding.encodeUserPassword ui.render.data).map fun username =>
            ((some ⟨⟨username⟩, "", false⟩ : Option Userinfo), host)) = some (some ui₂, host) := by
  have hu := unescapeBytes_escape encoding.encodeUserPassword (by decide) ui.username.data hb.1
    (fun h => absurd h (by decide))
  have hw := unescapeBytes_escape encoding.encodeUserPassword (by decide) ui.password.data hb.2
    (fun h => absurd h (by decide))
  obtain ⟨username, password, set⟩ := ui
  cases set with
  | true =>
    have hr : (Userinfo.render ⟨username, password, true⟩).data =
        username.data.flatMap (escapeByte encoding.encodeUserPassword) ++
          ':' :: password.data.flatMap (escapeByte encoding.encodeUserPassword) := by
      simp [Userinfo.render, escape, String.data_append]
    refine ⟨⟨username, password, true⟩, rfl, ?_⟩
    rw [hr, validUserinfo_append _ _ (validUserinfo_escape _) (validUserinfo_escape _)]
    simp only [Bool.not_true, Bool.false_eq_true, if_false, List.mem_append, List.mem_cons,
      true_or, or_true, if_true, cut_append ':' _ _ (colon_not_mem_escape_user _)]
    simp only at hu hw
    rw [hu, hw]
    rfl
  | false =>
    have hr : (Userinfo.render ⟨username, password, false⟩).data =
        username.data.flatMap (escapeByte encoding.encodeUserPassword) := by
      simp [Userinfo.render, escape]
    refine ⟨⟨username, "", false⟩, rfl, ?_⟩
    rw [hr, validUserinfo_escape]
    simp only [Bool.not_true, Bool.false_eq_true, if_false, colon_not_mem_escape_user, if_false]
    simp only at hu
    rw [hu]
    rfl

/-- The authority that `String` wrote for a URL with a parsable host is read
back by `parseAuthority`: the same host, and user information that renders
the same. -/
theorem parseAuthority_authority (v : URL)
    (hH : parseHost (v.Host.data.flatMap (escapeByte encoding.encodeHost)) = some v.Host.data)
    (hU : ∀ ui, v.User = some ui → isBytes ui.username ∧ isBytes ui.password) :
    ∃ user₂ : Option Userinfo,
      parseAuthority v.authority.data = some (user₂, v.Host.data) ∧
      ∀ w : URL, w.User = user₂ → w.Host = v.Host → w.authority = v.authority := by
  cases hu : v.User with
  | none =>
    refine ⟨none, ?_, ?_⟩
    · have hA : v.authority.data = v.Host.data.flatMap (escapeByte encoding.encodeHost) := by
        simp [URL.authority, hu, escape]
      rw [hA]
      unfold parseAuthority
      rw [cutLast_of_not_mem '@' _ (at_not_mem_escape_host _), hH]
      rfl
    · intro w hw hh
      simp only [URL.authority, hw, hh, hu]
  | some ui =>
    obtain ⟨ui₂, hr, hparse⟩ := parse_userinfo ui (hU ui hu) v.Host.data
    refine ⟨some ui₂, ?_, ?_⟩
    · have hA : v.authority.data = ui.render.data ++
          '@' :: v.Host.data.flatMap (escapeByte encoding.encodeHost) := by
        simp [URL.authority, hu, escape, String.data_append]
      rw [hA]
      unfold parseAuthority
      rw [cutLast_append '@' _ _ (at_not_mem_escape_host _)]
      simp only [hH, Option.some_bind]
      exact hparse
    · intro w hw hh
      simp only [URL.authority, hw, hh, hu, hr]

/-! ## Parsing a display again -/

/-- Where `url.parse` splits a query off text that holds at most a lone
trailing `?`. -/
theorem splitQuery_trailing (R : List Char) (hR : '?' ∉ R) (fq : Bool) :
    splitQuery (R ++ (if fq = true then ['?'] else [])) = (fq, R, []) := by
  cases fq with
  | false =>
    simp only [Bool.false_eq_true, if_false, List.append_nil]
    exact splitQuery_of_not_mem R hR
  | true =>
    simp only [if_true]
    have h₁ : ['?'].isSuffixOf (R ++ ['?']) = true := by
      rw [List.isSuffixOf_iff_suffix]
      exact List.suffix_append _ _
    have h₂ : (R ++ ['?']).count '?' = 1 := by
      rw [List.count_append, List.count_eq_zero_of_not_mem hR]
      rfl
    have h₃ : (R ++ ['?']).take ((R ++ ['?']).length - 1) = R := by
      simp
    simp only [splitQuery, h₁, h₂, and_self, if_true, h₃]

/-- `url.parse` on `https://`, an authority, a path and perhaps a lone `?`. -/
theorem parseNoFragment_pieces (A P : List Char) (fq : Bool) (user₂ : Option Userinfo)
    (host path : List Char)
    (hA : ∀ c ∈ A, c ≠ '/' ∧ c ≠ '?' ∧ ¬ (c < ' ' ∨ c = '\x7f'))
    (hPr : P = [] ∨ P.head? = some '/')
    (hPc : ∀ c ∈ P, c ≠ '?' ∧ ¬ (c < ' ' ∨ c = '\x7f'))
    (hauth : parseAuthority A = some (user₂, host))
    (hpath : unescapeBytes encoding.encodePath P = some path) :
    parseNoFragment ('h' :: 't' :: 't' :: 'p' :: 's' :: ':' :: '/' :: '/' ::
        ((A ++ P) ++ (if fq = true then ['?'] else []))) =
      some { Scheme := "https", ForceQuery := fq, RawQuery := "", User := user₂, Host := ⟨host⟩,
             Path := ⟨path⟩,
             RawPath := if (⟨P⟩ : GoString) = escape ⟨path⟩ encoding.encodePath then ""
               else ⟨P⟩ } := by
  have hquery : '?' ∉ '/' :: '/' :: (A ++ P) := by
    simp only [List.mem_cons, List.mem_append, not_or]
    refine ⟨by decide, by decide, ?_, ?_⟩
    · exact fun m => (hA _ m).2.1 rfl
    · exact fun m => (hPc _ m).1 rfl
  have hctl : stringContainsCTLByte ('h' :: 't' :: 't' :: 'p' :: 's' :: ':' :: '/' :: '/' ::
      ((A ++ P) ++ (if fq = true then ['?'] else []))) = false := by
    simp only [stringContainsCTLByte, List.any_cons, List.any_append, Bool.or_eq_false_iff,
      List.any_eq_false, decide_eq_false_iff_not, beq_eq_false_iff_ne, ne_eq,
      decide_eq_true_eq, beq_iff_eq, not_or]
    refine ⟨by decide, by decide, by decide, by decide, by decide, by decide, by decide,
      by decide, ⟨?_, ?_⟩, ?_⟩
    · intro c hc hor
      simp only [Bool.or_eq_true, decide_eq_true_eq, beq_iff_eq] at hor
      exact (hA c hc).2.2 hor
    · intro c hc hor
      simp only [Bool.or_eq_true, decide_eq_true_eq, beq_iff_eq] at hor
      exact (hPc c hc).2 hor
    · intro c hc hor
      simp only [Bool.or_eq_true, decide_eq_true_eq, beq_iff_eq] at hor
      cases fq with
      | false => simp at hc
      | true =>
        simp only [if_true, List.mem_singleton] at hc
        subst hc
        revert hor
        decide
  have hstar : ('h' :: 't' :: 't' :: 'p' :: 's' :: ':' :: '/' :: '/' ::
      ((A ++ P) ++ (if fq = true then ['?'] else []))) ≠ ['*'] := by
    simp
  have hsplit := split_authority A P (fun m => (hA _ m).1 rfl) hPr
  have hrest : '/' :: '/' :: ((A ++ P) ++ (if fq = true then ['?'] else [])) =
      ('/' :: '/' :: (A ++ P)) ++ (if fq = true then ['?'] else []) := rfl
  have hlow : (⟨toLowerASCII ['h', 't', 't', 'p', 's']⟩ : GoString) = "https" := by decide
  have hscheme : ("https" : GoString) ≠ "" := by decide
  simp only [parseNoFragment, hctl, getScheme_https, hstar, Bool.false_eq_true,
    if_false, Option.some_bind]
  rw [hrest, splitQuery_trailing _ hquery fq, hlow]
  simp only [parseHier, List.head?_cons, ne_eq, not_true_eq_false, false_and, if_false,
    hscheme, not_false_eq_true, true_or, true_and, List.isPrefixOf, beq_self_eq_true,
    Bool.true_and, if_true, List.drop_succ_cons, List.drop_zero, hsplit.1, hsplit.2, hauth,
    Option.some_bind, URL.setPath, hpath, Option.map_some']

theorem render_clean (ui : Userinfo) :
    ∀ c ∈ ui.render.data, c ≠ '/' ∧ c ≠ '?' ∧ c ≠ '#' ∧ ¬ (c < ' ' ∨ c = '\x7f') := by
  have hu : ∀ (l : List Char), ∀ c ∈ l.flatMap (escapeByte encoding.encodeUserPassword),
      c ≠ '/' ∧ c ≠ '?' ∧ c ≠ '#' ∧ ¬ (c < ' ' ∨ c = '\x7f') := by
    intro l c hc
    have := escape_clean _ (Or.inr (Or.inl rfl)) l c hc
    refine ⟨?_, this.1, this.2.1, this.2.2⟩
    rintro rfl
    exact slash_not_mem_escape _ (Or.inr rfl) l hc
  intro c hc
  unfold Userinfo.render at hc
  simp only at hc
  split at hc
  · simp only [String.data_append, List.mem_append] at hc
    rcases hc with (hc | hc) | hc
    · exact hu _ c hc
    · have : c = ':' := by simpa using hc
      subst this
      decide
    · exact hu _ c hc
  · exact hu _ c hc

/-- The authority that `String` writes holds no `/`, `?`, `#` or control byte. -/
theorem authority_clean (v : URL) :
    ∀ c ∈ v.authority.data, c ≠ '/' ∧ c ≠ '?' ∧ c ≠ '#' ∧ ¬ (c < ' ' ∨ c = '\x7f') := by
  have hE : ∀ c ∈ (escape v.Host encoding.encodeHost).data,
      c ≠ '/' ∧ c ≠ '?' ∧ c ≠ '#' ∧ ¬ (c < ' ' ∨ c = '\x7f') := by
    intro c hc
    have := escape_clean _ (Or.inl rfl) v.Host.data c hc
    refine ⟨?_, this.1, this.2.1, this.2.2⟩
    rintro rfl
    exact slash_not_mem_escape _ (Or.inl rfl) _ hc
  intro c hc
  unfold URL.authority at hc
  rw [String.data_append, List.mem_append] at hc
  rcases hc with hc | hc
  · cases hu : v.User with
    | none =>
      rw [hu] at hc
      exact absurd hc (List.not_mem_nil _)
    | some ui =>
      rw [hu] at hc
      simp only [String.data_append, List.mem_append] at hc
      rcases hc with hc | hc
      · exact render_clean ui c hc
      · have : c = '@' := by simpa using hc
        subst this
        decide
  · exact hE c hc

theorem authority_ne_nil (v : URL) (hh : v.Host ≠ "") : v.authority.data ≠ [] := by
  unfold URL.authority
  rw [String.data_append]
  intro e
  have := (List.append_eq_nil.mp e).2
  exact escape_ne_nil encoding.encodeHost v.Host.data (fun h => hh (String.ext h)) this

theorem trailer_congr (v w : URL) (h₁ : w.ForceQuery = v.ForceQuery)
    (h₂ : w.Fragment = v.Fragment)
    (h₃ : v.Fragment ≠ "" → w.EscapedFragment = v.EscapedFragment) : w.trailer = v.trailer := by
  unfold URL.trailer
  rw [h₁, h₂]
  by_cases hF : v.Fragment = ""
  · simp only [hF, ne_eq, not_true_eq_false, if_false]
  · rw [if_pos hF, if_pos hF, h₃ hF]

/-- The display of generic cleanup parses again: `https://` followed by the
authority, the escaped path and the trailer of a URL with a parsable host
gives a URL with the same host and path that renders the same pieces. -/
theorem Parse_display (v : URL)
    (hH : parseHost (v.Host.data.flatMap (escapeByte encoding.encodeHost)) = some v.Host.data)
    (hU : ∀ ui, v.User = some ui → isBytes ui.username ∧ isBytes ui.password)
    (hP : v.Path.data = [] ∨ v.Path.data.head? = some '/')
    (hR : v.RawPath.data = [] ∨ v.RawPath.data.head? = some '/')
    (hbP : isBytes v.Path) (hbF : isBytes v.Fragment) :
    ∃ u₂, Parse ("https://" ++ (v.authority ++ (v.EscapedPath ++ v.trailer))) = some u₂ ∧
      u₂.Scheme = "https" ∧ u₂.Opaque = "" ∧ u₂.Host = v.Host ∧ u₂.Path = v.Path ∧
      u₂.RawQuery = "" ∧ u₂.authority = v.authority ∧ u₂.EscapedPath = v.EscapedPath ∧
      u₂.trailer = v.trailer := by
  obtain ⟨user₂, hauth, hA₂⟩ := parseAuthority_authority v hH hU
  obtain ⟨p₁, p₂, p₃, -⟩ := EscapedPath_facts v hP hR hbP
  have hAc := authority_clean v
  have hpn := parseNoFragment_pieces v.authority.data v.EscapedPath.data v.ForceQuery user₂
    v.Host.data v.Path.data (fun c hc => ⟨(hAc c hc).1, (hAc c hc).2.1, (hAc c hc).2.2.2⟩) p₁
    (fun c hc => ⟨(p₂ c hc).1, (p₂ c hc).2.2⟩) hauth p₃
  have hhash : '#' ∉ 'h' :: 't' :: 't' :: 'p' :: 's' :: ':' :: '/' :: '/' ::
      ((v.authority.data ++ v.EscapedPath.data) ++ (if v.ForceQuery = true then ['?'] else [])) := by
    simp only [List.mem_cons, List.mem_append, not_or]
    refine ⟨by decide, by decide, by decide, by decide, by decide, by decide, by decide,
      by decide, ⟨?_, ?_⟩, ?_⟩
    · exact fun m => (hAc _ m).2.2.1 rfl
    · exact fun m => (p₂ _ m).2.1 rfl
    · split
      · decide
      · exact List.not_mem_nil _
  by_cases hF : v.Fragment = ""
  · have hraw : ("https://" ++ (v.authority ++ (v.EscapedPath ++ v.trailer))).data =
        'h' :: 't' :: 't' :: 'p' :: 's' :: ':' :: '/' :: '/' ::
          ((v.authority.data ++ v.EscapedPath.data) ++
            (if v.ForceQuery = true then ['?'] else [])) := by
      simp only [URL.trailer, hF, ne_eq, not_true_eq_false, if_false, String.append_empty,
        String.data_append]
      cases v.ForceQuery <;> simp
    refine ⟨{ Scheme := "https", ForceQuery := v.ForceQuery, RawQuery := "", User := user₂,
              Host := ⟨v.Host.data⟩, Path := ⟨v.Path.data⟩,
              RawPath := if (⟨v.EscapedPath.data⟩ : GoString) =
                  escape ⟨v.Path.data⟩ encoding.encodePath then "" else ⟨v.EscapedPath.data⟩ },
      ?_, ?_, ?_, ?_, ?_, ?_, ?_, ?_, ?_⟩
    · unfold Parse
      rw [hraw, cut_of_not_mem _ _ hhash, hpn]
      rfl
    · rfl
    · rfl
    · rfl
    · rfl
    · rfl
    · exact hA₂ _ rfl rfl
    · exact EscapedPath_reparse v _ hP hR hbP rfl rfl
    · exact trailer_congr v _ rfl hF.symm (fun h => absurd hF h)
  · obtain ⟨f₁, f₂, f₃, -⟩ := EscapedFragment_facts v hF hbF
    have hraw : ("https://" ++ (v.authority ++ (v.EscapedPath ++ v.trailer))).data =
        ('h' :: 't' :: 't' :: 'p' :: 's' :: ':' :: '/' :: '/' ::
          ((v.authority.data ++ v.EscapedPath.data) ++
            (if v.ForceQuery = true then ['?'] else []))) ++ '#' :: v.EscapedFragment.data := by
      simp only [URL.trailer, hF, ne_eq, not_false_eq_true, if_true, String.data_append]
      cases v.ForceQuery <;> simp
    refine ⟨{ Scheme := "https", ForceQuery := v.ForceQuery, RawQuery := "", User := user₂,
              Host := ⟨v.Host.data⟩, Path := ⟨v.Path.data⟩,
              RawPath := if (⟨v.EscapedPath.data⟩ : GoString) =
                  escape ⟨v.Path.data⟩ encoding.encodePath then "" else ⟨v.EscapedPath.data⟩,
              Fragment := ⟨v.Fragment.data⟩,
              RawFragment := if (⟨v.EscapedFragment.data⟩ : GoString) =
                  escape ⟨v.Fragment.data⟩ encoding.encodeFragment then ""
                else ⟨v.EscapedFragment.data⟩ },
      ?_, ?_, ?_, ?_, ?_, ?_, ?_, ?_, ?_⟩
    · unfold Parse
      rw [hraw, cut_append '#' _ _ hhash, hpn, Option.some_bind, if_neg f₁]
      unfold URL.setFragment
      rw [f₃]
      rfl
    · rfl
    · rfl
    · rfl
    · rfl
    · rfl
    · exact hA₂ _ rfl rfl
    · exact EscapedPath_reparse v _ hP hR hbP rfl rfl
    · exact trailer_congr v _ rfl rfl (fun _ => EscapedFragment_reparse v _ hF hbF rfl rfl)

/-! ## Classifying a display again, for any parsed referrer (claim C5) -/

/-- Generic cleanup on a URL with an empty scheme, no opaque part, a
non-empty host and an escaped path that is empty or rooted, when a query shows
in the raw string: the display is the authority, the escaped path and the
trailer. -/
theorem cleanQuery_display (r : GoString) (v : URL) (hs : v.Scheme = "") (ho : v.Opaque = "")
    (hh : v.Host ≠ "")
    (hP : v.EscapedPath.data = [] ∨ v.EscapedPath.data.head? = some '/')
    (hq : v.RawQuery ≠ "" → Index r "?" ≠ -1) :
    (cleanQuery r v).map Prod.fst =
      some (v.authority ++ (v.EscapedPath ++ v.trailer), false) := by
  have hA := authority_ne_nil v hh
  have hAc := authority_clean v
  unfold cleanQuery
  simp only
  split
  · rename_i hi
    have hq' : v.RawQuery = "" := by
      by_contra c
      exact hq c hi
    rw [String_pieces v hs ho hh hq' hP]
    cases hd : v.authority.data with
    | nil => exact absurd hd hA
    | cons c t =>
      have hc : c ≠ '/' := (hAc c (by rw [hd]; exact List.mem_cons_self _ _)).1
      rw [TrimLeft_slashes _ c (t ++ (v.EscapedPath ++ v.trailer).data)
        (by rw [String.data_append, hd]; rfl) hc]
      rfl
  · rw [String_pieces { v with RawQuery := "" } hs ho hh rfl hP, if_pos (len_render _),
      sliceFrom_render]
    rfl

theorem hostAliasTable_parse :
    ∀ kv ∈ hostAliasTable,
      parseHost (kv.2.data.flatMap (escapeByte encoding.encodeHost)) = some kv.2.data := by
  decide

/-- The alias-resolved host of a parsable host is parsable. -/
theorem parseHost_aliasHost (h : GoString)
    (hH : parseHost (h.data.flatMap (escapeByte encoding.encodeHost)) = some h.data) :
    parseHost ((aliasHost h).data.flatMap (escapeByte encoding.encodeHost)) =
      some (aliasHost h).data := by
  unfold aliasHost
  cases ha : hostAlias h with
  | none => exact hH
  | some a => exact hostAliasTable_parse _ (mapLookup_mem ha)

theorem aliasHost_ne_empty (h : GoString) (hne : h ≠ "") : aliasHost h ≠ "" := by
  rcases aliasHost_cases h with e | ⟨-, e, -⟩
  · rw [e]
    exact hne
  · exact e.1

theorem prefix_rooted (p q : List Char) (h : p <+: q) (hq : q = [] ∨ q.head? = some '/') :
    p = [] ∨ p.head? = some '/' := by
  obtain ⟨t, rfl⟩ := h
  cases p with
  | nil => exact Or.inl rfl
  | cons c cs =>
    right
    rcases hq with hq | hq
    · simp at hq
    · simpa using hq

/-- The rules of `cleanRefURL` on a normalized URL `w` that renders as the
URL `v` of generic cleanup: they reach generic cleanup again and give the
display of `v`. -/
theorem hostRules_again (v w : URL) (d : GoString) (hh : v.Host ≠ "")
    (hg : genericHost v.Host ∨
      ((v.Host = "lobste.rs" ∨ v.Host = "gambe.ro") ∧ HasPrefix v.Path "/s/" = true) ∨
      (v.Host = "www.reddit.com" ∧ redditPath v.Path = some v.Path) ∨
      (v.Host = "t.co" ∧ ¬ len v.Path > 1))
    (hP : v.EscapedPath.data = [] ∨ v.EscapedPath.data.head? = some '/')
    (hd : d = v.authority ++ (v.EscapedPath ++ v.trailer))
    (e₁ : w.Scheme = "") (e₂ : w.Opaque = "") (e₃ : w.Host = v.Host)
    (e₄ : w.Path = v.Path) (e₅ : w.RawQuery = "") (e₆ : w.authority = v.authority)
    (e₇ : w.EscapedPath = v.EscapedPath) (e₈ : w.trailer = v.trailer) :
    (hostRules ("://" ++ d) w).map Prod.fst = some (d, false) := by
  have hnr : noHostRule ("://" ++ d) w := by
    unfold noHostRule
    rw [e₃, e₄]
    rcases hg with g | ⟨g₀, g₁⟩ | ⟨g, -⟩ | ⟨g, -⟩
    · obtain ⟨g₁, g₂, g₃, g₄, g₅⟩ := g
      simp only [List.mem_cons, List.mem_singleton, List.not_mem_nil, or_false, not_or] at g₅
      exact ⟨g₁, g₂, g₃, g₄, groups_colon d, fun h => g₅.1 h.1, fun h => g₅.2.1 h.1, g₅.2.2.1,
        g₅.2.2.2.1⟩
    · have hne : ∀ b : Bool, b = true → b = false → False := by
        intro b h₁ h₂
        rw [h₁] at h₂
        exact absurd h₂ (by decide)
      rcases g₀ with g | g <;> rw [g] <;>
        exact ⟨by decide, by decide, by decide, by decide, groups_colon d,
          fun h => hne _ g₁ h.2, fun h => hne _ g₁ h.2, by decide, by decide⟩
    · rw [g]
      exact ⟨by decide, by decide, by decide, by decide, groups_colon d,
        fun h => absurd h.1 (by decide), fun h => absurd h.1 (by decide), by decide, by decide⟩
    · rw [g]
      exact ⟨by decide, by decide, by decide, by decide, groups_colon d,
        fun h => absurd h.1 (by decide), fun h => absurd h.1 (by decide), by decide, by decide⟩
  have hcq : (cleanQuery ("://" ++ d) w).map Prod.fst = some (d, false) := by
    rw [cleanQuery_display ("://" ++ d) w e₁ e₂ (by rw [e₃]; exact hh) (by rw [e₇]; exact hP)
      (fun h => absurd e₅ h), hd, e₆, e₇, e₈]
  have hpr : (pathRules ("://" ++ d) w).map Prod.fst = some (d, false) := by
    by_cases hred : v.Host = "www.reddit.com"
    · have hrp : redditPath v.Path = some v.Path := by
        rcases hg with g | ⟨g₀, -⟩ | ⟨-, g⟩ | ⟨g, -⟩
        · have := g.2.2.2.2
          rw [hred] at this
          exact absurd this (by decide)
        · rcases g₀ with g | g <;> rw [hred] at g <;> exact absurd g (by decide)
        · exact g
        · rw [hred] at g
          exact absurd g (by decide)
      rw [pathRules_reddit _ _ (by rw [e₃]; exact hred), e₄, hrp, Option.some_bind]
      have : ({ w with Path := v.Path } : URL) = w := by
        rw [← e₄]
      rw [this]
      exact hcq
    · have htco : ¬ (v.Host = "t.co" ∧ len v.Path > 1) := by
        rintro ⟨a, b⟩
        rcases hg with g | ⟨g₀, -⟩ | ⟨g, -⟩ | ⟨-, g⟩
        · have := g.2.2.2.2
          rw [a] at this
          exact absurd this (by decide)
        · rcases g₀ with g | g <;> rw [a] at g <;> exact absurd g (by decide)
        · exact hred g
        · exact g b
      rw [pathRules_generic _ _ (by rw [e₃]; exact hred) (by rw [e₃, e₄]; exact htco)]
      exact hcq
  rw [hostRules_of_noHostRule _ _ hnr]
  exact hpr

/-- The second classification: the display of generic cleanup on `v`, parsed
to `u₂`, is classified to itself. -/
theorem cleanRefURL_again (v u₂ : URL) (d : GoString) (hh : v.Host ≠ "")
    (ha : aliasHost v.Host = v.Host) (ho : v.Host ≠ "link.oreilly.com")
    (hg : genericHost v.Host ∨
      ((v.Host = "lobste.rs" ∨ v.Host = "gambe.ro") ∧ HasPrefix v.Path "/s/" = true) ∨
      (v.Host = "www.reddit.com" ∧ redditPath v.Path = some v.Path) ∨
      (v.Host = "t.co" ∧ ¬ len v.Path > 1))
    (hP : v.EscapedPath.data = [] ∨ v.EscapedPath.data.head? = some '/')
    (hd : d = v.authority ++ (v.EscapedPath ++ v.trailer))
    (e₁ : u₂.Scheme = "https") (e₂ : u₂.Opaque = "") (e₃ : u₂.Host = v.Host)
    (e₄ : u₂.Path = v.Path) (e₅ : u₂.RawQuery = "") (e₆ : u₂.authority = v.authority)
    (e₇ : u₂.EscapedPath = v.EscapedPath) (e₈ : u₂.trailer = v.trailer) :
    cleanRefURL ("https://" ++ d) u₂ = some (d, false) := by
  have hn : normalizeURL u₂ = { u₂ with Scheme := "" } := by
    rw [normalizeURL_eq, e₃, ha, ← e₃]
  rw [cleanRefURL_eq _ _ (by rw [e₃]; exact ho), e₁, TrimPrefix_https, hn]
  exact hostRules_again v { u₂ with Scheme := "" } d hh hg hP hd rfl e₂ e₃ e₄ e₅ e₆ e₇ e₈

/-- What the first classification did when it returned a display that is no
group label: it returned a fixed display, or it reached generic cleanup on
the normalized URL with a path `p`, the path of the URL or, on reddit, that
path less one listing suffix. -/
theorem first_pass (raw : GoString) (u : URL) (d : GoString)
    (h₀ : u.Host ≠ "link.oreilly.com") (ht : ¬ (u.Host = "t.co" ∧ len u.Path > 1))
    (hred : aliasHost u.Host = "www.reddit.com" →
      (redditPath u.Path).bind redditPath = redditPath u.Path)
    (hres : cleanRefURL raw u = some (d, false)) :
    d = "lobste.rs" ∨ d = "getpocket.com" ∨
      ∃ p : GoString, p.data <+: u.Path.data ∧
        (genericHost (aliasHost u.Host) ∨
          ((aliasHost u.Host = "lobste.rs" ∨ aliasHost u.Host = "gambe.ro") ∧
            HasPrefix p "/s/" = true) ∨
          (aliasHost u.Host = "www.reddit.com" ∧ redditPath p = some p) ∨
          (aliasHost u.Host = "t.co" ∧ ¬ len p > 1)) ∧
        (cleanQuery (TrimPrefix raw u.Scheme)
          { u with Scheme := "", Host := aliasHost u.Host, Path := p }).map Prod.fst =
            some (d, false) := by
  rw [cleanRefURL_eq _ _ h₀, normalizeURL_eq] at hres
  have early : ∀ (x : GoString) (w : URL),
      (some ((x, true), w) : Option ((GoString × Bool) × URL)).map Prod.fst = some (d, false) →
      False := by
    intro x w h
    simp at h
  have fixed : ∀ (x : GoString) (w : URL),
      (some ((x, false), w) : Option ((GoString × Bool) × URL)).map Prod.fst = some (d, false) →
      d = x := by
    intro x w h
    simp only [Option.map_some', Option.some.injEq, Prod.mk.injEq, and_true] at h
    exact h.symm
  unfold hostRules at hres
  simp only at hres
  split at hres
  · exact absurd (early _ _ hres) id
  rename_i c₁
  split at hres
  · exact absurd (early _ _ hres) id
  rename_i c₂
  split at hres
  · exact absurd (early _ _ hres) id
  rename_i c₃
  split at hres
  · exact absurd (early _ _ hres) id
  split at hres
  · exact Or.inl (fixed _ _ hres)
  rename_i c₅
  split at hres
  · exact Or.inl (fixed _ _ hres)
  rename_i c₆
  split at hres
  · exact Or.inr (Or.inl (fixed _ _ hres))
  rename_i c₇
  right; right
  have g₁ : HasPrefix (aliasHost u.Host) "www.google." = false := by
    cases h : HasPrefix (aliasHost u.Host) "www.google." with
    | false => rfl
    | true => exact absurd (by rw [h]; rfl) c₁
  have g₂ : HasPrefix (aliasHost u.Host) "google." = false := by
    cases h : HasPrefix (aliasHost u.Host) "google." with
    | false => rfl
    | true => exact absurd (by rw [h, Bool.or_true]) c₁
  have g₃ : Contains (aliasHost u.Host) "search.yahoo.com" = false := by
    simpa using c₂
  have g₇ : aliasHost u.Host ≠ "getpocket.com" ∧ aliasHost u.Host ≠ "app.getpocket.com" := by
    constructor <;> intro h <;> exact c₇ (by simp [h])
  by_cases hr : aliasHost u.Host = "www.reddit.com"
  · rw [pathRules_reddit _ _ hr] at hres
    cases hp : redditPath u.Path with
    | none =>
      rw [show ({ u with Scheme := "", Host := aliasHost u.Host } : URL).Path = u.Path from rfl,
        hp] at hres
      simp at hres
    | some p =>
      rw [show ({ u with Scheme := "", Host := aliasHost u.Host } : URL).Path = u.Path from rfl,
        hp, Option.some_bind] at hres
      have h₂ := hred hr
      rw [hp, Option.some_bind] at h₂
      exact ⟨p, redditPath_isPrefix hp, Or.inr (Or.inr (Or.inl ⟨hr, h₂⟩)), hres⟩
  · have htco : ¬ (aliasHost u.Host = "t.co" ∧ len u.Path > 1) := by
      rintro ⟨a, b⟩
      exact ht ⟨aliasHost_eq_tco _ a, b⟩
    rw [pathRules_generic _ _ hr htco] at hres
    refine ⟨u.Path, List.prefix_refl _, ?_, hres⟩
    by_cases hl : aliasHost u.Host = "lobste.rs" ∨ aliasHost u.Host = "gambe.ro"
    · right; left
      refine ⟨hl, ?_⟩
      by_contra hs
      rcases hl with h | h
      · exact c₅ (by
          show (decide (aliasHost u.Host = "lobste.rs") && !HasPrefix u.Path "/s/") = true
          simp [h, hs])
      · exact c₆ (by
          show (decide (aliasHost u.Host = "gambe.ro") && !HasPrefix u.Path "/s/") = true
          simp [h, hs])
    · by_cases hc : aliasHost u.Host = "t.co"
      · right; right; right
        exact ⟨hc, fun b => htco ⟨hc, b⟩⟩
      · left
        refine ⟨g₁, g₂, g₃, c₃, ?_⟩
        simp only [List.mem_cons, List.mem_singleton, List.not_mem_nil, or_false, not_or]
        exact ⟨fun h => hl (Or.inl h), fun h => hl (Or.inr h), g₇.1, g₇.2, hr, hc⟩

/-- Idempotence for a URL value with the properties of a parsed referrer. -/
theorem idempotent_of_facts (raw : GoString) (u : URL) (d : GoString) (hne : u.Host ≠ "")
    (ho : u.Opaque = "")
    (hH : parseHost (u.Host.data.flatMap (escapeByte encoding.encodeHost)) = some u.Host.data)
    (hP : u.Path.data = [] ∨ u.Path.data.head? = some '/')
    (hR : u.RawPath.data = [] ∨ u.RawPath.data.head? = some '/')
    (hbP : isBytes u.Path) (hbF : isBytes u.Fragment)
    (hU : ∀ ui, u.User = some ui → isBytes ui.username ∧ isBytes ui.password)
    (hq : rawAgrees raw u) (ht : ¬ (u.Host = "t.co" ∧ len u.Path > 1))
    (hred : aliasHost u.Host = "www.reddit.com" →
      (redditPath u.Path).bind redditPath = redditPath u.Path)
    (hres : cleanRefURL raw u = some (d, false)) :
    ∃ u', Parse ("https://" ++ d) = some u' ∧ cleanRefURL ("https://" ++ d) u' = some (d, false) := by
  by_cases h₀ : u.Host = "link.oreilly.com"
  · simp only [cleanRefURL, cleanRefURLState, h₀, if_true, Option.map_some',
      Option.some.injEq, Prod.mk.injEq, and_true] at hres
    subst hres
    exact ⟨{ Scheme := "https", Host := "link.oreilly.com" }, by decide, by decide⟩
  rcases first_pass raw u d h₀ ht hred hres with rfl | rfl | ⟨p, hpre, hg, hcq⟩
  · exact ⟨{ Scheme := "https", Host := "lobste.rs" }, by decide, by decide⟩
  · exact ⟨{ Scheme := "https", Host := "getpocket.com" }, by decide, by decide⟩
  · have hP' : p.data = [] ∨ p.data.head? = some '/' := prefix_rooted _ _ hpre hP
    have hbP' : isBytes p := fun c hc => hbP c (hpre.subset hc)
    have hh' : aliasHost u.Host ≠ "" := aliasHost_ne_empty _ hne
    obtain ⟨p₁, -, -, -⟩ := EscapedPath_facts
      { u with Scheme := "", Host := aliasHost u.Host, Path := p } hP' hR hbP'
    have hd := cleanQuery_display (TrimPrefix raw u.Scheme)
      { u with Scheme := "", Host := aliasHost u.Host, Path := p } rfl ho hh' p₁ hq
    rw [hcq] at hd
    simp only [Option.some.injEq, Prod.mk.injEq, and_true] at hd
    obtain ⟨u₂, hparse, e₁, e₂, e₃, e₄, e₅, e₆, e₇, e₈⟩ := Parse_display
      { u with Scheme := "", Host := aliasHost u.Host, Path := p }
      (parseHost_aliasHost _ hH) hU hP' hR hbP' hbF
    rw [← hd] at hparse
    exact ⟨u₂, hparse, cleanRefURL_again
      { u with Scheme := "", Host := aliasHost u.Host, Path := p } u₂ d hh'
      (aliasHost_idem _) (aliasHost_ne_oreilly h₀) hg p₁ hd e₁ e₂ e₃ e₄ e₅ e₆ e₇ e₈⟩

/-- The fields that `url.parse` fills before it looks at authority and path
stay as they are; the opaque part, if any, is the text without the query. -/
theorem parseHier_query (ub : URL) (r : List Char) (u₀ : URL) (h : parseHier ub r = some u₀) :
    u₀.Scheme = ub.Scheme ∧ u₀.ForceQuery = ub.ForceQuery ∧ u₀.RawQuery = ub.RawQuery ∧
      (u₀.Opaque = ub.Opaque ∨ u₀.Opaque = ⟨r⟩) := by
  have hset : ∀ (v : URL) (p : List Char), URL.setPath v p = some u₀ →
      u₀.Scheme = v.Scheme ∧ u₀.ForceQuery = v.ForceQuery ∧ u₀.RawQuery = v.RawQuery ∧
        u₀.Opaque = v.Opaque := by
    intro v p hs
    simp only [URL.setPath, Option.map_eq_some'] at hs
    obtain ⟨path, -, e⟩ := hs
    rw [← e]
    exact ⟨rfl, rfl, rfl, rfl⟩
  unfold parseHier at h
  split at h
  · simp only [Option.some.injEq] at h
    rw [← h]
    exact ⟨rfl, rfl, rfl, Or.inr rfl⟩
  split at h
  · exact absurd h (by simp)
  split at h
  · simp only at h
    cases ha : parseAuthority ((r.drop 2).takeWhile (fun c => c != '/')) with
    | none => simp [ha] at h
    | some uh =>
      obtain ⟨user, host⟩ := uh
      simp only [ha, Option.some_bind] at h
      obtain ⟨a, b, c, d⟩ := hset _ _ h
      exact ⟨a, b, c, Or.inl d⟩
  split at h
  · obtain ⟨a, b, c, d⟩ := hset _ _ h
    exact ⟨a, b, c, Or.inl d⟩
  · obtain ⟨a, b, c, d⟩ := hset _ _ h
    exact ⟨a, b, c, Or.inl d⟩

/-- What `url.Parse` yields for a raw string with a non-empty query: no
forced `?`, no `?` in the opaque part, and a `?` in the raw string where
`cleanRefURL` looks for it. -/
theorem Parse_query_facts (raw : GoString) (u : URL) (hp : Parse raw = some u)
    (hq : u.RawQuery ≠ "") :
    u.ForceQuery = false ∧ '?' ∉ u.Opaque.data ∧
      Index (TrimPrefix raw u.Scheme) "?" ≠ -1 := by
  unfold Parse at hp
  cases hpn : parseNoFragment (url.cut '#' raw.data).1 with
  | none => simp [hpn] at hp
  | some u₀ =>
    rw [hpn, Option.some_bind] at hp
    have hfields : u.Opaque = u₀.Opaque ∧ u.ForceQuery = u₀.ForceQuery ∧
        u.RawQuery = u₀.RawQuery ∧ u.Scheme = u₀.Scheme := by
      split at hp
      · simp only [Option.some.injEq] at hp
        subst hp
        exact ⟨rfl, rfl, rfl, rfl⟩
      · simp only [URL.setFragment, Option.map_eq_some'] at hp
        obtain ⟨f, -, e⟩ := hp
        subst e
        exact ⟨rfl, rfl, rfl, rfl⟩
    obtain ⟨eO, eF, eQ, eS⟩ := hfields
    unfold parseNoFragment at hpn
    split at hpn
    · exact absurd hpn (by simp)
    split at hpn
    · simp only [Option.some.injEq] at hpn
      exact absurd (by rw [eQ, ← hpn]) hq
    cases hg : getScheme (url.cut '#' raw.data).1 with
    | none => simp [hg] at hpn
    | some sr =>
      obtain ⟨scheme, rest⟩ := sr
      simp only [hg, Option.some_bind] at hpn
      obtain ⟨hsch, hrest⟩ := getSchemeLoop_spec _ _ [] scheme rest
        (fun c hc => absurd hc (List.not_mem_nil _)) (fun c hc => hc) hg
      obtain ⟨a, b, c, d⟩ := parseHier_query _ _ u₀ hpn
      simp only at a b c d
      have hq' : (splitQuery rest).2.2 ≠ [] := by
        intro e
        apply hq
        rw [eQ, c, e]
      have hm : '?' ∈ rest := question_mem_of_splitQuery hq'
      have hcut : splitQuery rest = (false, (url.cut '?' rest).1, (url.cut '?' rest).2) := by
        unfold splitQuery
        split
        · rename_i hs
          exfalso
          apply hq'
          simp only [splitQuery, hs, and_self, if_true]
        · rfl
      refine ⟨?_, ?_, ?_⟩
      · rw [eF, b, hcut]
      · rw [eO]
        rcases d with d | d
        · rw [d]
          exact List.not_mem_nil _
        · rw [d, hcut]
          intro hc
          have := List.mem_takeWhile_imp hc
          simp at this
      · rw [eS, a]
        exact Index_TrimPrefix_of_raw raw _ (mem_of_mem_cut_fst (hrest _ hm))
          (question_not_mem_toLowerASCII scheme hsch)

/-- What `url.Parse` yields when it reads a host: no opaque part, a path that
is empty or rooted, a raw string that holds a `?` when there is a query, and
a `RawPath` that is empty or an encoding of the path. -/
theorem Parse_host_shape (raw : GoString) (u : URL) (hp : Parse raw = some u)
    (hne : u.Host ≠ "") :
    u.Opaque = "" ∧ (u.Path.data = [] ∨ u.Path.data.head? = some '/') ∧ rawAgrees raw u ∧
      (u.RawPath = "" ∨ unescape u.RawPath encoding.encodePath = some u.Path) := by
  unfold Parse at hp
  cases hpn : parseNoFragment (url.cut '#' raw.data).1 with
  | none => simp [hpn] at hp
  | some u₀ =>
    rw [hpn, Option.some_bind] at hp
    have hfields : u.Opaque = u₀.Opaque ∧ u.Host = u₀.Host ∧ u.Path = u₀.Path ∧
        u.RawPath = u₀.RawPath ∧ u.RawQuery = u₀.RawQuery ∧ u.Scheme = u₀.Scheme := by
      split at hp
      · simp only [Option.some.injEq] at hp
        subst hp
        exact ⟨rfl, rfl, rfl, rfl, rfl, rfl⟩
      · simp only [URL.setFragment, Option.map_eq_some'] at hp
        obtain ⟨f, -, e⟩ := hp
        subst e
        exact ⟨rfl, rfl, rfl, rfl, rfl, rfl⟩
    obtain ⟨eO, eH, eP, eR, eQ, eS⟩ := hfields
    have hne₀ : u₀.Host ≠ "" := by rw [← eH]; exact hne
    unfold parseNoFragment at hpn
    split at hpn
    · exact absurd hpn (by simp)
    split at hpn
    · simp only [Option.some.injEq] at hpn
      exact absurd (by rw [← hpn]) hne₀
    cases hg : getScheme (url.cut '#' raw.data).1 with
    | none => simp [hg] at hpn
    | some sr =>
      obtain ⟨scheme, rest⟩ := sr
      simp only [hg, Option.some_bind] at hpn
      obtain ⟨hsch, hrest⟩ := getSchemeLoop_spec _ _ [] scheme rest
        (fun c hc => absurd hc (List.not_mem_nil _)) (fun c hc => hc) hg
      obtain ⟨user, host, path, -, hpath, e⟩ := parseHier_host _ _ u₀ rfl hpn hne₀
      have hroot := dropWhile_slash_head ((splitQuery rest).2.1.drop 2)
      have e₁ : u₀.Opaque = "" := by rw [e]
      have e₃ : u₀.Path = ⟨path⟩ := by rw [e]
      have e₅ : u₀.RawQuery = ⟨(splitQuery rest).2.2⟩ := by rw [e]
      have e₆ : u₀.Scheme = ⟨toLowerASCII scheme⟩ := by rw [e]
      have e₈ : u₀.RawPath = "" ∨
          u₀.RawPath = ⟨((splitQuery rest).2.1.drop 2).dropWhile (fun c => c != '/')⟩ := by
        rw [e]
        simp only
        split
        · exact Or.inl rfl
        · exact Or.inr rfl
      refine ⟨by rw [eO, e₁], ?_, ?_, ?_⟩
      · rw [eP, e₃]
        exact unescapeBytes_path_head _ _ hpath hroot
      · intro hq
        rw [eQ, e₅] at hq
        rw [eS, e₆]
        have hq' : (splitQuery rest).2.2 ≠ [] := by
          intro c
          apply hq
          rw [c]
        have hm : '?' ∈ raw.data :=
          mem_of_mem_cut_fst (hrest _ (question_mem_of_splitQuery hq'))
        exact Index_TrimPrefix_of_raw raw _ hm (question_not_mem_toLowerASCII scheme hsch)
      · rw [eR, eP, e₃]
        rcases e₈ with h | h
        · exact Or.inl h
        · right
          rw [h]
          simp only [unescape, hpath, Option.map_some']

/-! ## Claims C4 and C6 on parsed referrers -/

/-- Claim C4 as stated fails, in two ways. For host `t.co`, which the claim
names, the display is the Twitter search URL, which holds a `?`, although the
referrer's only query key is `utm_source`. And a referrer whose fragment
holds a `?` keeps it: the query is dropped, the fragment is not. -/
theorem C4_counterexample :
    (Parse "https://t.co/abc123?utm_source=x" =
        some { Scheme := "https", Host := "t.co", Path := "/abc123", RawQuery := "utm_source=x" } ∧
      cleanRefURL "https://t.co/abc123?utm_source=x"
        { Scheme := "https", Host := "t.co", Path := "/abc123", RawQuery := "utm_source=x" } =
        some ("twitter.com/search?q=https%3A%2F%2Ft.co%2Fabc123", false) ∧
      '?' ∈ ("twitter.com/search?q=https%3A%2F%2Ft.co%2Fabc123" : GoString).data) ∧
    (Parse "https://example.com/a?utm_source=x#f?y" =
        some { Scheme := "https", Host := "example.com", Path := "/a",
               RawQuery := "utm_source=x", Fragment := "f?y" } ∧
      cleanRefURL "https://example.com/a?utm_source=x#f?y"
        { Scheme := "https", Host := "example.com", Path := "/a", RawQuery := "utm_source=x",
          Fragment := "f?y" } = some ("example.com/a#f?y", false) ∧
      '?' ∈ ("example.com/a#f?y" : GoString).data) := by
  decide

/-- Claim C4, amended: for every raw referrer and its parse `u` with a
non-empty query (so in particular a query of `utm_*` keys only), not caught by
the `t.co` rule (host `t.co` with a path longer than one byte) and with no
`?` in the fragment, `cleanRefURL` returns a display without `?`: no query
component is left. Host, user information and path are free. For a URL value
that is no parse in this model (a host in brackets),
`cleanRefURL_no_question` gives the same. -/
theorem C4_no_query (ref : GoString) (u : URL) (hparse : Parse ref = some u)
    (hq : u.RawQuery ≠ "") (ht : ¬ (u.Host = "t.co" ∧ len u.Path > 1))
    (hF : '?' ∉ u.Fragment.data) :
    ∃ d b, cleanRefURL ref u = some (d, b) ∧ '?' ∉ d.data := by
  obtain ⟨hf, ho, hi⟩ := Parse_query_facts ref u hparse hq
  exact cleanRefURL_no_question ref u hi ht hF hf ho

/-- Witness of C4: a referrer with user information, a port and an escaped
path, whose only query key is `utm_source`. -/
theorem C4_no_query_witness :
    ∃ d b, cleanRefURL "https://guest@example.com:8080/caf%C3%A9?utm_source=x"
        { Scheme := "https", User := some ⟨"guest", "", false⟩, Host := "example.com:8080",
          Path := "/caf\xc3\xa9", RawPath := "", RawQuery := "utm_source=x" } = some (d, b) ∧
      '?' ∉ d.data :=
  C4_no_query "https://guest@example.com:8080/caf%C3%A9?utm_source=x"
    { Scheme := "https", User := some ⟨"guest", "", false⟩, Host := "example.com:8080",
      Path := "/caf\xc3\xa9", RawPath := "", RawQuery := "utm_source=x" }
    (by decide) (by decide) (by decide) (by decide)

/-- Claim C6 as stated fails on parsed reddit referrers that meet each of its
conditions: a fragment is kept after the stripped path, user information
before the host, and a lone trailing `?` at the end. -/
theorem C6_counterexample :
    (Parse "https://old.reddit.com/r/programming/top#x" =
        some { Scheme := "https", Host := "old.reddit.com", Path := "/r/programming/top",
               Fragment := "x" } ∧
      groups (TrimPrefix "https://old.reddit.com/r/programming/top#x" "https") = none ∧
      cleanRefURL "https://old.reddit.com/r/programming/top#x"
        { Scheme := "https", Host := "old.reddit.com", Path := "/r/programming/top",
          Fragment := "x" } = some ("www.reddit.com/r/programming#x", false)) ∧
    (Parse "https://guest@old.reddit.com/r/programming/top" =
        some { Scheme := "https", User := some ⟨"guest", "", false⟩, Host := "old.reddit.com",
               Path := "/r/programming/top" } ∧
      groups (TrimPrefix "https://guest@old.reddit.com/r/programming/top" "https") = none ∧
      cleanRefURL "https://guest@old.reddit.com/r/programming/top"
        { Scheme := "https", User := some ⟨"guest", "", false⟩, Host := "old.reddit.com",
          Path := "/r/programming/top" } = some ("guest@www.reddit.com/r/programming", false)) ∧
    (Parse "https://old.reddit.com/r/programming/top?" =
        some { Scheme := "https", Host := "old.reddit.com", Path := "/r/programming/top",
               ForceQuery := true } ∧
      groups (TrimPrefix "https://old.reddit.com/r/programming/top?" "https") = none ∧
      cleanRefURL "https://old.reddit.com/r/programming/top?"
        { Scheme := "https", Host := "old.reddit.com", Path := "/r/programming/top",
          ForceQuery := true } = some ("www.reddit.com/r/programming?", false)) ∧
    ("/r/programming/top" : GoString) = "/r/programming" ++ "/top" ∧
    noEscape "/r/programming" encoding.encodePath ∧
    ("www.reddit.com/r/programming#x" : GoString) ≠ "www.reddit.com" ++ "/r/programming" ∧
    ("guest@www.reddit.com/r/programming" : GoString) ≠ "www.reddit.com" ++ "/r/programming" ∧
    ("www.reddit.com/r/programming?" : GoString) ≠ "www.reddit.com" ++ "/r/programming" := by
  decide

/-- Claim C6, amended: for a raw referrer and its parse `u` on
`www.reddit.com` or one of its aliases, with no user information, no fragment
and no lone trailing `?`, whose raw string is no `groups` key (as the code
looks it up, scheme trimmed) and whose path is `p ++ s` with `s` a listing
suffix and `p` in no need of escaping, `cleanRefURL` returns
`www.reddit.com` followed by `p`, with `isKnownGroup = false`: exactly one
suffix is removed, then generic cleanup runs. -/
theorem C6_reddit (ref : GoString) (u : URL) (p s : GoString) (hparse : Parse ref = some u)
    (hh : u.Host ∈ ["www.reddit.com", "old.reddit.com", "i.reddit.com", "np.reddit.com",
      "fr.reddit.com"])
    (hr : groups (TrimPrefix ref u.Scheme) = none)
    (hpath : u.Path = p ++ s) (hs : s ∈ ["/top", "/new", "/search", ".compact"])
    (hpe : noEscape p encoding.encodePath)
    (hu : u.User = none) (hF : u.Fragment = "") (hf : u.ForceQuery = false) :
    cleanRefURL ref u = some ("www.reddit.com" ++ p, false) := by
  have hne : u.Host ≠ "" := by
    intro e
    rw [e] at hh
    revert hh
    decide
  obtain ⟨ho, hP, hq, hraw⟩ := Parse_host_shape ref u hparse hne
  have hp : p = "" ∨ HasPrefix p "/" = true := by
    cases hd : p.data with
    | nil =>
      left
      exact String.ext hd
    | cons c cs =>
      right
      have hdat : u.Path.data = c :: (cs ++ s.data) := by
        rw [hpath, String.data_append, hd]
        rfl
      rw [hdat] at hP
      rcases hP with h | h
      · exact absurd h (by simp)
      · simp only [List.head?_cons, Option.some.injEq] at h
        subst h
        simp [HasPrefix, hd]
  exact cleanRefURL_reddit ref u p s hh hr hpath hs hpe hu hF hf ho hraw hp hq

/-- Witness of C6: the spec's concrete case
`https://old.reddit.com/r/programming/top?utm_source=x`. -/
theorem C6_reddit_witness :
    cleanRefURL "https://old.reddit.com/r/programming/top?utm_source=x"
      { Scheme := "https", Host := "old.reddit.com", Path := "/r/programming/top",
        RawQuery := "utm_source=x" } = some ("www.reddit.com/r/programming", false) :=
  C6_reddit "https://old.reddit.com/r/programming/top?utm_source=x"
    { Scheme := "https", Host := "old.reddit.com", Path := "/r/programming/top",
      RawQuery := "utm_source=x" } "/r/programming" "/top"
    (by decide) (by decide) (by decide) (by decide) (by decide) (by decide) rfl rfl rfl
